import Mathlib

/-!
# xor: repeating-key XOR over byte streams

A shallow embedding of `src/main.c` and the properties of its specification.

* Bytes and characters are natural numbers (a `uint8_t` is a `Nat` below 256, a `char`
  is its code); XOR of two bytes never leaves the byte range, so no reduction is needed.
* A C string is the list of its bytes before the terminating NUL; reading at the index
  equal to the length yields the NUL.
* The C library is modelled after the C standard: `fread`, `fwrite` on streams whose
  device behaviour (end-of-file, read error, full disk, failing close) is given by a `World`.
* The loops of the program are unbounded in C; here they take a bound on the number of
  iterations and return `none` when the bound is exhausted. Every theorem that says the
  program produces a result proves that the bound chosen by the caller is enough.
-/

namespace XorTool

/-! ## Data -/

/-- The bytes of a C string before its terminating NUL. -/
abbrev CStr := List Nat

/-- ASCII text as a C string. -/
def cstr (s : String) : CStr := s.toList.map Char.toNat

/-- The `FILE*` values the program holds. Input files are told apart by the position of
their path among the positional arguments (`KEY` is at position 0). -/
inductive Fp where
  | keyfp
  | infp (optind : Nat)
  | stdin
  | outfp
  | stdout
  deriving DecidableEq, Repr

/-- What the program does to the outside world, in order. A read records the sizes asked
for and the number of items returned; a write records the bytes handed to `fwrite` and
whether it returned the full count. -/
inductive Event where
  | usage
  | unrecognized (optopt : Nat)
  | keyRequired
  | hexError (index : Nat)
  | keyEmpty
  | perror (name : CStr)
  | fopen (fp : Fp) (path : CStr) (ok : Bool)
  | fstat (fp : Fp) (ok : Bool)
  | fread (fp : Fp) (size nmemb items : Nat)
  | fwrite (fp : Fp) (bytes : List Nat) (ok : Bool)
  | fclose (fp : Fp) (ok : Bool)
  deriving DecidableEq, Repr

/-! ## The C library -/

/-- A stream open for reading: the bytes it will still deliver, whether the device fails
(rather than signalling end-of-file) once they are used up, and the error indicator. -/
structure InStream where
  id : Fp
  data : List Nat
  failing : Bool
  error : Bool
  deriving DecidableEq, Repr

/-- A stream open for writing: the bytes it has accepted and how many more the device
takes (`none`: no limit). -/
structure OutStream where
  id : Fp
  written : List Nat
  room : Option Nat
  deriving DecidableEq, Repr

/-- The call `ferror(fp)`. -/
def ferror (fp : InStream) : Bool := fp.error

/-- The call `fread(buf, size, nmemb, fp)`: the number of complete items read, the bytes
stored at the start of `buf`, and the stream afterwards. With `size` or `nmemb` zero
nothing is read and the result is 0. A short count happens only at end-of-file or on a
read error, and the latter sets the error indicator. -/
def fread (size nmemb : Nat) (fp : InStream) : Nat × List Nat × InStream :=
  if size * nmemb = 0 then (0, [], fp)
  else if size * nmemb ≤ fp.data.length then
    (nmemb, fp.data.take (size * nmemb), { fp with data := fp.data.drop (size * nmemb) })
  else
    (fp.data.length / size, fp.data, { fp with data := [], error := fp.error || fp.failing })

/-- The call `fwrite(buf, size, nmemb, fp)` where `buf` holds the `size * nmemb` bytes to
write: the number of complete items written and the stream afterwards. With `size` or
`nmemb` zero the result is 0. When the device has no room for all the bytes it takes
those that fit. -/
def fwrite (buf : List Nat) (size nmemb : Nat) (fp : OutStream) : Nat × OutStream :=
  if size * nmemb = 0 then (0, fp)
  else
    match fp.room with
    | none => (nmemb, { fp with written := fp.written ++ buf })
    | some r =>
      if buf.length ≤ r then
        (nmemb, { fp with written := fp.written ++ buf, room := some (r - buf.length) })
      else
        (r / size, { fp with written := fp.written ++ buf.take r, room := some 0 })

/-! ## `parse_half_hex_byte`, `parse_hex_byte` (main.c 29-52) -/

/-- One hex digit: `none` stands for the C result -1. The character codes are
48 = '0', 57 = '9', 97 = 'a', 102 = 'f', 65 = 'A', 70 = 'F'. -/
def parse_half_hex_byte (ch : Nat) : Option Nat :=
  if 48 ≤ ch ∧ ch ≤ 57 then some (ch - 48)
  else if 97 ≤ ch ∧ ch ≤ 102 then some (ch - 97 + 10)
  else if 65 ≤ ch ∧ ch ≤ 70 then some (ch - 65 + 10)
  else none

/-- The character `str[i]` of a C string; the terminating NUL sits at index `length`. -/
def charAt (str : CStr) (i : Nat) : Nat := str.getD i 0

/-- Two hex digits at `str + ptr`: `none` stands for the C result -1. -/
def parse_hex_byte (str : CStr) (ptr : Nat) : Option Nat :=
  match parse_half_hex_byte (charAt str ptr) with
  | none => none
  | some hi =>
    match parse_half_hex_byte (charAt str (ptr + 1)) with
    | none => none
    | some lo => some ((hi <<< 4) ||| lo)

/-! ## `fxor` (main.c 54-75) -/

/-- Line 67: `buf[index] ^= key[index]`. -/
def xorAt (key buf : List Nat) (index : Nat) : List Nat :=
  buf.set index (buf.getD index 0 ^^^ key.getD index 0)

/-- The loop of lines 66-68: `buf[index] ^= key[index]` for `index < count`. -/
def xorBuf (key : List Nat) (count : Nat) (buf : List Nat) : List Nat :=
  (List.range count).foldl (xorAt key) buf

/-- What a call of `fxor` leaves behind: its return value, both streams, and the events
it added. -/
structure FxorResult where
  ret : Int
  infp : InStream
  outfp : OutStream
  trace : List Event
  deriving DecidableEq, Repr

/-- The `for (;;)` loop of `fxor`, at most `fuel` iterations. The buffer is represented
by the `count` bytes that `fread` stored in it: the loop never looks at the rest. -/
def fxorLoop (infilename outfilename : CStr) (key : List Nat) (size : Nat) :
    Nat → InStream → OutStream → List Event → Option FxorResult
  | 0, _, _, _ => none
  | fuel + 1, infp, outfp, trace =>
    let r := fread 1 size infp
    let count := r.1
    let infp1 := r.2.2
    let trace1 := trace ++ [Event.fread infp.id 1 size count]
    if count < size ∧ ferror infp1 = true then
      some ⟨-1, infp1, outfp, trace1 ++ [Event.perror infilename]⟩
    else if count < size ∧ count = 0 then
      some ⟨0, infp1, outfp, trace1⟩
    else
      let buf := xorBuf key count r.2.1
      let w := fwrite buf count 1 outfp
      let trace2 := trace1 ++ [Event.fwrite outfp.id buf (w.1 == 1)]
      if w.1 ≠ 1 then
        some ⟨-1, infp1, w.2, trace2 ++ [Event.perror outfilename]⟩
      else
        fxorLoop infilename outfilename key size fuel infp1 w.2 trace2

/-- The function `fxor`. One iteration per started chunk and one more to see the end of
the stream: `length + 2` iterations are enough (`fxor_clean`). -/
def fxor (infp : InStream) (infilename : CStr) (outfp : OutStream) (outfilename : CStr)
    (key : List Nat) (size : Nat) : Option FxorResult :=
  fxorLoop infilename outfilename key size (infp.data.length + 2) infp outfp []

/-! ## `main` (main.c 83-305) -/

/-- The `enum KeyType`. -/
inductive KeyType where
  | KEY_HEX
  | KEY_STR
  | KEY_FILE
  deriving DecidableEq, Repr

/-- One return of `getopt_long`: the option character with `optarg` and `optopt` as the
call left them. The end of the options (return value -1) is the end of the list. -/
structure OptRet where
  opt : Char
  optarg : Option CStr
  optopt : Nat
  deriving DecidableEq, Repr

/-- What a path names when it is opened for reading: whether `fopen` and `fstat` succeed,
the size `fstat` reports, the bytes the stream delivers, whether reading past them is an
error, and whether `fclose` succeeds. -/
structure FileSpec where
  openOk : Bool
  statOk : Bool
  st_size : Nat
  data : List Nat
  failing : Bool
  closeOk : Bool
  deriving DecidableEq, Repr

/-- The environment of one run. `staleCloseOk` is what `fclose` answers when it is handed
a stream that was closed before: C leaves that call undefined, the model only records it. -/
structure World where
  file : CStr → FileSpec
  stdinData : List Nat
  stdinFailing : Bool
  outOpenOk : Bool
  outRoom : Option Nat
  outCloseOk : Bool
  keyAllocOk : Bool
  bufAllocOk : Bool
  staleCloseOk : Bool

/-- The local variables of `main` together with the events so far. A pointer is `none`
(or `false`) when it is NULL. `keyfpClosed` is not a C variable: it remembers that the
stream `keyfp` points to has been closed already. -/
structure MainState where
  key_type : KeyType
  output : Option CStr
  key_size : Nat
  key : Option (List Nat)
  status : Int
  outfp : Option OutStream
  infp : Option InStream
  keyfp : Bool
  keyfpClosed : Bool
  infilename : CStr
  buf : Bool
  trace : List Event
  deriving DecidableEq, Repr

/-- The initial values of lines 92-101. -/
def MainState.init : MainState :=
  { key_type := KeyType.KEY_HEX, output := none, key_size := 0, key := none, status := 0,
    outfp := none, infp := none, keyfp := false, keyfpClosed := false, infilename := [],
    buf := false, trace := [] }

/-- Add events to the state. -/
def MainState.log (l : MainState) (es : List Event) : MainState :=
  { l with trace := l.trace ++ es }

/-- Where a stretch of `main` leaves: `goto error`, or falling through. -/
inductive Flow where
  | error (l : MainState)
  | next (l : MainState)
  deriving DecidableEq, Repr

/-- How the option loop ends. -/
inductive Parsed where
  | help
  | error (l : MainState)
  | done (l : MainState)
  deriving DecidableEq, Repr

/-- The option loop of lines 103-135, over the successive returns of `getopt_long`. -/
def parseOptions : List OptRet → MainState → Parsed
  | [], l => Parsed.done l
  | o :: rest, l =>
    if o.opt = 'h' then Parsed.help
    else if o.opt = 'x' then parseOptions rest { l with key_type := KeyType.KEY_HEX }
    else if o.opt = 's' then parseOptions rest { l with key_type := KeyType.KEY_STR }
    else if o.opt = 'f' then parseOptions rest { l with key_type := KeyType.KEY_FILE }
    else if o.opt = 'o' then parseOptions rest { l with output := o.optarg }
    else if o.opt = '?' then Parsed.error (l.log [Event.unrecognized o.optopt, Event.usage])
    else parseOptions rest l

/-- How the hex decode loop ends: with the key buffer filled, or with the index printed
by its error message. -/
inductive Decoded where
  | ok (key : List Nat)
  | error (index : Nat)
  deriving DecidableEq, Repr

/-- The `while (*ptr)` loop of lines 155-165, at most `fuel` iterations: `ptr` is the
offset `ptr - keyarg`. The result is the key buffer, or the index printed by the error
message. -/
def hexLoop (keyarg : CStr) : Nat → Nat → Nat → List Nat → Option Decoded
  | 0, _, _, _ => none
  | fuel + 1, ptr, index, key =>
    if charAt keyarg ptr = 0 then some (Decoded.ok key)
    else
      match parse_hex_byte keyarg ptr with
      | none => some (Decoded.error ptr)
      | some byte => hexLoop keyarg fuel (ptr + 2) (index + 1) (key.set index (byte % 256))

/-- The loop of lines 153-165 from `ptr = keyarg`, `index = 0`, on the zeroed buffer of
`key_size` bytes. One iteration per started pair and one more to see the NUL. -/
def hexDecode (keyarg : CStr) : Option Decoded :=
  hexLoop keyarg (keyarg.length + 1) 0 0 (List.replicate (keyarg.length / 2) 0)

/-- One access of the decode loop to memory: a read of `keyarg[offset]` or a write of
`key[index]`. -/
inductive Access where
  | read (offset : Nat)
  | write (index : Nat)
  deriving DecidableEq, Repr

/-- The characters `parse_hex_byte` reads at `str + ptr`: `str[0]`, and `str[1]` when
`str[0]` is a hex digit. -/
def parse_hex_byte_reads (str : CStr) (ptr : Nat) : List Access :=
  match parse_half_hex_byte (charAt str ptr) with
  | none => [Access.read ptr]
  | some _ => [Access.read ptr, Access.read (ptr + 1)]

/-- The loop of lines 155-165 once more, with the memory accesses it makes in order: the
test `*ptr`, the reads of `parse_hex_byte`, the store `key[index ++]`. -/
def hexLoopLog (keyarg : CStr) :
    Nat → Nat → Nat → List Nat → List Access → Option (Decoded × List Access)
  | 0, _, _, _, _ => none
  | fuel + 1, ptr, index, key, log =>
    if charAt keyarg ptr = 0 then some (Decoded.ok key, log ++ [Access.read ptr])
    else
      match parse_hex_byte keyarg ptr with
      | none =>
        some (Decoded.error ptr, log ++ [Access.read ptr] ++ parse_hex_byte_reads keyarg ptr)
      | some byte =>
        hexLoopLog keyarg fuel (ptr + 2) (index + 1) (key.set index (byte % 256))
          (log ++ [Access.read ptr] ++ parse_hex_byte_reads keyarg ptr
            ++ [Access.write index])

/-- The `case KEY_HEX` of lines 146-166. -/
def loadHexKey (w : World) (keyarg : CStr) (l : MainState) : Option Flow :=
  let l1 := { l with key_size := keyarg.length / 2 }
  if w.keyAllocOk = false then
    some (Flow.error (l1.log [Event.perror (cstr "allocating memory for key")]))
  else
    match hexDecode keyarg with
    | none => none
    | some (Decoded.error index) =>
      some (Flow.error
        ({ l1 with key := some (List.replicate l1.key_size 0) }.log [Event.hexError index]))
    | some (Decoded.ok key) => some (Flow.next { l1 with key := some key })

/-- The `case KEY_STR` of lines 168-171. -/
def loadStrKey (keyarg : CStr) (l : MainState) : Flow :=
  Flow.next { l with key := some keyarg, key_size := keyarg.length }

/-- The `case KEY_FILE` of lines 173-204. -/
def loadFileKey (w : World) (keyarg : CStr) (l : MainState) : Flow :=
  let f := w.file keyarg
  if f.openOk = false then
    Flow.error (l.log [Event.fopen Fp.keyfp keyarg false, Event.perror keyarg])
  else
    let l1 := { l with keyfp := true }.log [Event.fopen Fp.keyfp keyarg true]
    if f.statOk = false then
      Flow.error (l1.log [Event.fstat Fp.keyfp false, Event.perror keyarg])
    else
      let l2 := { l1 with key_size := f.st_size }.log [Event.fstat Fp.keyfp true]
      if w.keyAllocOk = false then
        Flow.error (l2.log [Event.perror (cstr "allocating memory for key")])
      else
        let r := fread f.st_size 1 ⟨Fp.keyfp, f.data, f.failing, false⟩
        let l3 := { l2 with key := some (r.2.1 ++ List.replicate (f.st_size - r.2.1.length) 0) }.log
          [Event.fread Fp.keyfp f.st_size 1 r.1]
        if r.1 ≠ 1 then
          Flow.error (l3.log [Event.perror keyarg])
        else if f.closeOk = false then
          Flow.error ({ l3 with keyfp := false, keyfpClosed := true }.log
            [Event.fclose Fp.keyfp false, Event.perror keyarg])
        else
          Flow.next ({ l3 with keyfpClosed := true }.log [Event.fclose Fp.keyfp true])

/-- The `switch (key_type)` of lines 145-208. -/
def loadKey (w : World) (keyarg : CStr) (l : MainState) : Option Flow :=
  match l.key_type with
  | KeyType.KEY_HEX => loadHexKey w keyarg l
  | KeyType.KEY_STR => some (loadStrKey keyarg l)
  | KeyType.KEY_FILE => some (loadFileKey w keyarg l)

/-- Lines 223-233: select the output sink. The result carries `outfilename`. -/
def openOutput (w : World) (l : MainState) : Except MainState (MainState × OutStream × CStr) :=
  match l.output with
  | some output =>
    if w.outOpenOk = false then
      Except.error (l.log [Event.fopen Fp.outfp output false, Event.perror output])
    else
      let fp : OutStream := ⟨Fp.outfp, [], w.outRoom⟩
      Except.ok ({ l with outfp := some fp }.log [Event.fopen Fp.outfp output true], fp, output)
  | none =>
    let fp : OutStream := ⟨Fp.stdout, [], w.outRoom⟩
    Except.ok ({ l with outfp := some fp }, fp, cstr "<stdout>")

/-- The `for (; optind < argc; ++ optind)` loop of lines 236-256 over the remaining
arguments; `optind` counts from the position of `KEY`. -/
def inputLoop (w : World) (outfilename : CStr) (key : List Nat) (key_size : Nat) :
    List CStr → Nat → OutStream → MainState → Option Flow
  | [], _, _, l => some (Flow.next l)
  | infilename :: rest, optind, outfp, l =>
    let f := w.file infilename
    let l1 := { l with infilename := infilename }
    if f.openOk = false then
      some (Flow.error
        ({ l1 with infp := none }.log
          [Event.fopen (Fp.infp optind) infilename false, Event.perror infilename]))
    else
      let infp : InStream := ⟨Fp.infp optind, f.data, f.failing, false⟩
      let l2 := l1.log [Event.fopen (Fp.infp optind) infilename true]
      match fxor infp infilename outfp outfilename key key_size with
      | none => none
      | some r =>
        let l3 := { l2 with infp := some r.infp, outfp := some r.outfp }.log r.trace
        if r.ret ≠ 0 then some (Flow.error l3)
        else if f.closeOk = false then
          some (Flow.error
            ({ l3 with infp := none }.log
              [Event.fclose (Fp.infp optind) false, Event.perror infilename]))
        else
          inputLoop w outfilename key key_size rest (optind + 1) r.outfp
            ({ l3 with infp := none }.log [Event.fclose (Fp.infp optind) true])

/-- Lines 235-261: the named input files in order, or standard input when there are none. -/
def processInputs (w : World) (files : List CStr) (outfilename : CStr) (outfp : OutStream)
    (l : MainState) : Option Flow :=
  match files with
  | _ :: _ => inputLoop w outfilename (l.key.getD []) l.key_size files 1 outfp l
  | [] =>
    match fxor ⟨Fp.stdin, w.stdinData, w.stdinFailing, false⟩ (cstr "<stdin>") outfp outfilename
        (l.key.getD []) l.key_size with
    | none => none
    | some r =>
      let l1 := { l with outfp := some r.outfp }.log r.trace
      if r.ret ≠ 0 then some (Flow.error l1) else some (Flow.next l1)

/-- Lines 143-263: from `keyarg = argv[optind]` to `goto end`. -/
def mainBody (w : World) (keyarg : CStr) (files : List CStr) (l : MainState) : Option Flow :=
  match loadKey w keyarg l with
  | none => none
  | some (Flow.error l1) => some (Flow.error l1)
  | some (Flow.next l1) =>
    if l1.key_size = 0 then some (Flow.error (l1.log [Event.keyEmpty]))
    else if w.bufAllocOk = false then
      some (Flow.error (l1.log [Event.perror (cstr "allocating buffer")]))
    else
      match openOutput w { l1 with buf := true } with
      | Except.error l2 => some (Flow.error l2)
      | Except.ok (l2, outfp, outfilename) => processInputs w files outfilename outfp l2

/-- What a run leaves behind: the exit status, the events, and the bytes the output sink
has accepted. -/
structure Result where
  status : Int
  trace : List Event
  output : List Nat
  deriving DecidableEq, Repr

/-- The state in which the cleanup hands `fclose` a key stream that is closed already:
`keyfp` is not NULL although line 198 has closed the stream. C leaves that call
undefined. -/
def MainState.staleClose (l : MainState) : Bool :=
  l.keyfp && l.keyfpClosed

/-- Lines 275-281: close `keyfp` when it is not NULL. In a state with `staleClose` the
call is undefined in C: the model only records it, with the answer `World.staleCloseOk`,
and what follows it says nothing about the program. -/
def cleanupKeyfp (w : World) (keyarg : CStr) (l : MainState) : MainState :=
  if l.keyfp = true then
    let ok := if l.keyfpClosed = true then w.staleCloseOk else (w.file keyarg).closeOk
    if ok = false then
      { l with status := 1, keyfp := false }.log
        [Event.fclose Fp.keyfp false, Event.perror keyarg]
    else { l with keyfp := false }.log [Event.fclose Fp.keyfp true]
  else l

/-- Lines 283-289: close `infp` when it is not NULL. -/
def cleanupInfp (w : World) (l : MainState) : MainState :=
  match l.infp with
  | some fp =>
    if (w.file l.infilename).closeOk = false then
      { l with status := 1, infp := none }.log
        [Event.fclose fp.id false, Event.perror l.infilename]
    else { l with infp := none }.log [Event.fclose fp.id true]
  | none => l

/-- Lines 291-297: close `outfp` when an output path was given and the stream is open.
The bytes the sink has accepted are kept for the result. -/
def cleanupOutfp (w : World) (l : MainState) : MainState :=
  match l.output, l.outfp with
  | some output, some fp =>
    if w.outCloseOk = false then
      { l with status := 1 }.log [Event.fclose fp.id false, Event.perror output]
    else l.log [Event.fclose fp.id true]
  | _, _ => l

/-- The label `end:` of lines 268-304. Freeing memory leaves no event. -/
def cleanup (w : World) (keyarg : CStr) (l : MainState) : Result :=
  let l3 := cleanupOutfp w (cleanupInfp w (cleanupKeyfp w keyarg l))
  { status := l3.status, trace := l3.trace,
    output := match l3.outfp with
      | some fp => fp.written
      | none => [] }

/-- The label `error:` of lines 265-266, falling through to `end:`. -/
def errorExit (w : World) (keyarg : CStr) (l : MainState) : Result :=
  cleanup w keyarg { l with status := 1 }

/-- The function `main`: `opts` are the successive returns of `getopt_long` and `args`
the arguments `argv[optind ..]` left when it returns -1. -/
def main (w : World) (opts : List OptRet) (args : List CStr) : Option Result :=
  match parseOptions opts MainState.init with
  | Parsed.help => some { status := 0, trace := [Event.usage], output := [] }
  | Parsed.error l => some (errorExit w [] l)
  | Parsed.done l =>
    match args with
    | [] => some (errorExit w [] (l.log [Event.keyRequired, Event.usage]))
    | keyarg :: files =>
      match mainBody w keyarg files l with
      | none => none
      | some (Flow.error l1) => some (errorExit w keyarg l1)
      | some (Flow.next l1) => some (cleanup w keyarg l1)

/-- Whether a run reaches `end:` in a state with `staleClose`. The only statement that
closes the key stream before the cleanup is line 198, at the end of key loading, and
nothing after it changes `keyfp`: these are the runs whose key loading falls through with
`keyfp` left set. The result of every other run is the same whatever `World.staleCloseOk`
is (`main_defined`). -/
def reachesStaleClose (w : World) (opts : List OptRet) (args : List CStr) : Bool :=
  match parseOptions opts MainState.init, args with
  | Parsed.done l, keyarg :: _ =>
    match loadKey w keyarg l with
    | some (Flow.next l1) => l1.staleClose
    | _ => false
  | _, _ => false

/-! ## Command line: the option table and `getopt_long` -/

/-- The `has_arg` field of a `struct option`. -/
inductive HasArg where
  | no_argument
  | required_argument
  deriving DecidableEq, Repr

/-- One entry of a `struct option` table with `flag = 0`: the long name, whether it takes
an argument, and the value `getopt_long` returns for it. -/
structure LongOption where
  name : CStr
  has_arg : HasArg
  val : Char
  deriving DecidableEq, Repr

/-- The table `options` of lines 84-91. -/
def options : List LongOption :=
  [ ⟨cstr "help", HasArg.no_argument, 'h'⟩,
    ⟨cstr "hex", HasArg.no_argument, 'x'⟩,
    ⟨cstr "str", HasArg.no_argument, 's'⟩,
    ⟨cstr "file", HasArg.no_argument, 'f'⟩,
    ⟨cstr "output", HasArg.no_argument, 'o'⟩ ]

/-- The option string of line 104. -/
def optstring : CStr := cstr "hxsfo:"

/-- Short option lookup, after getopt(3): `none` when `c` is not in the option string,
otherwise whether a colon follows it (the option takes an argument). 58 is ':'. -/
def shortHasArg : CStr → Nat → Option Bool
  | [], _ => none
  | o :: rest, c =>
    if o = c ∧ c ≠ 58 then some (rest.head? = some 58) else shortHasArg rest c

/-- The options of one argument `-abc`, after getopt(3): the returns for the characters
in turn, and the option character that still waits for its argument in the next element
of `argv`, if any. An option that takes an argument uses the rest of the element when
there is one. -/
def shortCluster (optstr : CStr) : CStr → List OptRet × Option Nat
  | [] => ([], none)
  | c :: cs =>
    match shortHasArg optstr c with
    | none => (⟨'?', none, c⟩ :: (shortCluster optstr cs).1, (shortCluster optstr cs).2)
    | some false =>
      (⟨Char.ofNat c, none, 0⟩ :: (shortCluster optstr cs).1, (shortCluster optstr cs).2)
    | some true =>
      match cs with
      | [] => ([], some c)
      | _ :: _ => ([⟨Char.ofNat c, some cs, 0⟩], none)

/-- Long option lookup, after getopt_long(3): the entry with exactly this name, or else
the only entry the name abbreviates. -/
def lookupLong (longopts : List LongOption) (name : CStr) : Option LongOption :=
  match longopts.find? (fun o => o.name = name) with
  | some o => some o
  | none =>
    match longopts.filter (fun o => name.isPrefixOf o.name) with
    | [o] => some o
    | _ => none

/-- All the returns of `getopt_long(argc, argv, optstr, longopts, NULL)` up to -1, and the
arguments `argv[optind ..]` it leaves, over the elements of `argv` after the program name
(GNU behaviour: non-options are moved behind the options, `--` ends the options).
61 is '=', 45 is '-'. -/
def getopt_long (optstr : CStr) (longopts : List LongOption) :
    List CStr → List OptRet × List CStr
  | [] => ([], [])
  | arg :: rest =>
    if arg = cstr "--" then ([], rest)
    else if (cstr "--").isPrefixOf arg then
      let body := arg.drop 2
      let name := body.takeWhile (fun c => c ≠ 61)
      let given : Option CStr :=
        if name.length < body.length then some (body.drop (name.length + 1)) else none
      match lookupLong longopts name with
      | none => (⟨'?', none, 0⟩ :: (getopt_long optstr longopts rest).1,
          (getopt_long optstr longopts rest).2)
      | some o =>
        match o.has_arg, given with
        | HasArg.no_argument, none =>
          (⟨o.val, none, 0⟩ :: (getopt_long optstr longopts rest).1,
            (getopt_long optstr longopts rest).2)
        | HasArg.no_argument, some _ =>
          (⟨'?', none, o.val.toNat⟩ :: (getopt_long optstr longopts rest).1,
            (getopt_long optstr longopts rest).2)
        | HasArg.required_argument, some a =>
          (⟨o.val, some a, 0⟩ :: (getopt_long optstr longopts rest).1,
            (getopt_long optstr longopts rest).2)
        | HasArg.required_argument, none =>
          match rest with
          | [] => ([⟨'?', none, o.val.toNat⟩], [])
          | a :: rest1 =>
            (⟨o.val, some a, 0⟩ :: (getopt_long optstr longopts rest1).1,
              (getopt_long optstr longopts rest1).2)
    else if arg.head? = some 45 ∧ 1 < arg.length then
      match (shortCluster optstr (arg.drop 1)).2 with
      | none =>
        ((shortCluster optstr (arg.drop 1)).1 ++ (getopt_long optstr longopts rest).1,
          (getopt_long optstr longopts rest).2)
      | some c =>
        match rest with
        | [] => ((shortCluster optstr (arg.drop 1)).1 ++ [⟨'?', none, c⟩], [])
        | a :: rest1 =>
          ((shortCluster optstr (arg.drop 1)).1 ++ [⟨Char.ofNat c, some a, 0⟩]
            ++ (getopt_long optstr longopts rest1).1,
            (getopt_long optstr longopts rest1).2)
    else
      ((getopt_long optstr longopts rest).1, arg :: (getopt_long optstr longopts rest).2)

/-- The program as it is started: `argv[0]` is the program name, the option loop of
`main` reads the returns of `getopt_long` on the rest. -/
def mainArgv (w : World) (argv : List CStr) : Option Result :=
  main w (getopt_long optstring options argv.tail).1
    (getopt_long optstring options argv.tail).2

/-! ## Definitions that follow the specification -/

/-- The transform `T` of the specification: output byte `i` is input byte `i` XOR key byte
`i mod k`. -/
def cyclicXor (key data : List Nat) : List Nat :=
  (List.range data.length).map (fun i => data.getD i 0 ^^^ key.getD (i % key.length) 0)

/-- The concatenation `T(f1) ++ ... ++ T(fn)` of the transforms of the inputs, each with
the key from offset 0. -/
def concatTransforms (key : List Nat) : List (List Nat) → List Nat
  | [] => []
  | f :: fs => cyclicXor key f ++ concatTransforms key fs

/-- The contents of the input sources of a run: the named files in argument order, or
standard input when no file is named. -/
def inputSources (w : World) (files : List CStr) : List (List Nat) :=
  match files with
  | [] => [w.stdinData]
  | _ :: _ => files.map (fun f => (w.file f).data)

/-- The sum of the lengths of the input sources. -/
def totalLength (sources : List (List Nat)) : Nat :=
  (sources.map List.length).sum

/-- How many bytes of a stream reach the transform: all of them, or, when reading past
the data is an error, those delivered in whole chunks of `k` (the short read that
reports the error is dropped). -/
def deliveredLength (k : Nat) (data : List Nat) (failing : Bool) : Nat :=
  if failing = true then k * (data.length / k) else data.length

/-- How many of `avail` bytes a sink with the given room accepts. -/
def acceptedLength (room : Option Nat) (avail : Nat) : Nat :=
  match room with
  | none => avail
  | some r => min avail r

/-- The ASCII hex digits `0-9`, `a-f`, `A-F`. -/
def isHexDigit (c : Nat) : Bool :=
  decide (c ∈ cstr "0123456789abcdefABCDEF")

/-- The value `v` of a hex digit: '0'-'9' are 0-9, 'a'-'f' and 'A'-'F' are 10-15 (the
position of the digit in the digit sequence of its case). -/
def hexVal (c : Nat) : Nat :=
  min ((cstr "0123456789abcdef").indexOf c) ((cstr "0123456789ABCDEF").indexOf c)

/-- The index of the first character of a string that is not a hex digit; the length of
the string (the index of its terminating NUL) when all its characters are hex digits. -/
def firstInvalidDigit (s : CStr) : Nat :=
  s.findIdx (fun c => !isHexDigit c)

/-- The events that touch an input source or the output sink: opening, reading, writing
or closing any stream other than the key file. -/
def Event.onData : Event → Bool
  | Event.fopen fp _ _ => fp != Fp.keyfp
  | Event.fstat fp _ => fp != Fp.keyfp
  | Event.fread fp _ _ _ => fp != Fp.keyfp
  | Event.fwrite _ _ _ => true
  | Event.fclose fp _ => fp != Fp.keyfp
  | _ => false

/-- The state a stretch of `main` ends in. -/
def Flow.state : Flow → MainState
  | Flow.error l => l
  | Flow.next l => l

/-! ## Example environments -/

/-- A path that names no file. -/
def noFile : FileSpec :=
  { openOk := false, statOk := false, st_size := 0, data := [], failing := false,
    closeOk := false }

/-- A regular file with the given contents, on which nothing fails. -/
def regularFile (data : List Nat) : FileSpec :=
  { openOk := true, statOk := true, st_size := data.length, data := data, failing := false,
    closeOk := true }

/-- An environment in which nothing fails: `f1` holds the byte 0, `f2` the bytes 0 0 0,
`key` the bytes 1 2, `empty` is an empty file, no other path exists, and standard input
delivers 7 8 9. -/
def quietWorld : World :=
  { file := fun path =>
      if path = cstr "f1" then regularFile [0]
      else if path = cstr "f2" then regularFile [0, 0, 0]
      else if path = cstr "key" then regularFile [1, 2]
      else if path = cstr "empty" then regularFile []
      else noFile,
    stdinData := [7, 8, 9], stdinFailing := false, outOpenOk := true, outRoom := none,
    outCloseOk := true, keyAllocOk := true, bufAllocOk := true, staleCloseOk := true }

/-- How many times the events close the stream `fp`. -/
def closeCount (fp : Fp) (trace : List Event) : Nat :=
  trace.countP (fun e => match e with
    | Event.fclose q _ => q == fp
    | _ => false)

/-- How many times the events open the stream `fp` successfully. -/
def openCount (fp : Fp) (trace : List Event) : Nat :=
  trace.countP (fun e => match e with
    | Event.fopen q _ true => q == fp
    | _ => false)

/-- The calls of `fread` among the events. -/
def Event.isFread : Event → Bool
  | Event.fread _ _ _ _ => true
  | _ => false

/-- The lengths of the chunks handed to `fwrite`, in order. -/
def writeSizes : List Event → List Nat
  | [] => []
  | Event.fwrite _ buf _ :: es => buf.length :: writeSizes es
  | _ :: es => writeSizes es

/-- The number of reads `fxor` issues on a stream of `n` bytes that it reads to the end
with chunks of `k` bytes: one per started chunk and one that finds the end. -/
def readBound (k n : Nat) : Nat :=
  n / k + 1 + (if n % k = 0 then 0 else 1)

/-- The calls of `fwrite` that did not transfer the whole chunk. -/
def Event.isFailedWrite : Event → Bool
  | Event.fwrite _ _ false => true
  | _ => false

/-- The shape of the events `es` of a call of the loop of `fxor` with result `r`: which
events occur, the lengths of the chunks written, the number of reads, and how the run ends
(with a read of no byte, with a read error, or with a write that is not complete). -/
structure FxorEvents (inname outname : CStr) (size : Nat) (infp : InStream) (outfp : OutStream)
    (r : FxorResult) (es : List Event) : Prop where
  members : ∀ e ∈ es, (∃ c, e = Event.fread infp.id 1 size c) ∨
    (∃ buf ok, e = Event.fwrite outfp.id buf ok ∧ 1 ≤ buf.length ∧ buf.length ≤ size) ∨
    e = Event.perror inname ∨ e = Event.perror outname
  sizes : ∀ c ∈ (writeSizes es).dropLast, c = size
  reads : es.countP Event.isFread ≤ readBound size infp.data.length
  atEnd : infp.data = [] → writeSizes es = []
  ending :
    (r.ret = 0 ∧ r.infp.error = false ∧ (∀ e ∈ es, Event.isFailedWrite e = false) ∧
      ∃ pre, es = pre ++ [Event.fread infp.id 1 size 0]) ∨
    (r.ret = -1 ∧ r.infp.error = true ∧ (∀ e ∈ es, Event.isFailedWrite e = false) ∧
      ∃ pre c, es = pre ++ [Event.fread infp.id 1 size c, Event.perror inname]) ∨
    (r.ret = -1 ∧ r.infp.error = false ∧
      ∃ pre buf, es = pre ++ [Event.fwrite outfp.id buf false, Event.perror outname] ∧
        ∀ e ∈ pre, Event.isFailedWrite e = false)

/-- The indices of the key buffer that the accesses store to, in order. -/
def writesOf : List Access → List Nat
  | [] => []
  | Access.write i :: rest => i :: writesOf rest
  | Access.read _ :: rest => writesOf rest

/-- The stream an event is about, if any. -/
def Event.fp : Event → Option Fp
  | Event.fopen fp _ _ => some fp
  | Event.fstat fp _ => some fp
  | Event.fread fp _ _ _ => some fp
  | Event.fwrite fp _ _ => some fp
  | Event.fclose fp _ => some fp
  | _ => none

/-- The calls of `fopen` for the named output file. -/
def Event.isOutputOpen : Event → Bool
  | Event.fopen Fp.outfp _ _ => true
  | _ => false

/-- The positions of the input files that the events try to open, in order. -/
def openedInputs : List Event → List Nat
  | [] => []
  | Event.fopen (Fp.infp j) _ _ :: es => j :: openedInputs es
  | _ :: es => openedInputs es

/-- Nothing fails on the files: each opens, reads without error and closes, and the sink
has room for all their bytes. -/
def filesFine (w : World) (files : List CStr) (room : Option Nat) : Prop :=
  (∀ f ∈ files, (w.file f).openOk = true ∧ (w.file f).failing = false ∧
    (w.file f).closeOk = true) ∧
  ∀ n, room = some n → totalLength (files.map (fun f => (w.file f).data)) ≤ n

/-- Something fails on a file: it does not open, reading it ends in an error, the sink
has no room for its bytes, or it does not close. -/
def fileFails (fs : FileSpec) (room : Option Nat) : Prop :=
  fs.openOk = false ∨ fs.failing = true ∨ (∃ n, room = some n ∧ n < fs.data.length) ∨
    fs.closeOk = false

/-- How many bytes of the transform of a file the sink accepts: none when the file does
not open, otherwise the delivered bytes as far as the sink has room. -/
def acceptedFrom (k : Nat) (fs : FileSpec) (room : Option Nat) : Nat :=
  if fs.openOk = true then acceptedLength room (deliveredLength k fs.data fs.failing) else 0

/-- The events `es` of the file loop on `count` files from position `optind`: the files
are opened in order, the output file is not opened, and no event is about an input file
outside these positions. -/
def EventsOnInputs (es : List Event) (optind count : Nat) : Prop :=
  openedInputs es = List.range' optind count ∧
  (∀ e ∈ es, Event.isOutputOpen e = false) ∧
  ∀ e ∈ es, ∀ j, Event.fp e = some (Fp.infp j) → optind ≤ j ∧ j < optind + count

/-- What the file loop of lines 236-256 leaves when it starts in state `l` with the sink
`outfp` on `files`, the first of them at position `optind`: either every file was fine
and the sink has accepted all the transforms, or the files `pre` were fine, the next file
`f` failed, and the sink has accepted the transforms of `pre` and the accepted part of
the transform of `f`. -/
structure LoopOutcome (w : World) (key : List Nat) (files : List CStr) (optind : Nat)
    (outfp : OutStream) (l : MainState) (fl : Flow) : Prop where
  status : fl.state.status = l.status
  keyfp : fl.state.keyfp = l.keyfp
  keyfpClosed : fl.state.keyfpClosed = l.keyfpClosed
  output : fl.state.output = l.output
  cases :
    (∃ l1, fl = Flow.next l1 ∧ filesFine w files outfp.room ∧ l1.infp = none ∧
      l1.outfp = some ⟨outfp.id,
        outfp.written ++ concatTransforms key (files.map (fun f => (w.file f).data)),
        outfp.room.map
          (fun n => n - totalLength (files.map (fun f => (w.file f).data)))⟩ ∧
      ∃ es, l1.trace = l.trace ++ es ∧ EventsOnInputs es optind files.length) ∨
    (∃ l1 pre f post, fl = Flow.error l1 ∧ files = pre ++ f :: post ∧
      filesFine w pre outfp.room ∧
      fileFails (w.file f)
        (outfp.room.map (fun n => n - totalLength (pre.map (fun g => (w.file g).data)))) ∧
      (∃ o, l1.outfp = some o ∧ o.id = outfp.id ∧
        o.written = outfp.written ++ concatTransforms key (pre.map (fun g => (w.file g).data))
          ++ (cyclicXor key (w.file f).data).take
            (acceptedFrom key.length (w.file f)
              (outfp.room.map
                (fun n => n - totalLength (pre.map (fun g => (w.file g).data)))))) ∧
      (∀ fp, l1.infp = some fp → fp.id = Fp.infp (optind + pre.length)) ∧
      ∃ es, l1.trace = l.trace ++ es ∧ EventsOnInputs es optind (pre.length + 1))

/-- Nothing fails on the input sources of a run: on the named files, or on standard input
when no file is named. -/
def sourcesFine (w : World) (files : List CStr) (room : Option Nat) : Prop :=
  match files with
  | [] => w.stdinFailing = false ∧ ∀ n, room = some n → w.stdinData.length ≤ n
  | _ :: _ => filesFine w files room

/-- What lines 257-261 leave when standard input is transformed from state `l` into the
sink `outfp`. -/
structure StdinOutcome (w : World) (outfp : OutStream) (l : MainState) (fl : Flow) :
    Prop where
  status : fl.state.status = l.status
  keyfp : fl.state.keyfp = l.keyfp
  keyfpClosed : fl.state.keyfpClosed = l.keyfpClosed
  output : fl.state.output = l.output
  input : fl.state.infp = l.infp
  sink : ∃ o, fl.state.outfp = some o ∧ o.id = outfp.id
  next_iff : (∃ l1, fl = Flow.next l1) ↔ sourcesFine w [] outfp.room
  events : ∃ es, fl.state.trace = l.trace ++ es ∧
    (∀ e ∈ es, Event.isOutputOpen e = false) ∧ openedInputs es = [] ∧
    ∀ e ∈ es, ∀ j, Event.fp e ≠ some (Fp.infp j)

/-- The end of `main` after lines 143-263: through `error:` after a `goto error`, or
straight to `end:`. -/
def Flow.finish (w : World) (keyarg : CStr) : Flow → Result
  | Flow.error l => errorExit w keyarg l
  | Flow.next l => cleanup w keyarg l

/-- The environment `quietWorld` with an output device that takes one byte only. -/
def tightWorld : World :=
  { quietWorld with outRoom := some 1 }

/-- Every step of a run succeeds: the option loop ends normally and leaves a `KEY`
argument, the key loads and is not empty, the buffer is allocated, the output named with
`-o` opens, nothing fails on the input sources, and the close of the cleanup (that of the
named output, the only handle still open then) succeeds. -/
def everyStepSucceeds (w : World) (opts : List OptRet) (args : List CStr) : Prop :=
  ∃ l keyarg files l1,
    parseOptions opts MainState.init = Parsed.done l ∧
    args = keyarg :: files ∧
    loadKey w keyarg l = some (Flow.next l1) ∧ l1.key_size ≠ 0 ∧
    w.bufAllocOk = true ∧
    (l.output ≠ none → w.outOpenOk = true) ∧
    sourcesFine w files w.outRoom ∧
    (l.output ≠ none → w.outCloseOk = true)

/-- The bytes of the chunks that the events wrote completely, in order. -/
def completeWrites : List Event → List Nat
  | [] => []
  | Event.fwrite _ buf true :: es => buf ++ completeWrites es
  | _ :: es => completeWrites es

/-! ## The transform loop -/

theorem option_map_sub_zero (room : Option Nat) : room.map (fun n => n - 0) = room := by
  cases room <;> rfl

theorem option_map_sub_sub (room : Option Nat) (a b : Nat) :
    (room.map (fun n => n - a)).map (fun n => n - b) = room.map (fun n => n - (a + b)) := by
  cases room with
  | none => rfl
  | some r => simp [Nat.sub_sub]

theorem cyclicXor_length (key data : List Nat) : (cyclicXor key data).length = data.length := by
  simp [cyclicXor]

theorem cyclicXor_getElem? (key data : List Nat) (i : Nat) :
    (cyclicXor key data)[i]? =
      if i < data.length then some (data.getD i 0 ^^^ key.getD (i % key.length) 0) else none := by
  unfold cyclicXor
  by_cases h : i < data.length
  · simp [h, List.getElem?_eq_getElem]
  · simp [h]
    omega

theorem xorBuf_succ (key : List Nat) (n : Nat) (buf : List Nat) :
    xorBuf key (n + 1) buf = xorAt key (xorBuf key n buf) n := by
  simp [xorBuf, List.range_succ, List.foldl_append]

theorem xorBuf_length (key : List Nat) (count : Nat) (buf : List Nat) :
    (xorBuf key count buf).length = buf.length := by
  induction count with
  | zero => simp [xorBuf]
  | succ n ih => rw [xorBuf_succ]; simp [xorAt, ih]

theorem xorBuf_getElem? (key : List Nat) (count : Nat) (buf : List Nat) (i : Nat) :
    (xorBuf key count buf)[i]? =
      if i < count then (buf[i]?).map (fun b => b ^^^ key.getD i 0) else buf[i]? := by
  induction count with
  | zero => simp [xorBuf]
  | succ n ih =>
    have hlen := xorBuf_length key n buf
    rw [xorBuf_succ, xorAt, List.getElem?_set]
    by_cases hin : n = i
    · subst hin
      rw [List.getD_eq_getElem?_getD, ih]
      simp only [if_true, hlen, lt_add_iff_pos_right, zero_lt_one, lt_self_iff_false, if_false]
      by_cases hb : n < buf.length
      · simp [hb]
      · have : buf[n]? = none := by simp; omega
        simp [hb, this]
    · simp only [hin, if_false, ih]
      by_cases h1 : i < n
      · have : i < n + 1 := by omega
        simp [h1, this]
      · have : ¬ i < n + 1 := by omega
        simp [h1, this]

/-- A chunk no longer than the key: the loop of lines 66-68 is the transform of the chunk. -/
theorem xorBuf_chunk (key buf : List Nat) (h : buf.length ≤ key.length) :
    xorBuf key buf.length buf = cyclicXor key buf := by
  apply List.ext_getElem?
  intro i
  rw [xorBuf_getElem?, cyclicXor_getElem?]
  by_cases hi : i < buf.length
  · have : i % key.length = i := Nat.mod_eq_of_lt (by omega)
    simp [hi, this, List.getD_eq_getElem?_getD]
  · have : buf[i]? = none := by simp; omega
    simp [hi, this]

/-- The transform splits at a multiple of the key length. -/
theorem cyclicXor_split (key data : List Nat) (h : key.length ≤ data.length) :
    cyclicXor key data =
      cyclicXor key (data.take key.length) ++ cyclicXor key (data.drop key.length) := by
  apply List.ext_getElem?
  intro i
  rw [cyclicXor_getElem?]
  by_cases hi : i < key.length
  · rw [List.getElem?_append_left (by rw [cyclicXor_length, List.length_take]; omega),
      cyclicXor_getElem?]
    have h1 : i < data.length := by omega
    have h2 : i < (List.take key.length data).length := by rw [List.length_take]; omega
    simp [h1, h2, hi, List.getD_eq_getElem?_getD, List.getElem?_take]
  · have hlen : (cyclicXor key (List.take key.length data)).length = key.length := by
      rw [cyclicXor_length, List.length_take]; omega
    rw [List.getElem?_append_right (by omega), cyclicXor_getElem?, hlen]
    have hmod : (i - key.length) % key.length = i % key.length := by
      conv_rhs => rw [show i = (i - key.length) + key.length by omega]
      simp
    by_cases h1 : i < data.length
    · have h2 : i - key.length < data.length - key.length := by omega
      have h3 : key.length + (i - key.length) = i := by omega
      simp [h1, h2, hmod, List.getD_eq_getElem?_getD, List.getElem?_drop, h3]
    · have h2 : ¬ i - key.length < data.length - key.length := by omega
      simp [h1, h2]

theorem fread_full (k : Nat) (fp : InStream) (hk : 0 < k) (h : k ≤ fp.data.length) :
    fread 1 k fp = (k, fp.data.take k, { fp with data := fp.data.drop k }) := by
  have : ¬ k = 0 := by omega
  simp [fread, this, h]

theorem fread_short (k : Nat) (fp : InStream) (h : fp.data.length < k) :
    fread 1 k fp =
      (fp.data.length, fp.data, { fp with data := [], error := fp.error || fp.failing }) := by
  have h1 : ¬ k = 0 := by omega
  have h2 : ¬ k ≤ fp.data.length := by omega
  simp [fread, h1, h2]

theorem fwrite_all (buf : List Nat) (fp : OutStream) (hb : 0 < buf.length)
    (hroom : ∀ r, fp.room = some r → buf.length ≤ r) :
    fwrite buf buf.length 1 fp =
      (1, ⟨fp.id, fp.written ++ buf, fp.room.map (fun r => r - buf.length)⟩) := by
  have h1 : ¬ buf.length = 0 := by omega
  unfold fwrite
  cases hr : fp.room with
  | none => simp [h1]
  | some r =>
    have := hroom r hr
    simp [h1, this]

theorem fxorLoop_clean (inname outname : CStr) (key : List Nat) (hk : 0 < key.length) :
    ∀ (fuel : Nat) (data : List Nat) (iid : Fp) (outfp : OutStream) (tr : List Event),
      data.length / key.length + 2 ≤ fuel →
      (∀ r, outfp.room = some r → data.length ≤ r) →
      ∃ r, fxorLoop inname outname key key.length fuel ⟨iid, data, false, false⟩ outfp tr = some r ∧
        r.ret = 0 ∧
        r.outfp = ⟨outfp.id, outfp.written ++ cyclicXor key data,
          outfp.room.map (fun n => n - data.length)⟩ := by
  intro fuel
  induction fuel with
  | zero => intro data iid outfp tr h; simp at h
  | succ fuel ih =>
    intro data iid outfp tr hfuel hroom
    rw [fxorLoop]
    by_cases hfull : key.length ≤ data.length
    · -- a whole chunk
      rw [fread_full key.length _ hk hfull]
      have hlt : ¬ key.length < key.length := by omega
      have htake : (List.take key.length data).length = key.length := by
        rw [List.length_take]; omega
      simp only [hlt, false_and, if_false]
      have hx : xorBuf key key.length (List.take key.length data)
          = cyclicXor key (List.take key.length data) := by
        have := xorBuf_chunk key (List.take key.length data) (by omega)
        rwa [htake] at this
      rw [hx]
      have hw := fwrite_all (cyclicXor key (List.take key.length data)) outfp
        (by rw [cyclicXor_length, htake]; exact hk)
        (by intro r hr; rw [cyclicXor_length, htake]; have := hroom r hr; omega)
      rw [cyclicXor_length, htake] at hw
      rw [hw]
      simp only [ne_eq, not_true_eq_false, if_false]
      have hdiv : data.length / key.length = (data.length - key.length) / key.length + 1 := by
        rw [Nat.div_eq data.length key.length]
        simp [hk, hfull]
      obtain ⟨r, hr, hret, hout⟩ := ih (List.drop key.length data) iid
        ⟨outfp.id, outfp.written ++ cyclicXor key (List.take key.length data),
          outfp.room.map (fun r => r - key.length)⟩
        (tr ++ [Event.fread iid 1 key.length key.length] ++
          [Event.fwrite outfp.id (cyclicXor key (List.take key.length data)) (1 == 1)])
        (by rw [List.length_drop]; omega)
        (by
          intro r hr
          rw [List.length_drop]
          cases hroom' : outfp.room with
          | none => simp [hroom'] at hr
          | some r0 =>
            have := hroom r0 hroom'
            simp [hroom'] at hr
            omega)
      refine ⟨r, hr, hret, ?_⟩
      rw [hout]
      simp only [List.append_assoc, ← cyclicXor_split key data hfull, List.length_drop]
      cases outfp.room with
      | none => simp
      | some r0 => simp; omega
    · have hshort : data.length < key.length := by omega
      rw [fread_short key.length _ hshort]
      simp only [hshort, true_and, ferror, Bool.or_self, Bool.false_eq_true, if_false]
      by_cases hnil : data.length = 0
      · have hd : data = [] := List.length_eq_zero.mp hnil
        subst hd
        simp only [List.length_nil, if_true]
        refine ⟨_, rfl, rfl, ?_⟩
        cases outfp with
        | mk id written room => cases room <;> simp [cyclicXor]
      · simp only [hnil, if_false]
        rw [xorBuf_chunk key data (by omega)]
        have hw := fwrite_all (cyclicXor key data) outfp
          (by rw [cyclicXor_length]; omega)
          (by intro r hr; rw [cyclicXor_length]; exact hroom r hr)
        rw [cyclicXor_length] at hw
        rw [hw]
        simp only [ne_eq, not_true_eq_false, if_false]
        cases fuel with
        | zero =>
          have : data.length / key.length = 0 := Nat.div_eq_of_lt hshort
          omega
        | succ fuel =>
          rw [fxorLoop]
          have h0 : (([] : List Nat)).length < key.length := by simpa using hk
          rw [fread_short key.length _ h0]
          simp [ferror, hk]

theorem cyclicXor_getD (key data : List Nat) (i : Nat) (h : i < data.length) :
    (cyclicXor key data).getD i 0 = data.getD i 0 ^^^ key.getD (i % key.length) 0 := by
  rw [List.getD_eq_getElem?_getD, cyclicXor_getElem?]
  simp [h]

theorem cyclicXor_involutive (key data : List Nat) :
    cyclicXor key (cyclicXor key data) = data := by
  apply List.ext_getElem?
  intro i
  rw [cyclicXor_getElem?, cyclicXor_length]
  by_cases h : i < data.length
  · rw [cyclicXor_getD key data i h]
    simp [h, Nat.xor_assoc, List.getD_eq_getElem?_getD, List.getElem?_eq_getElem]
  · have : data[i]? = none := by simp; omega
    simp [h, this]

/-- A stream without read error, a sink with enough room, a non-empty key: `fxor` returns 0
and appends the transform of the stream to the sink. -/
theorem fxor_clean (iid : Fp) (data : List Nat) (inname : CStr) (outfp : OutStream)
    (outname : CStr) (key : List Nat) (hk : 0 < key.length)
    (hroom : ∀ r, outfp.room = some r → data.length ≤ r) :
    ∃ r, fxor ⟨iid, data, false, false⟩ inname outfp outname key key.length = some r ∧
      r.ret = 0 ∧
      r.outfp = ⟨outfp.id, outfp.written ++ cyclicXor key data,
        outfp.room.map (fun n => n - data.length)⟩ := by
  unfold fxor
  apply fxorLoop_clean inname outname key hk
  · have := Nat.div_le_self data.length key.length
    simp only [ge_iff_le]
    omega
  · exact hroom

/-! ## The transform loop on any stream and any sink -/

theorem fwrite_part (buf : List Nat) (fp : OutStream) (r : Nat) (hr : fp.room = some r)
    (hlt : r < buf.length) :
    fwrite buf buf.length 1 fp = (0, ⟨fp.id, fp.written ++ buf.take r, some 0⟩) := by
  have h1 : ¬ buf.length = 0 := by omega
  have h2 : ¬ buf.length ≤ r := by omega
  have h3 : r / buf.length = 0 := Nat.div_eq_of_lt hlt
  simp [fwrite, hr, h1, h2, h3]

theorem deliveredLength_step (k : Nat) (data : List Nat) (failing : Bool) (hk : 0 < k)
    (h : k ≤ data.length) :
    deliveredLength k data failing = deliveredLength k (data.drop k) failing + k := by
  have hdiv : data.length / k = (data.length - k) / k + 1 := by
    rw [Nat.div_eq data.length k]
    simp [hk, h]
  unfold deliveredLength
  cases failing
  · simp only [Bool.false_eq_true, if_false, List.length_drop]
    omega
  · simp only [if_true, List.length_drop, hdiv, Nat.mul_add, Nat.mul_one]

theorem deliveredLength_short (k : Nat) (data : List Nat) (failing : Bool)
    (h : data.length < k) :
    deliveredLength k data failing = if failing = true then 0 else data.length := by
  unfold deliveredLength
  rw [Nat.div_eq_of_lt h, Nat.mul_zero]

theorem deliveredLength_le (k : Nat) (data : List Nat) (failing : Bool) :
    deliveredLength k data failing ≤ data.length := by
  unfold deliveredLength
  split_ifs
  · exact Nat.mul_div_le data.length k
  · exact Nat.le_refl _

theorem take_cyclicXor_split (key data : List Nat) (m : Nat) (h : key.length ≤ data.length) :
    (cyclicXor key data).take (m + key.length)
      = cyclicXor key (data.take key.length) ++ (cyclicXor key (data.drop key.length)).take m := by
  have hlen : (cyclicXor key (List.take key.length data)).length = key.length := by
    rw [cyclicXor_length, List.length_take]; omega
  rw [cyclicXor_split key data h, List.take_append_eq_append_take, hlen,
    List.take_of_length_le (by omega)]
  congr 2
  omega

theorem take_cyclicXor_head (key data : List Nat) (m : Nat) (h : key.length ≤ data.length)
    (hm : m ≤ key.length) :
    (cyclicXor key data).take m = (cyclicXor key (data.take key.length)).take m := by
  have hlen : (cyclicXor key (List.take key.length data)).length = key.length := by
    rw [cyclicXor_length, List.length_take]; omega
  rw [cyclicXor_split key data h, List.take_append_eq_append_take, hlen]
  have : m - key.length = 0 := by omega
  simp [this]

/-- What `fxor` does on any stream and any sink, for a non-empty key: it returns within
`n / k + 2` iterations; the sink has accepted the transform of the delivered bytes as far
as it had room; and the result is -1 exactly when reading fails or the sink lacks room. -/
theorem fxorLoop_spec (inname outname : CStr) (key : List Nat) (hk : 0 < key.length) :
    ∀ (fuel : Nat) (data : List Nat) (iid : Fp) (failing : Bool) (outfp : OutStream)
      (tr : List Event),
      data.length / key.length + 2 ≤ fuel →
      ∃ r, fxorLoop inname outname key key.length fuel ⟨iid, data, failing, false⟩ outfp tr
          = some r ∧
        r.outfp = ⟨outfp.id,
          outfp.written ++ (cyclicXor key data).take
            (acceptedLength outfp.room (deliveredLength key.length data failing)),
          outfp.room.map (fun n => n -
            acceptedLength outfp.room (deliveredLength key.length data failing))⟩ ∧
        r.ret = if failing = true ∨
            acceptedLength outfp.room (deliveredLength key.length data failing)
              < deliveredLength key.length data failing then -1 else 0 := by
  intro fuel
  induction fuel with
  | zero => intro data iid failing outfp tr h; simp at h
  | succ fuel ih =>
    intro data iid failing outfp tr hfuel
    rw [fxorLoop]
    by_cases hfull : key.length ≤ data.length
    · -- a whole chunk is read
      rw [fread_full key.length _ hk hfull]
      have hlt : ¬ key.length < key.length := by omega
      have htake : (List.take key.length data).length = key.length := by
        rw [List.length_take]; omega
      simp only [hlt, false_and, if_false]
      have hx : xorBuf key key.length (List.take key.length data)
          = cyclicXor key (List.take key.length data) := by
        have := xorBuf_chunk key (List.take key.length data) (by omega)
        rwa [htake] at this
      have hclen : (cyclicXor key (List.take key.length data)).length = key.length := by
        rw [cyclicXor_length, htake]
      rw [hx]
      have hstep := deliveredLength_step key.length data failing hk hfull
      have hdiv : data.length / key.length = (data.length - key.length) / key.length + 1 := by
        rw [Nat.div_eq data.length key.length]
        simp [hk, hfull]
      by_cases hfit : ∀ r, outfp.room = some r → key.length ≤ r
      · -- the chunk is written and the loop goes on
        have hw := fwrite_all (cyclicXor key (List.take key.length data)) outfp
          (by rw [hclen]; exact hk) (by intro r hr; rw [hclen]; exact hfit r hr)
        rw [hclen] at hw
        rw [hw]
        simp only [ne_eq, not_true_eq_false, if_false]
        obtain ⟨r, hr, hout, hret⟩ := ih (List.drop key.length data) iid failing
          ⟨outfp.id, outfp.written ++ cyclicXor key (List.take key.length data),
            outfp.room.map (fun r => r - key.length)⟩
          (tr ++ [Event.fread iid 1 key.length key.length] ++
            [Event.fwrite outfp.id (cyclicXor key (List.take key.length data)) (1 == 1)])
          (by rw [List.length_drop]; omega)
        refine ⟨r, hr, ?_, ?_⟩
        · rw [hout, hstep]
          cases hroom : outfp.room with
          | none =>
            simp only [acceptedLength, Option.map_none', List.append_assoc,
              take_cyclicXor_split key data _ hfull]
          | some r0 =>
            have hle := hfit r0 hroom
            have hm : min (deliveredLength key.length (List.drop key.length data) failing
                  + key.length) r0
                = min (deliveredLength key.length (List.drop key.length data) failing)
                  (r0 - key.length) + key.length := by omega
            simp only [acceptedLength, Option.map_some', List.append_assoc, hm,
              take_cyclicXor_split key data _ hfull]
            congr 2
            omega
        · rw [hret, hstep]
          cases hroom : outfp.room with
          | none => simp [acceptedLength]
          | some r0 =>
            have hle := hfit r0 hroom
            simp only [acceptedLength, Option.map_some']
            congr 1
            apply propext
            constructor
            · rintro (h | h)
              · exact Or.inl h
              · right; omega
            · rintro (h | h)
              · exact Or.inl h
              · right; omega
      · -- the sink has no room for the chunk
        push_neg at hfit
        obtain ⟨r0, hroom, hr0⟩ := hfit
        have hw := fwrite_part (cyclicXor key (List.take key.length data)) outfp r0 hroom
          (by rw [hclen]; exact hr0)
        rw [hclen] at hw
        rw [hw]
        simp only [ne_eq, Nat.zero_ne_one, not_false_eq_true, if_true]
        have hdl : key.length ≤ deliveredLength key.length data failing := by omega
        have hm : min (deliveredLength key.length data failing) r0 = r0 := by omega
        refine ⟨_, rfl, ?_, ?_⟩
        · simp only [hroom, acceptedLength, hm, Option.map_some', Nat.sub_self,
            take_cyclicXor_head key data r0 hfull (by omega)]
        · have : r0 < deliveredLength key.length data failing := by omega
          simp [hroom, acceptedLength, hm, this]
    · have hshort : data.length < key.length := by omega
      rw [fread_short key.length _ hshort]
      have hdl := deliveredLength_short key.length data failing hshort
      simp only [hshort, true_and, ferror, Bool.false_or]
      by_cases hf : failing = true
      · -- the short read reports an error
        simp only [hf, if_true] at hdl ⊢
        refine ⟨_, rfl, ?_, ?_⟩
        · rw [hdl]
          cases outfp with
          | mk id written room => cases room <;> simp [acceptedLength]
        · simp
      · have hf' : failing = false := by simpa using hf
        subst hf'
        simp only [Bool.false_eq_true, if_false] at hdl ⊢
        rw [hdl]
        by_cases hnil : data.length = 0
        · -- end of the stream
          have hd : data = [] := List.length_eq_zero.mp hnil
          subst hd
          simp only [List.length_nil, if_true]
          refine ⟨_, rfl, ?_, ?_⟩
          · cases outfp with
            | mk id written room => cases room <;> simp [acceptedLength, cyclicXor]
          · cases outfp with
            | mk id written room => cases room <;> simp [acceptedLength]
        · simp only [hnil, if_false]
          rw [xorBuf_chunk key data (by omega)]
          by_cases hfit : ∀ r, outfp.room = some r → data.length ≤ r
          · -- the last, short chunk is written; one more read sees the end
            have hw := fwrite_all (cyclicXor key data) outfp
              (by rw [cyclicXor_length]; omega)
              (by intro r hr; rw [cyclicXor_length]; exact hfit r hr)
            rw [cyclicXor_length] at hw
            rw [hw]
            simp only [ne_eq, not_true_eq_false, if_false]
            cases fuel with
            | zero =>
              have : data.length / key.length = 0 := Nat.div_eq_of_lt hshort
              omega
            | succ fuel =>
              rw [fxorLoop]
              have h0 : (([] : List Nat)).length < key.length := by simpa using hk
              rw [fread_short key.length _ h0]
              simp only [List.length_nil, hk, true_and, ferror, Bool.or_self,
                Bool.false_eq_true, if_false, if_true]
              refine ⟨_, rfl, ?_, ?_⟩
              · cases hroom : outfp.room with
                | none =>
                  simp only [acceptedLength, Option.map_none']
                  rw [List.take_of_length_le (by rw [cyclicXor_length])]
                | some r0 =>
                  have := hfit r0 hroom
                  simp only [acceptedLength, Option.map_some', Nat.min_eq_left this]
                  rw [List.take_of_length_le (by rw [cyclicXor_length])]
              · cases hroom : outfp.room with
                | none => simp [acceptedLength]
                | some r0 =>
                  have := hfit r0 hroom
                  simp [acceptedLength, Nat.min_eq_left this]
          · -- the sink has no room for the last chunk
            push_neg at hfit
            obtain ⟨r0, hroom, hr0⟩ := hfit
            have hw := fwrite_part (cyclicXor key data) outfp r0 hroom
              (by rw [cyclicXor_length]; exact hr0)
            rw [cyclicXor_length] at hw
            rw [hw]
            simp only [ne_eq, Nat.zero_ne_one, not_false_eq_true, if_true]
            have hm : min data.length r0 = r0 := by omega
            refine ⟨_, rfl, ?_, ?_⟩
            · simp only [hroom, acceptedLength, hm, Option.map_some', Nat.sub_self]
            · simp [hroom, acceptedLength, hm, hr0]

theorem fread_facts (size : Nat) (hs : 1 ≤ size) (fp : InStream) :
    (fread 1 size fp).2.2.id = fp.id ∧ (fread 1 size fp).2.1.length = (fread 1 size fp).1 ∧
    ((fread 1 size fp).1 = size ∧ size ≤ fp.data.length ∧
        (fread 1 size fp).2.2.data.length = fp.data.length - size ∧
        (fread 1 size fp).2.2.error = fp.error ∨
      (fread 1 size fp).1 < size ∧ (fread 1 size fp).1 = fp.data.length ∧
        (fread 1 size fp).2.2.data = [] ∧
        (fread 1 size fp).2.2.error = (fp.error || fp.failing)) := by
  by_cases h : size ≤ fp.data.length
  · rw [fread_full size fp hs h]
    refine ⟨rfl, ?_, Or.inl ⟨rfl, h, ?_, rfl⟩⟩
    · simp only [List.length_take]; omega
    · simp only [List.length_drop]
  · rw [fread_short size fp (by omega)]
    exact ⟨rfl, rfl, Or.inr ⟨by omega, rfl, rfl, rfl⟩⟩

theorem fwrite_id (buf : List Nat) (size nmemb : Nat) (fp : OutStream) :
    (fwrite buf size nmemb fp).2.id = fp.id := by
  unfold fwrite
  split_ifs
  · rfl
  · split
    · rfl
    · split_ifs <;> rfl

/-- One iteration of the loop of `fxor` on a stream whose error indicator is clear: it
returns -1 after a read error, returns 0 after a read of no byte, returns -1 after a
write that is not complete, or goes on after reading and writing a chunk of `c` bytes,
`1 <= c <= size`, with a shorter rest of the stream. -/
theorem fxorLoop_step (inname outname : CStr) (key : List Nat) (size : Nat) (hs : 1 ≤ size)
    (fuel : Nat) (infp : InStream) (outfp : OutStream) (tr : List Event)
    (herr : infp.error = false) :
    (∃ c infp1, infp1.error = true ∧ infp.failing = true ∧ infp.data.length < size ∧
      fxorLoop inname outname key size (fuel + 1) infp outfp tr
        = some ⟨-1, infp1, outfp,
            tr ++ [Event.fread infp.id 1 size c, Event.perror inname]⟩) ∨
    (∃ infp1, infp1.error = false ∧ infp.data = [] ∧
      fxorLoop inname outname key size (fuel + 1) infp outfp tr
        = some ⟨0, infp1, outfp, tr ++ [Event.fread infp.id 1 size 0]⟩) ∨
    (∃ c buf infp1 outfp1, 1 ≤ c ∧ c ≤ size ∧ c ≤ infp.data.length ∧ buf.length = c ∧
      infp1.error = false ∧ (fwrite buf c 1 outfp).1 ≠ 1 ∧
      fxorLoop inname outname key size (fuel + 1) infp outfp tr
        = some ⟨-1, infp1, outfp1,
            tr ++ [Event.fread infp.id 1 size c, Event.fwrite outfp.id buf false,
              Event.perror outname]⟩) ∨
    (∃ c buf infp1 outfp1, 1 ≤ c ∧ c ≤ size ∧ buf.length = c ∧
      infp1.id = infp.id ∧ infp1.error = false ∧ infp1.failing = infp.failing ∧
      outfp1.id = outfp.id ∧
      (c = size ∧ size ≤ infp.data.length ∧ infp1.data.length = infp.data.length - size ∨
        c < size ∧ c = infp.data.length ∧ infp1.data = []) ∧
      (fwrite buf c 1 outfp) = (1, outfp1) ∧
      fxorLoop inname outname key size (fuel + 1) infp outfp tr
        = fxorLoop inname outname key size fuel infp1 outfp1
            (tr ++ [Event.fread infp.id 1 size c, Event.fwrite outfp.id buf true])) := by
  obtain ⟨hid, hlen, hcase⟩ := fread_facts size hs infp
  have hfail : (fread 1 size infp).2.2.failing = infp.failing := by
    unfold fread; split_ifs <;> rfl
  rw [fxorLoop]
  simp only [ferror]
  by_cases h1 : (fread 1 size infp).1 < size ∧ (fread 1 size infp).2.2.error = true
  · left
    rw [if_pos h1]
    rcases hcase with ⟨hc, _⟩ | ⟨_, hn, _, he⟩
    · omega
    · rw [herr, Bool.false_or] at he
      exact ⟨(fread 1 size infp).1, (fread 1 size infp).2.2, h1.2, by rw [← he]; exact h1.2,
        by omega, by simp⟩
  · rw [if_neg h1]
    have herr1 : (fread 1 size infp).2.2.error = false := by
      rcases hcase with ⟨_, _, _, he⟩ | ⟨hlt, _, _, he⟩
      · rw [he, herr]
      · by_contra hne
        exact h1 ⟨hlt, by simpa using hne⟩
    by_cases h2 : (fread 1 size infp).1 < size ∧ (fread 1 size infp).1 = 0
    · right; left
      rw [if_pos h2]
      rcases hcase with ⟨hc, _⟩ | ⟨_, hn, _, _⟩
      · omega
      · refine ⟨(fread 1 size infp).2.2, herr1, List.length_eq_zero.mp (by omega), ?_⟩
        rw [h2.2]
    · rw [if_neg h2]
      have hc1 : 1 ≤ (fread 1 size infp).1 := by
        rcases hcase with ⟨hc, _⟩ | ⟨hlt, _, _, _⟩
        · omega
        · by_contra hz
          exact h2 ⟨hlt, by omega⟩
      have hc2 : (fread 1 size infp).1 ≤ size := by
        rcases hcase with ⟨hc, _⟩ | ⟨hlt, _, _, _⟩ <;> omega
      have hc3 : (fread 1 size infp).1 ≤ infp.data.length := by
        rcases hcase with ⟨hc, hle, _⟩ | ⟨_, hn, _, _⟩ <;> omega
      have hbuf : (xorBuf key (fread 1 size infp).1 (fread 1 size infp).2.1).length
          = (fread 1 size infp).1 := by rw [xorBuf_length, hlen]
      by_cases h3 : (fwrite (xorBuf key (fread 1 size infp).1 (fread 1 size infp).2.1)
          (fread 1 size infp).1 1 outfp).1 = 1
      · right; right; right
        refine ⟨(fread 1 size infp).1,
          xorBuf key (fread 1 size infp).1 (fread 1 size infp).2.1, (fread 1 size infp).2.2,
          (fwrite (xorBuf key (fread 1 size infp).1 (fread 1 size infp).2.1)
            (fread 1 size infp).1 1 outfp).2,
          hc1, hc2, hbuf, hid, herr1, hfail, fwrite_id _ _ _ outfp, ?_, Prod.ext h3 rfl, ?_⟩
        · rcases hcase with ⟨hc, hle, hd, _⟩ | ⟨hlt, hn, hd, _⟩
          · exact Or.inl ⟨hc, hle, hd⟩
          · exact Or.inr ⟨hlt, hn, hd⟩
        · simp [h3]
      · right; right; left
        refine ⟨(fread 1 size infp).1,
          xorBuf key (fread 1 size infp).1 (fread 1 size infp).2.1, (fread 1 size infp).2.2,
          (fwrite (xorBuf key (fread 1 size infp).1 (fread 1 size infp).2.1)
            (fread 1 size infp).1 1 outfp).2,
          hc1, hc2, hc3, hbuf, herr1, h3, ?_⟩
        simp [h3]

theorem readBound_full (k n : Nat) (hk : 1 ≤ k) (h : k ≤ n) :
    readBound k (n - k) + 1 = readBound k n := by
  have hdiv : n / k = (n - k) / k + 1 := by
    rw [Nat.div_eq n k]
    simp [hk, h]
    omega
  have hmod : (n - k) % k = n % k := by
    conv_rhs => rw [show n = (n - k) + k by omega]
    simp
  unfold readBound
  rw [hdiv, hmod]
  omega

theorem readBound_short (k n : Nat) (h1 : 1 ≤ n) (h2 : n < k) : readBound k n = 2 := by
  unfold readBound
  rw [Nat.div_eq_of_lt h2, Nat.mod_eq_of_lt h2]
  have : ¬ n = 0 := by omega
  simp [this]

theorem readBound_zero (k : Nat) : readBound k 0 = 1 := by
  simp [readBound]

theorem readBound_le (k n : Nat) : readBound k n ≤ n / k + 2 := by
  unfold readBound
  split_ifs <;> omega

theorem writeSizes_append (a b : List Event) :
    writeSizes (a ++ b) = writeSizes a ++ writeSizes b := by
  induction a with
  | nil => rfl
  | cons e es ih =>
    cases e <;> simp [writeSizes, ih]

theorem one_le_readBound (k n : Nat) : 1 ≤ readBound k n := by
  unfold readBound
  exact Nat.le_add_right_of_le (Nat.le_add_left 1 (n / k))

/-- Every call of the loop of `fxor` that returns has events of the shape `FxorEvents`. -/
theorem fxorLoop_events (inname outname : CStr) (key : List Nat) (size : Nat) (hs : 1 ≤ size) :
    ∀ (fuel : Nat) (infp : InStream) (outfp : OutStream) (tr : List Event) (r : FxorResult),
      infp.error = false →
      fxorLoop inname outname key size fuel infp outfp tr = some r →
      ∃ es, r.trace = tr ++ es ∧ FxorEvents inname outname size infp outfp r es := by
  intro fuel
  induction fuel with
  | zero => intro infp outfp tr r _ h; simp [fxorLoop] at h
  | succ fuel ih =>
    intro infp outfp tr r herr hres
    have hone := one_le_readBound size infp.data.length
    rcases fxorLoop_step inname outname key size hs fuel infp outfp tr herr with
      ⟨c, infp1, he1, _, hlt, hstep⟩ | ⟨infp1, he1, hnil, hstep⟩ |
      ⟨c, buf, infp1, outfp1, hc1, hc2, hc3, hbuf, he1, _, hstep⟩ |
      ⟨c, buf, infp1, outfp1, hc1, hc2, hbuf, hid, he1, _, hoid, hcase, _, hstep⟩
    · -- read error
      rw [hstep] at hres
      cases hres
      refine ⟨_, rfl, ?_, ?_, ?_, ?_, ?_⟩
      · intro e he
        simp only [List.mem_cons, List.mem_singleton, List.not_mem_nil, or_false] at he
        rcases he with rfl | rfl
        · exact Or.inl ⟨c, rfl⟩
        · exact Or.inr (Or.inr (Or.inl rfl))
      · simp [writeSizes]
      · simpa [List.countP_cons, Event.isFread] using hone
      · intro _; simp [writeSizes]
      · right; left
        refine ⟨rfl, he1, ?_, [], c, rfl⟩
        intro e he
        simp only [List.mem_cons, List.mem_singleton, List.not_mem_nil, or_false] at he
        rcases he with rfl | rfl <;> rfl
    · -- end of the stream
      rw [hstep] at hres
      cases hres
      refine ⟨_, rfl, ?_, ?_, ?_, ?_, ?_⟩
      · intro e he
        simp only [List.mem_singleton] at he
        subst he
        exact Or.inl ⟨0, rfl⟩
      · simp [writeSizes]
      · simpa [List.countP_cons, Event.isFread] using hone
      · intro _; simp [writeSizes]
      · left
        refine ⟨rfl, he1, ?_, [], rfl⟩
        intro e he
        simp only [List.mem_singleton] at he
        subst he
        rfl
    · -- incomplete write
      rw [hstep] at hres
      cases hres
      refine ⟨_, rfl, ?_, ?_, ?_, ?_, ?_⟩
      · intro e he
        simp only [List.mem_cons, List.mem_singleton, List.not_mem_nil, or_false] at he
        rcases he with rfl | rfl | rfl
        · exact Or.inl ⟨c, rfl⟩
        · exact Or.inr (Or.inl ⟨buf, false, rfl, by omega, by omega⟩)
        · exact Or.inr (Or.inr (Or.inr rfl))
      · simp [writeSizes]
      · simpa [List.countP_cons, Event.isFread] using hone
      · intro hd
        rw [hd] at hc3
        simp only [List.length_nil] at hc3
        omega
      · right; right
        refine ⟨rfl, he1, [Event.fread infp.id 1 size c], buf, rfl, ?_⟩
        intro e he
        simp only [List.mem_singleton] at he
        subst he
        rfl
    · -- a chunk is read and written, the loop goes on
      rw [hstep] at hres
      obtain ⟨es, htr, hm, hsz, hrd, hend, hfin⟩ := ih infp1 outfp1 _ r he1 hres
      refine ⟨[Event.fread infp.id 1 size c, Event.fwrite outfp.id buf true] ++ es,
        by rw [htr, List.append_assoc], ?_, ?_, ?_, ?_, ?_⟩
      · intro e he
        rcases List.mem_append.mp he with h | h
        · simp only [List.mem_cons, List.mem_singleton, List.not_mem_nil, or_false] at h
          rcases h with rfl | rfl
          · exact Or.inl ⟨c, rfl⟩
          · exact Or.inr (Or.inl ⟨buf, true, rfl, by omega, by omega⟩)
        · have := hm e h
          rw [hid, hoid] at this
          exact this
      · have hws : writeSizes
            ([Event.fread infp.id 1 size c, Event.fwrite outfp.id buf true] ++ es)
            = buf.length :: writeSizes es := by
          simp [writeSizes]
        rw [hws]
        cases hes : writeSizes es with
        | nil => simp
        | cons x xs =>
          rw [List.dropLast_cons₂]
          intro d hd
          rcases List.mem_cons.mp hd with rfl | hd
          · rcases hcase with ⟨hc, _⟩ | ⟨_, _, hd1⟩
            · omega
            · rw [hend hd1] at hes
              cases hes
          · exact hsz d (by rw [hes]; exact hd)
      · have hcount : List.countP Event.isFread
            ([Event.fread infp.id 1 size c, Event.fwrite outfp.id buf true] ++ es)
            = List.countP Event.isFread es + 1 := by
          simp [List.countP_cons, Event.isFread]
        rw [hcount]
        rcases hcase with ⟨_, hle, hd1⟩ | ⟨hlt, hn, hd1⟩
        · rw [hd1] at hrd
          have := readBound_full size infp.data.length hs hle
          omega
        · rw [hd1, List.length_nil, readBound_zero] at hrd
          have := readBound_short size infp.data.length (by omega) (by omega)
          omega
      · intro hd
        rcases hcase with ⟨_, hle, _⟩ | ⟨_, hn, _⟩
        · rw [hd] at hle
          simp only [List.length_nil] at hle
          omega
        · rw [hd] at hn
          simp only [List.length_nil] at hn
          omega
      · rcases hfin with ⟨h1, h2, h3, pre, hpre⟩ | ⟨h1, h2, h3, pre, c', hpre⟩ |
          ⟨h1, h2, pre, buf', hpre, h3⟩
        · left
          refine ⟨h1, h2, ?_, [Event.fread infp.id 1 size c, Event.fwrite outfp.id buf true] ++ pre,
            by rw [hpre, hid, List.append_assoc]⟩
          intro e he
          rcases List.mem_append.mp he with h | h
          · simp only [List.mem_cons, List.mem_singleton, List.not_mem_nil, or_false] at h
            rcases h with rfl | rfl <;> rfl
          · exact h3 e h
        · right; left
          refine ⟨h1, h2, ?_,
            [Event.fread infp.id 1 size c, Event.fwrite outfp.id buf true] ++ pre, c',
            by rw [hpre, hid, List.append_assoc]⟩
          intro e he
          rcases List.mem_append.mp he with h | h
          · simp only [List.mem_cons, List.mem_singleton, List.not_mem_nil, or_false] at h
            rcases h with rfl | rfl <;> rfl
          · exact h3 e h
        · right; right
          refine ⟨h1, h2, [Event.fread infp.id 1 size c, Event.fwrite outfp.id buf true] ++ pre,
            buf', by rw [hpre, hoid, List.append_assoc], ?_⟩
          intro e he
          rcases List.mem_append.mp he with h | h
          · simp only [List.mem_cons, List.mem_singleton, List.not_mem_nil, or_false] at h
            rcases h with rfl | rfl <;> rfl
          · exact h3 e h

/-- On any stream and any sink `fxor` returns, for a non-empty key. -/
theorem fxor_spec (inname outname : CStr) (key : List Nat) (hk : 0 < key.length)
    (data : List Nat) (iid : Fp) (failing : Bool) (outfp : OutStream) :
    ∃ r, fxor ⟨iid, data, failing, false⟩ inname outfp outname key key.length = some r ∧
      r.outfp = ⟨outfp.id,
        outfp.written ++ (cyclicXor key data).take
          (acceptedLength outfp.room (deliveredLength key.length data failing)),
        outfp.room.map (fun n => n -
          acceptedLength outfp.room (deliveredLength key.length data failing))⟩ ∧
      r.ret = if failing = true ∨
          acceptedLength outfp.room (deliveredLength key.length data failing)
            < deliveredLength key.length data failing then -1 else 0 := by
  unfold fxor
  apply fxorLoop_spec inname outname key hk
  have := Nat.div_le_self data.length key.length
  simp only
  omega

/-- A write that transfers only part of its chunk ends the loop as a write that
transfers nothing: same return value, same input stream, same events. -/
theorem fxorLoop_short_write (inname outname : CStr) (key : List Nat) (size : Nat)
    (fuel : Nat) (infp : InStream) (o : OutStream) (tr : List Event) (a : Nat)
    (hroom : o.room = some a) (ha : a < (fread 1 size infp).1)
    (hread : ¬ ((fread 1 size infp).1 < size ∧ (fread 1 size infp).2.2.error = true)) :
    ∃ r r0, fxorLoop inname outname key size (fuel + 1) infp o tr = some r ∧
      fxorLoop inname outname key size (fuel + 1) infp ⟨o.id, o.written, some 0⟩ tr = some r0 ∧
      r.ret = -1 ∧ r0.ret = -1 ∧ r.infp = r0.infp ∧ r.trace = r0.trace ∧
      r.outfp.written = o.written ++
        (xorBuf key (fread 1 size infp).1 (fread 1 size infp).2.1).take a ∧
      r0.outfp.written = o.written := by
  have hlen : (fread 1 size infp).2.1.length = (fread 1 size infp).1 := by
    unfold fread
    split_ifs with h1 h2
    · simp
    · simp only [List.length_take]; omega
    · simp
  have hbuf : (xorBuf key (fread 1 size infp).1 (fread 1 size infp).2.1).length
      = (fread 1 size infp).1 := by rw [xorBuf_length, hlen]
  have h2 : ¬ ((fread 1 size infp).1 < size ∧ (fread 1 size infp).1 = 0) := by omega
  have hw := fwrite_part (xorBuf key (fread 1 size infp).1 (fread 1 size infp).2.1) o a hroom
    (by rw [hbuf]; exact ha)
  have hw0 := fwrite_part (xorBuf key (fread 1 size infp).1 (fread 1 size infp).2.1)
    ⟨o.id, o.written, some 0⟩ 0 rfl (by rw [hbuf]; omega)
  rw [hbuf] at hw hw0
  rw [fxorLoop, fxorLoop]
  simp only [ferror, if_neg hread, if_neg h2, hw, hw0]
  exact ⟨_, _, rfl, rfl, rfl, rfl, rfl, rfl, rfl, by simp⟩

/-- A short chunk at the end of a stream: the loop writes it, reads once more, gets no
byte, and returns 0. -/
theorem fxorLoop_last_chunk (inname outname : CStr) (key : List Nat) (fuel : Nat) (iid : Fp)
    (data : List Nat) (outfp : OutStream) (tr : List Event)
    (h0 : 0 < data.length) (hlt : data.length < key.length)
    (hroom : ∀ n, outfp.room = some n → data.length ≤ n) :
    fxorLoop inname outname key key.length (fuel + 2) ⟨iid, data, false, false⟩ outfp tr
      = some ⟨0, ⟨iid, [], false, false⟩,
          ⟨outfp.id, outfp.written ++ cyclicXor key data,
            outfp.room.map (fun n => n - data.length)⟩,
          tr ++ [Event.fread iid 1 key.length data.length,
            Event.fwrite outfp.id (cyclicXor key data) true,
            Event.fread iid 1 key.length 0]⟩ := by
  have hk : 0 < key.length := by omega
  have hnil : ¬ data.length = 0 := by omega
  rw [fxorLoop, fread_short key.length _ hlt]
  simp only [hlt, true_and, ferror, Bool.or_self, Bool.false_eq_true, if_false, hnil]
  rw [xorBuf_chunk key data (by omega)]
  have hw := fwrite_all (cyclicXor key data) outfp (by rw [cyclicXor_length]; omega)
    (by intro r hr; rw [cyclicXor_length]; exact hroom r hr)
  rw [cyclicXor_length] at hw
  rw [hw]
  simp only [ne_eq, not_true_eq_false, if_false]
  rw [fxorLoop]
  have hz : (([] : List Nat)).length < key.length := by simpa using hk
  rw [fread_short key.length _ hz]
  simp [ferror, hk]

theorem fread_count_le (size : Nat) (fp : InStream) : (fread 1 size fp).1 ≤ size := by
  unfold fread
  split_ifs with h1 h2
  · exact Nat.zero_le _
  · exact Nat.le_refl _
  · simp only [Nat.div_one]
    omega

theorem fread_id (size nmemb : Nat) (fp : InStream) : (fread size nmemb fp).2.2.id = fp.id := by
  unfold fread
  split_ifs <;> rfl

/-- The loop of `fxor` hands back the streams it was given. -/
theorem fxorLoop_ids (inname outname : CStr) (key : List Nat) (size : Nat) :
    ∀ (fuel : Nat) (infp : InStream) (outfp : OutStream) (tr : List Event) (r : FxorResult),
      fxorLoop inname outname key size fuel infp outfp tr = some r →
      r.infp.id = infp.id ∧ r.outfp.id = outfp.id := by
  intro fuel
  induction fuel with
  | zero => intro infp outfp tr r h; simp [fxorLoop] at h
  | succ fuel ih =>
    intro infp outfp tr r h
    rw [fxorLoop] at h
    simp only at h
    split_ifs at h with h1 h2 h3
    · cases h
      exact ⟨fread_id _ _ _, rfl⟩
    · cases h
      exact ⟨fread_id _ _ _, rfl⟩
    · cases h
      exact ⟨fread_id _ _ _, fwrite_id _ _ _ _⟩
    · obtain ⟨a, b⟩ := ih _ _ _ _ h
      exact ⟨by rw [a, fread_id], by rw [b, fwrite_id]⟩

/-! ## Hex decoding -/

theorem parse_half_hex_byte_small :
    ∀ c : Fin 128, parse_half_hex_byte c.val =
      if isHexDigit c.val then some (hexVal c.val) else none := by
  decide

theorem parse_half_hex_byte_eq (c : Nat) :
    parse_half_hex_byte c = if isHexDigit c then some (hexVal c) else none := by
  by_cases h : c < 128
  · exact parse_half_hex_byte_small ⟨c, h⟩
  · have h1 : parse_half_hex_byte c = none := by
      unfold parse_half_hex_byte
      have a : ¬ (48 ≤ c ∧ c ≤ 57) := by omega
      have b : ¬ (97 ≤ c ∧ c ≤ 102) := by omega
      have d : ¬ (65 ≤ c ∧ c ≤ 70) := by omega
      simp [a, b, d]
    have h2 : isHexDigit c = false := by
      simp only [isHexDigit, cstr, decide_eq_false_iff_not]
      intro hmem
      simp at hmem
      omega
    rw [h1, h2]
    rfl

theorem hexVal_lt (c : Nat) (h : isHexDigit c = true) : hexVal c < 16 := by
  by_cases hc : c < 128
  · have : ∀ d : Fin 128, isHexDigit d.val = true → hexVal d.val < 16 := by decide
    exact this ⟨c, hc⟩ h
  · exfalso
    simp only [isHexDigit, cstr, decide_eq_true_eq] at h
    simp at h
    omega

theorem isHexDigit_zero : isHexDigit 0 = false := by decide

theorem shift_or_nibbles : ∀ hi lo : Fin 16, (hi.val <<< 4) ||| lo.val = 16 * hi.val + lo.val := by
  decide

theorem parse_hex_byte_eq (s : CStr) (p : Nat) :
    parse_hex_byte s p =
      if isHexDigit (charAt s p) && isHexDigit (charAt s (p + 1)) then
        some (16 * hexVal (charAt s p) + hexVal (charAt s (p + 1)))
      else none := by
  unfold parse_hex_byte
  rw [parse_half_hex_byte_eq, parse_half_hex_byte_eq]
  by_cases h0 : isHexDigit (charAt s p) = true
  · by_cases h1 : isHexDigit (charAt s (p + 1)) = true
    · have := shift_or_nibbles ⟨_, hexVal_lt _ h0⟩ ⟨_, hexVal_lt _ h1⟩
      simp only at this
      simp [h0, h1, this]
    · simp [h0, h1]
  · simp [h0]

theorem charAt_drop (s : CStr) (ptr k : Nat) :
    charAt s (ptr + k) = (s.drop ptr).getD k 0 := by
  simp [charAt, List.getD_eq_getElem?_getD, List.getElem?_drop]

theorem firstInvalidDigit_cons (c : Nat) (t : CStr) :
    firstInvalidDigit (c :: t) = if isHexDigit c then firstInvalidDigit t + 1 else 0 := by
  unfold firstInvalidDigit
  rw [List.findIdx_cons]
  cases isHexDigit c <;> simp

theorem firstInvalidDigit_le (t : CStr) : firstInvalidDigit t ≤ t.length := by
  unfold firstInvalidDigit
  exact List.findIdx_le_length _

/-- The byte the decoder stores for the pair of characters at offset `p`. -/
theorem pair_byte_lt (s : CStr) (p : Nat)
    (h0 : isHexDigit (charAt s p) = true) (h1 : isHexDigit (charAt s (p + 1)) = true) :
    16 * hexVal (charAt s p) + hexVal (charAt s (p + 1)) < 256 := by
  have a := hexVal_lt _ h0
  have b := hexVal_lt _ h1
  omega

/-- What the decode loop does from offset `ptr` on: with `t` the rest of the string, it
succeeds when `t` has even length and only hex digits, storing one byte per pair from
`index` on; otherwise it stops with the offset of the first pair that is not two hex
digits. -/
theorem hexLoop_spec (s : CStr) (hs : ∀ c ∈ s, c ≠ 0) :
    ∀ (fuel ptr index : Nat) (key : List Nat),
      (s.drop ptr).length / 2 + 1 ≤ fuel →
      ((firstInvalidDigit (s.drop ptr) = (s.drop ptr).length ∧ (s.drop ptr).length % 2 = 0) →
        ∃ key', hexLoop s fuel ptr index key = some (Decoded.ok key') ∧
          key'.length = key.length ∧
          ∀ i, key'[i]? =
            if index ≤ i ∧ i < index + (s.drop ptr).length / 2 then
              (key[i]?).map (fun _ => 16 * hexVal (charAt s (ptr + 2 * (i - index)))
                + hexVal (charAt s (ptr + 2 * (i - index) + 1)))
            else key[i]?) ∧
      (¬ (firstInvalidDigit (s.drop ptr) = (s.drop ptr).length ∧
            (s.drop ptr).length % 2 = 0) →
        hexLoop s fuel ptr index key
          = some (Decoded.error (ptr + 2 * (firstInvalidDigit (s.drop ptr) / 2)))) := by
  intro fuel
  induction fuel with
  | zero => intro ptr index key h; simp at h
  | succ fuel ih =>
    intro ptr index key hfuel
    have hc0 := charAt_drop s ptr 0
    have hc1 := charAt_drop s ptr 1
    have hd2 : s.drop (ptr + 2) = (s.drop ptr).drop 2 := by
      rw [List.drop_drop]
    have hmem : ∀ c ∈ s.drop ptr, c ≠ 0 := fun c hc => hs c (List.mem_of_mem_drop hc)
    rw [hexLoop, parse_hex_byte_eq]
    rw [Nat.add_zero] at hc0
    match hsuf : s.drop ptr with
    | [] =>
      rw [hsuf] at hc0
      have h0 : charAt s ptr = 0 := by simpa using hc0
      simp only [h0, if_true, firstInvalidDigit, List.findIdx_nil, List.length_nil]
      refine ⟨fun _ => ⟨key, rfl, rfl, ?_⟩, fun h => absurd (by simp) h⟩
      intro i
      have : ¬ (index ≤ i ∧ i < index + 0 / 2) := by omega
      simp only [this, if_false]
    | [c0] =>
      rw [hsuf] at hc0 hc1 hmem
      have h0 : charAt s ptr = c0 := by simpa using hc0
      have h1 : charAt s (ptr + 1) = 0 := by simpa using hc1
      have hne : c0 ≠ 0 := hmem c0 (by simp)
      have hfi : firstInvalidDigit [c0] / 2 = 0 := by
        have := firstInvalidDigit_le [c0]
        simp only [List.length_singleton] at this
        omega
      simp [h0, h1, hne, isHexDigit_zero, hfi]
    | c0 :: c1 :: t =>
      rw [hsuf] at hc0 hc1 hmem hd2 hfuel
      have h0 : charAt s ptr = c0 := by simpa using hc0
      have h1 : charAt s (ptr + 1) = c1 := by simpa using hc1
      have hne : c0 ≠ 0 := hmem c0 (by simp)
      have hd2' : s.drop (ptr + 2) = t := by simpa using hd2
      simp only [h0, h1, hne, if_false]
      by_cases hx0 : isHexDigit c0 = true
      · by_cases hx1 : isHexDigit c1 = true
        · -- a well-formed pair: the loop goes on at `ptr + 2`
          have hlt : 16 * hexVal c0 + hexVal c1 < 256 := by
            have := pair_byte_lt s ptr (by rw [h0]; exact hx0) (by rw [h1]; exact hx1)
            rwa [h0, h1] at this
          have hfi : firstInvalidDigit (c0 :: c1 :: t) = firstInvalidDigit t + 2 := by
            rw [firstInvalidDigit_cons, firstInvalidDigit_cons]; simp [hx0, hx1]
          have hlen : (c0 :: c1 :: t).length = t.length + 2 := by simp
          have hstep := ih (ptr + 2) (index + 1)
            (key.set index ((16 * hexVal c0 + hexVal c1) % 256))
            (by rw [hd2']; simp only [List.length_cons] at hfuel; omega)
          rw [hd2'] at hstep
          simp only [hx0, hx1, Bool.and_self, if_true]
          rw [hfi, hlen]
          constructor
          · intro hcond
            obtain ⟨key', hk, hl, hget⟩ := hstep.1 ⟨by omega, by omega⟩
            refine ⟨key', hk, by rw [hl, List.length_set], ?_⟩
            intro i
            rw [hget i, List.getElem?_set, Nat.mod_eq_of_lt hlt]
            by_cases hi : index = i
            · subst hi
              have e1 : ¬ (index + 1 ≤ index ∧ index < index + 1 + t.length / 2) := by omega
              have e2 : index ≤ index ∧ index < index + (t.length + 2) / 2 := by omega
              simp only [e1, e2, if_true, if_false, Nat.sub_self, Nat.mul_zero, Nat.add_zero,
                h0, h1]
              by_cases hb : index < key.length
              · simp [hb, List.getElem?_eq_getElem]
              · have : key[index]? = none := by simp; omega
                simp [hb, this]
            · simp only [hi, if_false]
              by_cases hr : index + 1 ≤ i ∧ i < index + 1 + t.length / 2
              · have e2 : index ≤ i ∧ i < index + (t.length + 2) / 2 := by omega
                have e3 : ptr + 2 + 2 * (i - (index + 1)) = ptr + 2 * (i - index) := by omega
                simp only [hr, e2, and_self, if_true, e3]
              · have e2 : ¬ (index ≤ i ∧ i < index + (t.length + 2) / 2) := by omega
                simp only [hr, e2, if_false]
          · intro hcond
            have := hstep.2 (by omega)
            rw [this]
            congr 2
            omega
        · -- the second character is not a hex digit
          have hfi : firstInvalidDigit (c0 :: c1 :: t) = 1 := by
            rw [firstInvalidDigit_cons, firstInvalidDigit_cons]; simp [hx0, hx1]
          simp [hx0, hx1, hfi]
      · -- the first character is not a hex digit
        have hfi : firstInvalidDigit (c0 :: c1 :: t) = 0 := by
          rw [firstInvalidDigit_cons]; simp [hx0]
        simp [hx0, hfi]

theorem charAt_ne_zero_lt (s : CStr) (p : Nat) (h : charAt s p ≠ 0) : p < s.length := by
  by_contra hlt
  apply h
  simp [charAt, List.getD_eq_getElem?_getD]
  have : s[p]? = none := by simp; omega
  simp [this]

/-- The decode loop returns within `(length - ptr) / 2 + 1` iterations, for any string,
and leaves the size of the key buffer as it was. -/
theorem hexLoop_returns (s : CStr) :
    ∀ (fuel ptr index : Nat) (key : List Nat),
      (s.length - ptr) / 2 + 1 ≤ fuel →
      ∃ r, hexLoop s fuel ptr index key = some r ∧ ∀ k, r = Decoded.ok k → k.length = key.length := by
  intro fuel
  induction fuel with
  | zero => intro ptr index key h; simp at h
  | succ fuel ih =>
    intro ptr index key hfuel
    rw [hexLoop]
    by_cases h0 : charAt s ptr = 0
    · simp [h0]
    · simp only [h0, if_false]
      have hp := charAt_ne_zero_lt s ptr h0
      rw [parse_hex_byte_eq]
      by_cases hx : (isHexDigit (charAt s ptr) && isHexDigit (charAt s (ptr + 1))) = true
      · simp only [hx, if_true]
        have h1 : charAt s (ptr + 1) ≠ 0 := by
          intro hz
          rw [hz, isHexDigit_zero] at hx
          simp at hx
        have hp1 := charAt_ne_zero_lt s (ptr + 1) h1
        obtain ⟨r, hr, hlen⟩ := ih (ptr + 2) (index + 1)
          (key.set index ((16 * hexVal (charAt s ptr) + hexVal (charAt s (ptr + 1))) % 256))
          (by omega)
        refine ⟨r, hr, ?_⟩
        intro k hk
        rw [hlen k hk, List.length_set]
      · simp [hx]

theorem hexDecode_returns (s : CStr) :
    ∃ r, hexDecode s = some r ∧ ∀ k, r = Decoded.ok k → k.length = s.length / 2 := by
  obtain ⟨r, hr, hlen⟩ := hexLoop_returns s (s.length + 1) 0 0 (List.replicate (s.length / 2) 0)
    (by have := Nat.div_le_self s.length 2; simp only [Nat.sub_zero]; omega)
  refine ⟨r, hr, ?_⟩
  intro k hk
  rw [hlen k hk, List.length_replicate]

theorem firstInvalidDigit_eq_length (s : CStr) :
    firstInvalidDigit s = s.length ↔ ∀ c ∈ s, isHexDigit c = true := by
  induction s with
  | nil => simp [firstInvalidDigit]
  | cons c t ih =>
    rw [firstInvalidDigit_cons]
    by_cases hc : isHexDigit c = true
    · simp [hc, ih]
    · simp [hc]

/-- A string of even length made of hex digits decodes to one byte per pair. -/
theorem hexDecode_ok (s : CStr) (heven : s.length % 2 = 0)
    (hhex : ∀ c ∈ s, isHexDigit c = true) :
    ∃ key, hexDecode s = some (Decoded.ok key) ∧ key.length = s.length / 2 ∧
      ∀ i, i < s.length / 2 →
        key.getD i 0 = 16 * hexVal (charAt s (2 * i)) + hexVal (charAt s (2 * i + 1)) := by
  have hs : ∀ c ∈ s, c ≠ 0 := by
    intro c hc hz
    have := hhex c hc
    rw [hz, isHexDigit_zero] at this
    exact Bool.noConfusion this
  have h := (hexLoop_spec s hs (s.length + 1) 0 0 (List.replicate (s.length / 2) 0)
    (by have := Nat.div_le_self s.length 2; simp only [List.drop_zero]; omega)).1
    (by simp only [List.drop_zero]; exact ⟨(firstInvalidDigit_eq_length s).2 hhex, heven⟩)
  obtain ⟨key, hk, hlen, hget⟩ := h
  refine ⟨key, hk, by rw [hlen, List.length_replicate], ?_⟩
  intro i hi
  rw [List.getD_eq_getElem?_getD, hget i]
  simp [hi, List.getElem?_replicate]

/-- Any other string makes the decoder stop at the first pair that is not two hex digits. -/
theorem hexDecode_error (s : CStr) (hs : ∀ c ∈ s, c ≠ 0)
    (h : ¬ (s.length % 2 = 0 ∧ ∀ c ∈ s, isHexDigit c = true)) :
    hexDecode s = some (Decoded.error (2 * (firstInvalidDigit s / 2))) := by
  have := (hexLoop_spec s hs (s.length + 1) 0 0 (List.replicate (s.length / 2) 0)
    (by have := Nat.div_le_self s.length 2; simp only [List.drop_zero]; omega)).2
    (by
      simp only [List.drop_zero]
      rw [firstInvalidDigit_eq_length]
      intro hc
      exact h ⟨hc.2, hc.1⟩)
  simpa using this

theorem writesOf_append (a b : List Access) : writesOf (a ++ b) = writesOf a ++ writesOf b := by
  induction a with
  | nil => rfl
  | cons x xs ih => cases x <;> simp [writesOf, ih]

theorem parse_hex_byte_reads_bound (s : CStr) (ptr : Nat) (h : ptr < s.length) :
    (∀ o, Access.read o ∈ parse_hex_byte_reads s ptr → o ≤ s.length) ∧
      writesOf (parse_hex_byte_reads s ptr) = [] ∧
      ∀ i, Access.write i ∉ parse_hex_byte_reads s ptr := by
  unfold parse_hex_byte_reads
  split
  · refine ⟨?_, rfl, ?_⟩
    · intro o ho
      simp only [List.mem_singleton, Access.read.injEq] at ho
      omega
    · intro i hi
      simp at hi
  · refine ⟨?_, rfl, ?_⟩
    · intro o ho
      simp only [List.mem_cons, Access.read.injEq, List.mem_singleton, List.not_mem_nil,
        or_false] at ho
      omega
    · intro i hi
      simp at hi

/-- The decode loop with its accesses: it gives the result of `hexLoop`, reads no
character past the terminating NUL, stores only below `length / 2`, and on success (on a
string without NUL inside) it has stored to each index up to `length / 2` once. -/
theorem hexLoopLog_spec (s : CStr) :
    ∀ (fuel ptr index : Nat) (key : List Nat) (log : List Access),
      ptr = 2 * index → ptr ≤ s.length → (s.length - ptr) / 2 + 1 ≤ fuel →
      ∃ r log1, hexLoopLog s fuel ptr index key log = some (r, log ++ log1) ∧
        hexLoop s fuel ptr index key = some r ∧
        (∀ o, Access.read o ∈ log1 → o ≤ s.length) ∧
        (∀ i, Access.write i ∈ log1 → i < s.length / 2) ∧
        ((∀ c ∈ s, c ≠ 0) → ∀ k, r = Decoded.ok k →
          writesOf log1 = List.range' index (s.length / 2 - index)) := by
  intro fuel
  induction fuel with
  | zero => intro ptr index key log _ _ h; simp at h
  | succ fuel ih =>
    intro ptr index key log hpi hle hfuel
    rw [hexLoopLog, hexLoop]
    by_cases h0 : charAt s ptr = 0
    · simp only [h0, if_true]
      refine ⟨_, _, rfl, rfl, ?_, ?_, ?_⟩
      · intro o ho
        simp only [List.mem_singleton, Access.read.injEq] at ho
        omega
      · intro i hi
        simp at hi
      · intro hs k _
        have hge : s.length ≤ ptr := by
          by_contra hlt
          have hlt' : ptr < s.length := by omega
          have hmem : s[ptr] ∈ s := List.getElem_mem hlt'
          apply hs _ hmem
          have : charAt s ptr = s[ptr] := by
            simp [charAt, List.getD_eq_getElem?_getD, List.getElem?_eq_getElem hlt']
          rw [← this]
          exact h0
        have : s.length / 2 - index = 0 := by omega
        simp [writesOf, this]
    · simp only [h0, if_false]
      have hp := charAt_ne_zero_lt s ptr h0
      obtain ⟨hrd, hwr0, hnw⟩ := parse_hex_byte_reads_bound s ptr hp
      cases hparse : parse_hex_byte s ptr with
      | none =>
        simp only
        refine ⟨_, [Access.read ptr] ++ parse_hex_byte_reads s ptr,
          by rw [List.append_assoc], rfl, ?_, ?_, ?_⟩
        · intro o ho
          rcases List.mem_append.mp ho with h | h
          · simp only [List.mem_singleton, Access.read.injEq] at h
            omega
          · exact hrd o h
        · intro i hi
          rcases List.mem_append.mp hi with h | h
          · simp at h
          · exact absurd h (hnw i)
        · intro _ k hk
          cases hk
      | some byte =>
        simp only
        have hx : (isHexDigit (charAt s ptr) && isHexDigit (charAt s (ptr + 1))) = true := by
          by_contra hne
          rw [parse_hex_byte_eq] at hparse
          simp only [hne, if_false] at hparse
          cases hparse
        have h1 : charAt s (ptr + 1) ≠ 0 := by
          intro hz
          rw [hz, isHexDigit_zero] at hx
          simp at hx
        have hp1 := charAt_ne_zero_lt s (ptr + 1) h1
        obtain ⟨r, log1, hlog, hres, hreads, hwrites, hsucc⟩ := ih (ptr + 2) (index + 1)
          (key.set index (byte % 256))
          (log ++ [Access.read ptr] ++ parse_hex_byte_reads s ptr ++ [Access.write index])
          (by omega) (by omega) (by omega)
        refine ⟨r, [Access.read ptr] ++ parse_hex_byte_reads s ptr ++ [Access.write index]
          ++ log1, ?_, hres, ?_, ?_, ?_⟩
        · rw [hlog]
          simp only [List.append_assoc]
        · intro o ho
          simp only [List.append_assoc, List.mem_append, List.mem_singleton,
            Access.read.injEq] at ho
          rcases ho with h | h | h | h
          · omega
          · exact hrd o h
          · cases h
          · exact hreads o h
        · intro i hi
          simp only [List.append_assoc, List.mem_append, List.mem_singleton,
            Access.write.injEq] at hi
          rcases hi with h | h | h | h
          · cases h
          · exact absurd h (hnw i)
          · omega
          · exact hwrites i h
        · intro hs k hk
          have hrest := hsucc hs k hk
          have hlen : s.length / 2 - index = (s.length / 2 - (index + 1)) + 1 := by omega
          have hw : writesOf ([Access.read ptr] ++ parse_hex_byte_reads s ptr
              ++ [Access.write index] ++ log1) = index :: writesOf log1 := by
            rw [writesOf_append, writesOf_append, writesOf_append, hwr0]
            rfl
          rw [hw, hrest, hlen, List.range'_succ]

/-! ## The phases of `main` -/

theorem totalLength_cons (f : List Nat) (fs : List (List Nat)) :
    totalLength (f :: fs) = f.length + totalLength fs := by
  simp [totalLength]

theorem concatTransforms_length (key : List Nat) (fs : List (List Nat)) :
    (concatTransforms key fs).length = totalLength fs := by
  induction fs with
  | nil => simp [concatTransforms, totalLength]
  | cons f fs ih => simp [concatTransforms, totalLength_cons, cyclicXor_length, ih]

/-- The option loop leaves everything but `key_type` and `output` as it was. -/
theorem parseOptions_done (opts : List OptRet) :
    ∀ (l0 l : MainState), parseOptions opts l0 = Parsed.done l →
      ∃ kt out, l = { l0 with key_type := kt, output := out } := by
  induction opts with
  | nil =>
    intro l0 l h
    simp only [parseOptions, Parsed.done.injEq] at h
    exact ⟨l0.key_type, l0.output, h ▸ rfl⟩
  | cons o rest ih =>
    intro l0 l h
    rw [parseOptions] at h
    split_ifs at h
    · obtain ⟨kt, out, hl⟩ := ih _ _ h
      exact ⟨kt, out, hl⟩
    · obtain ⟨kt, out, hl⟩ := ih _ _ h
      exact ⟨kt, out, hl⟩
    · obtain ⟨kt, out, hl⟩ := ih _ _ h
      exact ⟨kt, out, hl⟩
    · obtain ⟨kt, out, hl⟩ := ih _ _ h
      exact ⟨kt, out, hl⟩
    · exact ih _ _ h

/-- Closing the streams at `end:` does not touch what the sink has accepted. -/
theorem cleanup_output (w : World) (keyarg : CStr) (l : MainState) :
    (cleanup w keyarg l).output = match l.outfp with
      | some fp => fp.written
      | none => [] := by
  have h1 : (cleanupKeyfp w keyarg l).outfp = l.outfp := by
    simp only [cleanupKeyfp, MainState.log]
    split_ifs <;> rfl
  have h2 : ∀ m : MainState, (cleanupInfp w m).outfp = m.outfp := by
    intro m
    simp only [cleanupInfp, MainState.log]
    split
    · split_ifs <;> rfl
    · rfl
  have h3 : ∀ m : MainState, (cleanupOutfp w m).outfp = m.outfp := by
    intro m
    simp only [cleanupOutfp, MainState.log]
    split
    · split_ifs <;> rfl
    · rfl
  simp only [cleanup, h3, h2, h1]

/-- The file loop on files that open, read and close without error, writing to a sink
with enough room: it falls through, and the sink has accepted the transform of each
file in turn. -/
theorem inputLoop_clean (w : World) (outname : CStr) (key : List Nat) (hk : 0 < key.length) :
    ∀ (files : List CStr) (optind : Nat) (outfp : OutStream) (l : MainState),
      (∀ f ∈ files, (w.file f).openOk = true ∧ (w.file f).failing = false ∧
        (w.file f).closeOk = true) →
      (∀ n, outfp.room = some n →
        totalLength (files.map (fun f => (w.file f).data)) ≤ n) →
      l.outfp = some outfp →
      ∃ l', inputLoop w outname key key.length files optind outfp l = some (Flow.next l') ∧
        l'.outfp = some ⟨outfp.id,
          outfp.written ++ concatTransforms key (files.map (fun f => (w.file f).data)),
          outfp.room.map (fun n => n - totalLength (files.map (fun f => (w.file f).data)))⟩ := by
  intro files
  induction files with
  | nil =>
    intro optind outfp l _ _ hl
    refine ⟨l, rfl, ?_⟩
    simp [hl, concatTransforms, totalLength, option_map_sub_zero]
  | cons f rest ih =>
    intro optind outfp l hfiles hroom hl
    obtain ⟨hopen, hfail, hclose⟩ := hfiles f (List.mem_cons_self f rest)
    have hroom1 : ∀ n, outfp.room = some n → (w.file f).data.length ≤ n := by
      intro n hn
      have := hroom n hn
      rw [List.map_cons, totalLength_cons] at this
      omega
    obtain ⟨r, hr, hret, hout⟩ :=
      fxor_clean (Fp.infp optind) (w.file f).data f outfp outname key hk hroom1
    rw [inputLoop]
    simp only [hopen, hfail, hclose, Bool.true_eq_false, if_false, hr, hret, ne_eq,
      not_true_eq_false]
    obtain ⟨l', hl', hout'⟩ := ih (optind + 1) r.outfp
      (({ ({ l with infilename := f }.log [Event.fopen (Fp.infp optind) f true]) with
          infp := some r.infp, outfp := some r.outfp }.log r.trace |>
        fun l3 => { l3 with infp := none }.log [Event.fclose (Fp.infp optind) true]))
      (fun g hg => hfiles g (List.mem_cons_of_mem f hg))
      (by
        intro n hn
        have htot := hroom
        rw [hout] at hn
        simp only [List.map_cons, totalLength_cons] at htot
        cases hroom' : outfp.room with
        | none => simp [hroom'] at hn
        | some r0 =>
          have := htot r0 hroom'
          simp [hroom'] at hn
          omega)
      rfl
    refine ⟨l', hl', ?_⟩
    rw [hout', hout]
    simp only [List.map_cons, concatTransforms, totalLength_cons, List.append_assoc,
      option_map_sub_sub]

/-- Lines 235-261 on input sources without error: the run falls through and the sink has
accepted the concatenation of the transforms of the sources. -/
theorem processInputs_clean (w : World) (files : List CStr) (outname : CStr)
    (outfp : OutStream) (l : MainState) (key : List Nat)
    (hkey : l.key = some key) (hsize : l.key_size = key.length) (hk : 0 < key.length)
    (hstdin : files = [] → w.stdinFailing = false)
    (hfiles : ∀ f ∈ files, (w.file f).openOk = true ∧ (w.file f).failing = false ∧
      (w.file f).closeOk = true)
    (hroom : ∀ n, outfp.room = some n → totalLength (inputSources w files) ≤ n)
    (hl : l.outfp = some outfp) :
    ∃ l', processInputs w files outname outfp l = some (Flow.next l') ∧
      l'.outfp = some ⟨outfp.id, outfp.written ++ concatTransforms key (inputSources w files),
        outfp.room.map (fun n => n - totalLength (inputSources w files))⟩ := by
  cases files with
  | nil =>
    have hroom1 : ∀ n, outfp.room = some n → w.stdinData.length ≤ n := by
      intro n hn
      have := hroom n hn
      simpa [inputSources, totalLength] using this
    obtain ⟨r, hr, hret, hout⟩ :=
      fxor_clean Fp.stdin w.stdinData (cstr "<stdin>") outfp outname key hk hroom1
    simp only [processInputs, hkey, hsize, Option.getD_some, hstdin rfl, hr, hret, ne_eq,
      not_true_eq_false, if_false]
    refine ⟨_, rfl, ?_⟩
    simp [MainState.log, hout, inputSources, concatTransforms, totalLength]
  | cons f rest =>
    simp only [processInputs, hkey, hsize, Option.getD_some]
    exact inputLoop_clean w outname key hk (f :: rest) 1 outfp l hfiles hroom hl

/-- The decode loop of hex mode, the copy of string mode and the read of file mode leave a
key whose length is `key_size`. -/
theorem loadKey_next (w : World) (keyarg : CStr) (l l1 : MainState)
    (h : loadKey w keyarg l = some (Flow.next l1)) :
    (∃ key, l1.key = some key ∧ key.length = l1.key_size) ∧
      l1.output = l.output ∧ l1.outfp = l.outfp := by
  unfold loadKey at h
  cases hkt : l.key_type with
  | KEY_HEX =>
    simp only [hkt, loadHexKey] at h
    by_cases ha : w.keyAllocOk = false
    · simp [ha] at h
    · obtain ⟨r, hr, hlen⟩ := hexDecode_returns keyarg
      have ha' : w.keyAllocOk = true := by simpa using ha
      simp only [ha', Bool.true_eq_false, if_false, hr] at h
      cases r with
      | error index => simp at h
      | ok key =>
        simp only [Option.some.injEq, Flow.next.injEq] at h
        subst h
        exact ⟨⟨key, rfl, hlen key rfl⟩, rfl, rfl⟩
  | KEY_STR =>
    simp only [hkt, loadStrKey, Option.some.injEq, Flow.next.injEq] at h
    subst h
    exact ⟨⟨keyarg, rfl, rfl⟩, rfl, rfl⟩
  | KEY_FILE =>
    simp only [hkt, loadFileKey, Option.some.injEq] at h
    split_ifs at h with h1 h2 h3 h4 h5
    simp only [Flow.next.injEq] at h
    subst h
    refine ⟨⟨_, rfl, ?_⟩, rfl, rfl⟩
    simp only [MainState.log]
    -- the read returned one item of `st_size` bytes
    have hread : (fread (w.file keyarg).st_size 1
        ⟨Fp.keyfp, (w.file keyarg).data, (w.file keyarg).failing, false⟩).1 = 1 := by
      by_contra hne
      exact h4 hne
    unfold fread at hread ⊢
    by_cases hz : (w.file keyarg).st_size * 1 = 0
    · simp [hz] at hread
    · by_cases hle : (w.file keyarg).st_size * 1 ≤ (w.file keyarg).data.length
      · simp only [hz, hle, if_false, if_true, List.length_take]
        simp only [Nat.mul_one] at hle
        simp [Nat.min_eq_left hle]
      · simp only [hz, hle, if_false] at hread
        simp only [Nat.mul_one] at hle hz
        have : (w.file keyarg).data.length / (w.file keyarg).st_size = 0 :=
          Nat.div_eq_of_lt (by omega)
        omega

/-- A run in which the key loads, is not empty, and nothing fails afterwards: `main`
returns, and the sink has accepted the concatenation of the transforms of the sources. -/
theorem main_clean (w : World) (opts : List OptRet) (keyarg : CStr) (files : List CStr)
    (l l1 : MainState)
    (hopts : parseOptions opts MainState.init = Parsed.done l)
    (hkey : loadKey w keyarg l = some (Flow.next l1)) (hne : l1.key_size ≠ 0)
    (hbuf : w.bufAllocOk = true) (hopen : l.output ≠ none → w.outOpenOk = true)
    (hstdin : files = [] → w.stdinFailing = false)
    (hfiles : ∀ f ∈ files, (w.file f).openOk = true ∧ (w.file f).failing = false ∧
      (w.file f).closeOk = true)
    (hroom : ∀ n, w.outRoom = some n → totalLength (inputSources w files) ≤ n) :
    ∃ r key, main w opts (keyarg :: files) = some r ∧ l1.key = some key ∧
      key.length = l1.key_size ∧
      r.output = concatTransforms key (inputSources w files) := by
  obtain ⟨⟨key, hk, hlen⟩, hout, _⟩ := loadKey_next w keyarg l l1 hkey
  have hpos : 0 < key.length := by omega
  simp only [main, hopts, mainBody, hkey, hne, if_false, hbuf, Bool.true_eq_false]
  cases hO : l1.output with
  | none =>
    obtain ⟨l', hl', hfp⟩ := processInputs_clean w files (cstr "<stdout>")
      ⟨Fp.stdout, [], w.outRoom⟩
      { { l1 with buf := true } with outfp := some ⟨Fp.stdout, [], w.outRoom⟩ } key
      hk hlen.symm hpos hstdin hfiles hroom rfl
    simp only [hO] at hl'
    simp only [openOutput, hO, hl']
    refine ⟨_, key, rfl, hk, hlen, ?_⟩
    rw [cleanup_output, hfp]
    simp
  | some output =>
    have hop : w.outOpenOk = true := hopen (by rw [← hout, hO]; simp)
    obtain ⟨l', hl', hfp⟩ := processInputs_clean w files output
      ⟨Fp.outfp, [], w.outRoom⟩
      ({ { l1 with buf := true } with outfp := some ⟨Fp.outfp, [], w.outRoom⟩ }.log
        [Event.fopen Fp.outfp output true]) key
      hk hlen.symm hpos hstdin hfiles hroom rfl
    simp only [hO] at hl'
    simp only [openOutput, hO, hop, Bool.true_eq_false, if_false, hl']
    refine ⟨_, key, rfl, hk, hlen, ?_⟩
    rw [cleanup_output, hfp]
    simp

/-- Key loading always returns, touches neither `infp`, `outfp` nor `output`, and its
events concern the key only. -/
theorem loadKey_frame (w : World) (keyarg : CStr) (l : MainState) :
    ∃ fl, loadKey w keyarg l = some fl ∧
      fl.state.infp = l.infp ∧ fl.state.outfp = l.outfp ∧ fl.state.output = l.output ∧
      ∃ es, fl.state.trace = l.trace ++ es ∧ ∀ e ∈ es, Event.onData e = false := by
  unfold loadKey
  cases hkt : l.key_type with
  | KEY_HEX =>
    simp only [loadHexKey]
    by_cases ha : w.keyAllocOk = false
    · simp only [ha, if_true]
      exact ⟨_, rfl, rfl, rfl, rfl, _, rfl, by simp [Event.onData]⟩
    · have ha' : w.keyAllocOk = true := by simpa using ha
      obtain ⟨r, hr, _⟩ := hexDecode_returns keyarg
      simp only [ha', Bool.true_eq_false, if_false, hr]
      cases r with
      | error index => exact ⟨_, rfl, rfl, rfl, rfl, _, rfl, by simp [Event.onData]⟩
      | ok key => exact ⟨_, rfl, rfl, rfl, rfl, [], by simp [Flow.state], by simp⟩
  | KEY_STR =>
    exact ⟨_, rfl, rfl, rfl, rfl, [], by simp [Flow.state, loadStrKey], by simp⟩
  | KEY_FILE =>
    simp only [loadFileKey]
    split_ifs
    all_goals
      refine ⟨_, rfl, rfl, rfl, rfl, ?_⟩
      simp only [Flow.state, MainState.log, List.append_assoc]
      refine ⟨_, rfl, ?_⟩
      simp [Event.onData]

/-- The label `end:` reached with neither an input nor an output stream open, status 1
and no event on data so far: the run ends with status 1, nothing written, and still no
event on data. -/
theorem cleanup_no_data (w : World) (keyarg : CStr) (l : MainState)
    (hin : l.infp = none) (hout : l.outfp = none) (hst : l.status = 1)
    (htr : ∀ e ∈ l.trace, Event.onData e = false) :
    (cleanup w keyarg l).status = 1 ∧ (cleanup w keyarg l).output = [] ∧
      ∀ e ∈ (cleanup w keyarg l).trace, Event.onData e = false := by
  have hk : (cleanupKeyfp w keyarg l).infp = none ∧ (cleanupKeyfp w keyarg l).outfp = none ∧
      (cleanupKeyfp w keyarg l).status = 1 ∧
      ∀ e ∈ (cleanupKeyfp w keyarg l).trace, Event.onData e = false := by
    simp only [cleanupKeyfp, MainState.log]
    split_ifs
    all_goals
      refine ⟨hin, hout, ?_, ?_⟩
      · first
          | exact hst
          | rfl
      · first
          | exact htr
          | (intro e he
             rcases List.mem_append.mp he with h | h
             · exact htr e h
             · simp only [List.mem_cons, List.mem_singleton, List.not_mem_nil, or_false] at h
               rcases h with rfl | rfl <;> rfl)
  obtain ⟨kin, kout, kst, ktr⟩ := hk
  have hi : cleanupInfp w (cleanupKeyfp w keyarg l) = cleanupKeyfp w keyarg l := by
    simp only [cleanupInfp, kin]
  have ho : cleanupOutfp w (cleanupKeyfp w keyarg l) = cleanupKeyfp w keyarg l := by
    simp only [cleanupOutfp, kout]
    split <;> simp_all
  have hc : cleanup w keyarg l
      = ⟨(cleanupKeyfp w keyarg l).status, (cleanupKeyfp w keyarg l).trace, []⟩ := by
    simp only [cleanup, hi, ho, kout]
  rw [hc]
  exact ⟨kst, rfl, ktr⟩

/-- The label `error:` reached with neither an input nor an output stream open and no
event on data so far. -/
theorem errorExit_no_data (w : World) (keyarg : CStr) (l : MainState)
    (hin : l.infp = none) (hout : l.outfp = none)
    (htr : ∀ e ∈ l.trace, Event.onData e = false) :
    (errorExit w keyarg l).status = 1 ∧ (errorExit w keyarg l).output = [] ∧
      ∀ e ∈ (errorExit w keyarg l).trace, Event.onData e = false :=
  cleanup_no_data w keyarg { l with status := 1 } hin hout rfl htr

/-! ## The file loop on any environment -/

theorem openedInputs_append (a b : List Event) :
    openedInputs (a ++ b) = openedInputs a ++ openedInputs b := by
  induction a with
  | nil => rfl
  | cons e es ih =>
    cases e with
    | fopen fp path ok => cases fp <;> simp [openedInputs, ih]
    | _ => simp [openedInputs, ih]

/-- The events of `fxor` on the input file at position `j0`. -/
theorem fxor_events_on_input (es : List Event) (j0 size : Nat) (oid : Fp)
    (inname outname : CStr) (hoid : ∀ j, oid ≠ Fp.infp j)
    (hmem : ∀ e ∈ es, (∃ c, e = Event.fread (Fp.infp j0) 1 size c) ∨
      (∃ buf ok, e = Event.fwrite oid buf ok ∧ 1 ≤ buf.length ∧ buf.length ≤ size) ∨
      e = Event.perror inname ∨ e = Event.perror outname) :
    openedInputs es = [] ∧ (∀ e ∈ es, Event.isOutputOpen e = false) ∧
      ∀ e ∈ es, ∀ j, Event.fp e = some (Fp.infp j) → j = j0 := by
  induction es with
  | nil => exact ⟨rfl, by simp, by simp⟩
  | cons e es ih =>
    obtain ⟨h1, h2, h3⟩ := ih (fun x hx => hmem x (List.mem_cons_of_mem e hx))
    have he := hmem e (List.mem_cons_self e es)
    refine ⟨?_, ?_, ?_⟩
    · rcases he with ⟨c, rfl⟩ | ⟨buf, ok, rfl, _, _⟩ | rfl | rfl <;>
        simpa [openedInputs] using h1
    · intro x hx
      rcases List.mem_cons.mp hx with rfl | hx
      · rcases he with ⟨c, rfl⟩ | ⟨buf, ok, rfl, _, _⟩ | rfl | rfl <;> rfl
      · exact h2 x hx
    · intro x hx j hj
      rcases List.mem_cons.mp hx with rfl | hx
      · rcases he with ⟨c, rfl⟩ | ⟨buf, ok, rfl, _, _⟩ | rfl | rfl
        · simp only [Event.fp, Option.some.injEq, Fp.infp.injEq] at hj
          exact hj.symm
        · simp only [Event.fp, Option.some.injEq] at hj
          exact absurd hj (hoid j)
        · simp [Event.fp] at hj
        · simp [Event.fp] at hj
      · exact h3 x hx j hj

/-- The events on one file, alone or followed by the events on the files after it. -/
theorem eventsOnInputs_one (es : List Event) (optind : Nat)
    (h1 : openedInputs es = [optind]) (h2 : ∀ e ∈ es, Event.isOutputOpen e = false)
    (h3 : ∀ e ∈ es, ∀ j, Event.fp e = some (Fp.infp j) → j = optind) :
    EventsOnInputs es optind 1 := by
  refine ⟨by rw [h1]; rfl, h2, ?_⟩
  intro e he j hj
  have := h3 e he j hj
  omega

theorem eventsOnInputs_cons (es es1 : List Event) (optind count : Nat)
    (h1 : openedInputs es = [optind]) (h2 : ∀ e ∈ es, Event.isOutputOpen e = false)
    (h3 : ∀ e ∈ es, ∀ j, Event.fp e = some (Fp.infp j) → j = optind)
    (hrest : EventsOnInputs es1 (optind + 1) count) :
    EventsOnInputs (es ++ es1) optind (count + 1) := by
  obtain ⟨r1, r2, r3⟩ := hrest
  refine ⟨?_, ?_, ?_⟩
  · rw [openedInputs_append, h1, r1, List.range'_succ]
    rfl
  · intro e he
    rcases List.mem_append.mp he with h | h
    · exact h2 e h
    · exact r2 e h
  · intro e he j hj
    rcases List.mem_append.mp he with h | h
    · have := h3 e h j hj
      omega
    · have := r3 e h j hj
      omega

theorem filesFine_nil (w : World) (room : Option Nat) : filesFine w [] room := by
  refine ⟨by simp, ?_⟩
  intro n _
  simp [totalLength]

theorem filesFine_cons (w : World) (f : CStr) (rest : List CStr) (room : Option Nat) :
    filesFine w (f :: rest) room ↔
      ((w.file f).openOk = true ∧ (w.file f).failing = false ∧ (w.file f).closeOk = true) ∧
      (∀ n, room = some n → (w.file f).data.length ≤ n) ∧
      filesFine w rest (room.map (fun n => n - (w.file f).data.length)) := by
  unfold filesFine
  simp only [List.mem_cons, forall_eq_or_imp, List.map_cons, totalLength_cons]
  constructor
  · rintro ⟨⟨hf, hrest⟩, hroom⟩
    refine ⟨hf, ?_, hrest, ?_⟩
    · intro n hn
      have := hroom n hn
      omega
    · intro n hn
      cases hr : room with
      | none => simp [hr] at hn
      | some r0 =>
        have := hroom r0 hr
        simp only [hr, Option.map_some', Option.some.injEq] at hn
        omega
  · rintro ⟨hf, hfit, hrest, hroom⟩
    refine ⟨⟨hf, hrest⟩, ?_⟩
    intro n hn
    have h1 := hfit n hn
    have h2 := hroom (n - (w.file f).data.length) (by simp [hn])
    omega

theorem acceptedLength_lt (room : Option Nat) (a : Nat) (h : acceptedLength room a < a) :
    ∃ n, room = some n ∧ n < a := by
  cases room with
  | none => simp [acceptedLength] at h
  | some r =>
    simp only [acceptedLength] at h
    exact ⟨r, rfl, by omega⟩

theorem acceptedLength_ge (room : Option Nat) (a : Nat) (h : ¬ acceptedLength room a < a) :
    acceptedLength room a = a ∧ ∀ n, room = some n → a ≤ n := by
  cases room with
  | none => exact ⟨rfl, by intro n hn; cases hn⟩
  | some r =>
    simp only [acceptedLength] at h ⊢
    refine ⟨by omega, ?_⟩
    intro n hn
    cases hn
    omega

/-- The events on one input file: the open, the events of `fxor`, and what follows. -/
theorem events_of_file (es tail : List Event) (optind size : Nat) (oid : Fp)
    (f outname : CStr) (ok : Bool) (hoid : ∀ j, oid ≠ Fp.infp j)
    (hmem : ∀ e ∈ es, (∃ c, e = Event.fread (Fp.infp optind) 1 size c) ∨
      (∃ buf b, e = Event.fwrite oid buf b ∧ 1 ≤ buf.length ∧ buf.length ≤ size) ∨
      e = Event.perror f ∨ e = Event.perror outname)
    (htail : tail = [] ∨ (∃ b, tail = [Event.fclose (Fp.infp optind) b]) ∨
      ∃ b, tail = [Event.fclose (Fp.infp optind) b, Event.perror f]) :
    openedInputs ([Event.fopen (Fp.infp optind) f ok] ++ es ++ tail) = [optind] ∧
    (∀ e ∈ [Event.fopen (Fp.infp optind) f ok] ++ es ++ tail,
      Event.isOutputOpen e = false) ∧
    ∀ e ∈ [Event.fopen (Fp.infp optind) f ok] ++ es ++ tail, ∀ j,
      Event.fp e = some (Fp.infp j) → j = optind := by
  obtain ⟨h1, h2, h3⟩ := fxor_events_on_input es optind size oid f outname hoid hmem
  have ht : openedInputs tail = [] ∧ (∀ e ∈ tail, Event.isOutputOpen e = false) ∧
      ∀ e ∈ tail, ∀ j, Event.fp e = some (Fp.infp j) → j = optind := by
    rcases htail with rfl | ⟨b, rfl⟩ | ⟨b, rfl⟩
    · exact ⟨rfl, by simp, by simp⟩
    · refine ⟨rfl, ?_, ?_⟩
      · intro e he
        simp only [List.mem_singleton] at he
        subst he; rfl
      · intro e he j hj
        simp only [List.mem_singleton] at he
        subst he
        simp only [Event.fp, Option.some.injEq, Fp.infp.injEq] at hj
        exact hj.symm
    · refine ⟨rfl, ?_, ?_⟩
      · intro e he
        simp only [List.mem_cons, List.mem_singleton, List.not_mem_nil, or_false] at he
        rcases he with rfl | rfl <;> rfl
      · intro e he j hj
        simp only [List.mem_cons, List.mem_singleton, List.not_mem_nil, or_false] at he
        rcases he with rfl | rfl
        · simp only [Event.fp, Option.some.injEq, Fp.infp.injEq] at hj
          exact hj.symm
        · simp [Event.fp] at hj
  obtain ⟨t1, t2, t3⟩ := ht
  refine ⟨?_, ?_, ?_⟩
  · rw [openedInputs_append, openedInputs_append, h1, t1]
    rfl
  · intro e he
    simp only [List.append_assoc, List.mem_append, List.mem_singleton] at he
    rcases he with rfl | he | he
    · rfl
    · exact h2 e he
    · exact t2 e he
  · intro e he j hj
    simp only [List.append_assoc, List.mem_append, List.mem_singleton] at he
    rcases he with rfl | he | he
    · simp only [Event.fp, Option.some.injEq, Fp.infp.injEq] at hj
      exact hj.symm
    · exact h3 e he j hj
    · exact t3 e he j hj

/-- The file loop on any environment, for a non-empty key: it returns, and what it
leaves is a `LoopOutcome`. -/
theorem inputLoop_outcome (w : World) (outname : CStr) (key : List Nat)
    (hk : 0 < key.length) :
    ∀ (files : List CStr) (optind : Nat) (outfp : OutStream) (l : MainState),
      (∀ j, outfp.id ≠ Fp.infp j) → l.outfp = some outfp → l.infp = none →
      ∃ fl, inputLoop w outname key key.length files optind outfp l = some fl ∧
        LoopOutcome w key files optind outfp l fl := by
  intro files
  induction files with
  | nil =>
    intro optind outfp l _ hl hin
    refine ⟨Flow.next l, rfl, ⟨rfl, rfl, rfl, rfl, Or.inl ⟨l, rfl, filesFine_nil w _, hin, ?_,
      [], by simp, ⟨rfl, by simp, by simp⟩⟩⟩⟩
    simp [hl, concatTransforms, totalLength, option_map_sub_zero]
  | cons f rest ih =>
    intro optind outfp l hoid hl hin
    have hroom0 : outfp.room.map
        (fun n => n - totalLength (([] : List CStr).map (fun g => (w.file g).data)))
        = outfp.room := by
      simp [totalLength, option_map_sub_zero]
    rw [inputLoop]
    by_cases hopen : (w.file f).openOk = false
    · -- the file does not open
      simp only [hopen, if_true]
      refine ⟨_, rfl, ⟨rfl, rfl, rfl, rfl, Or.inr ⟨_, [], f, rest, rfl, rfl,
        filesFine_nil w _, Or.inl hopen, ⟨outfp, hl, rfl, ?_⟩, ?_, _, rfl, ?_⟩⟩⟩
      · simp [concatTransforms, acceptedFrom, hopen]
      · intro fp hfp
        simp [MainState.log] at hfp
      · have := events_of_file [] [] optind key.length outfp.id f outname false hoid
          (by simp) (Or.inl rfl)
        simp only [List.append_nil, List.singleton_append] at this
        obtain ⟨a, b, c⟩ := this
        refine eventsOnInputs_one _ optind ?_ ?_ ?_
        · simp [openedInputs]
        · intro e he
          simp only [List.mem_cons, List.mem_singleton, List.not_mem_nil, or_false] at he
          rcases he with rfl | rfl <;> rfl
        · intro e he j hj
          simp only [List.mem_cons, List.mem_singleton, List.not_mem_nil, or_false] at he
          rcases he with rfl | rfl
          · simp only [Event.fp, Option.some.injEq, Fp.infp.injEq] at hj
            exact hj.symm
          · simp [Event.fp] at hj
    · have hopen' : (w.file f).openOk = true := by simpa using hopen
      obtain ⟨r, hr, hout, hret⟩ := fxor_spec f outname key hk (w.file f).data
        (Fp.infp optind) (w.file f).failing outfp
      obtain ⟨es, htr, hev⟩ := fxorLoop_events f outname key key.length hk _
        ⟨Fp.infp optind, (w.file f).data, (w.file f).failing, false⟩ outfp [] r rfl hr
      rw [List.nil_append] at htr
      obtain ⟨hiid, hoid1⟩ := fxorLoop_ids f outname key key.length _ _ _ _ r hr
      have hacc : acceptedFrom key.length (w.file f) outfp.room
          = acceptedLength outfp.room
              (deliveredLength key.length (w.file f).data (w.file f).failing) := by
        simp [acceptedFrom, hopen']
      have hwritten : r.outfp.written = outfp.written
          ++ concatTransforms key (([] : List CStr).map (fun g => (w.file g).data))
          ++ (cyclicXor key (w.file f).data).take (acceptedFrom key.length (w.file f)
            (outfp.room.map (fun n => n
              - totalLength (([] : List CStr).map (fun g => (w.file g).data))))) := by
        rw [hroom0, hacc, hout]
        simp [concatTransforms]
      simp only [hopen', Bool.true_eq_false, if_false, hr]
      by_cases hret0 : r.ret = 0
      · -- the transform succeeded
        have hcond : ¬ ((w.file f).failing = true ∨
            acceptedLength outfp.room
              (deliveredLength key.length (w.file f).data (w.file f).failing)
              < deliveredLength key.length (w.file f).data (w.file f).failing) := by
          intro hc
          rw [if_pos hc] at hret
          rw [hret] at hret0
          exact absurd hret0 (by decide)
        have hnf : (w.file f).failing = false := by
          by_contra hne
          exact hcond (Or.inl (by simpa using hne))
        have hdl : deliveredLength key.length (w.file f).data (w.file f).failing
            = (w.file f).data.length := by simp [deliveredLength, hnf]
        obtain ⟨hm, hfit⟩ := acceptedLength_ge _ _ (fun h => hcond (Or.inr h))
        rw [hdl] at hm hfit
        have hout1 : r.outfp = ⟨outfp.id, outfp.written ++ cyclicXor key (w.file f).data,
            outfp.room.map (fun n => n - (w.file f).data.length)⟩ := by
          rw [hout, hdl, hm, List.take_of_length_le (by rw [cyclicXor_length])]
        simp only [hret0, ne_eq, not_true_eq_false, if_false]
        by_cases hclose : (w.file f).closeOk = false
        · -- the file does not close
          simp only [hclose, if_true]
          refine ⟨_, rfl, ⟨rfl, rfl, rfl, rfl, Or.inr ⟨_, [], f, rest, rfl, rfl,
            filesFine_nil w _, Or.inr (Or.inr (Or.inr hclose)),
            ⟨r.outfp, rfl, hoid1, hwritten⟩, ?_,
            [Event.fopen (Fp.infp optind) f true] ++ es
              ++ [Event.fclose (Fp.infp optind) false, Event.perror f], ?_, ?_⟩⟩⟩
          · intro fp hfp
            simp [MainState.log] at hfp
          · simp [MainState.log, htr]
          · obtain ⟨a, b, c⟩ := events_of_file es
              [Event.fclose (Fp.infp optind) false, Event.perror f] optind key.length
              outfp.id f outname true hoid hev.members (Or.inr (Or.inr ⟨false, rfl⟩))
            exact eventsOnInputs_one _ optind a b c
        · -- the file is done, the loop goes on
          have hclose' : (w.file f).closeOk = true := by simpa using hclose
          simp only [hclose', Bool.true_eq_false, if_false]
          obtain ⟨fl, hfl, hst, hkf, hkc, hop, hcases⟩ := ih (optind + 1) r.outfp
            ({ ({ ({ l with infilename := f }.log [Event.fopen (Fp.infp optind) f true]) with
                infp := some r.infp, outfp := some r.outfp }.log r.trace) with
              infp := none }.log [Event.fclose (Fp.infp optind) true])
            (by rw [hoid1]; exact hoid) rfl rfl
          obtain ⟨a, b, c⟩ := events_of_file es [Event.fclose (Fp.infp optind) true] optind
            key.length outfp.id f outname true hoid hev.members (Or.inr (Or.inl ⟨true, rfl⟩))
          refine ⟨fl, hfl, ⟨hst, hkf, hkc, hop, ?_⟩⟩
          rcases hcases with ⟨l1, hl1, hfine, hin1, hfp1, es1, htr1, hev1⟩ |
            ⟨l1, pre, g, post, hl1, hsplit, hfine, hfails, ⟨o, ho, hoid2, how⟩, hinf, es1,
              htr1, hev1⟩
          · left
            refine ⟨l1, hl1, ?_, hin1, ?_, [Event.fopen (Fp.infp optind) f true] ++ es
              ++ [Event.fclose (Fp.infp optind) true] ++ es1, ?_, ?_⟩
            · rw [filesFine_cons]
              rw [hout1] at hfine
              exact ⟨⟨hopen', hnf, hclose'⟩, hfit, hfine⟩
            · rw [hfp1, hout1]
              simp only [List.map_cons, concatTransforms, totalLength_cons, List.append_assoc,
                option_map_sub_sub]
            · rw [htr1]
              simp [MainState.log, htr]
            · exact eventsOnInputs_cons _ es1 optind rest.length a b c hev1
          · right
            have hroom1 : r.outfp.room.map
                (fun n => n - totalLength (pre.map (fun g => (w.file g).data)))
                = outfp.room.map (fun n => n
                  - totalLength ((f :: pre).map (fun g => (w.file g).data))) := by
              rw [hout1]
              simp only [List.map_cons, totalLength_cons, option_map_sub_sub]
            refine ⟨l1, f :: pre, g, post, hl1, by rw [hsplit]; rfl, ?_, ?_,
              ⟨o, ho, by rw [hoid2, hoid1], ?_⟩, ?_,
              [Event.fopen (Fp.infp optind) f true] ++ es
                ++ [Event.fclose (Fp.infp optind) true] ++ es1, ?_, ?_⟩
            · rw [filesFine_cons]
              rw [hout1] at hfine
              exact ⟨⟨hopen', hnf, hclose'⟩, hfit, hfine⟩
            · rw [← hroom1]
              exact hfails
            · rw [how, hroom1, hout1]
              simp only [List.map_cons, concatTransforms, List.append_assoc]
            · intro fp hfp
              rw [hinf fp hfp]
              simp only [List.length_cons]
              congr 1
              omega
            · rw [htr1]
              simp [MainState.log, htr]
            · exact eventsOnInputs_cons _ es1 optind (pre.length + 1) a b c hev1
      · -- the transform failed
        simp only [hret0, ne_eq, not_false_eq_true, if_true]
        have hcond : (w.file f).failing = true ∨
            acceptedLength outfp.room
              (deliveredLength key.length (w.file f).data (w.file f).failing)
              < deliveredLength key.length (w.file f).data (w.file f).failing := by
          by_contra hc
          rw [if_neg hc] at hret
          exact hret0 hret
        have hfails : fileFails (w.file f) outfp.room := by
          rcases hcond with h | h
          · exact Or.inr (Or.inl h)
          · obtain ⟨n, hn, hlt⟩ := acceptedLength_lt _ _ h
            have := deliveredLength_le key.length (w.file f).data (w.file f).failing
            exact Or.inr (Or.inr (Or.inl ⟨n, hn, by omega⟩))
        refine ⟨_, rfl, ⟨rfl, rfl, rfl, rfl, Or.inr ⟨_, [], f, rest, rfl, rfl,
          filesFine_nil w _, by rw [hroom0]; exact hfails,
          ⟨r.outfp, rfl, hoid1, hwritten⟩, ?_,
          [Event.fopen (Fp.infp optind) f true] ++ es, ?_, ?_⟩⟩⟩
        · intro fp hfp
          simp only [MainState.log, Option.some.injEq] at hfp
          rw [← hfp, hiid]
          rfl
        · simp [MainState.log, htr]
        · obtain ⟨a, b, c⟩ := events_of_file es [] optind key.length outfp.id f outname true
            hoid hev.members (Or.inl rfl)
          rw [List.append_nil] at a b c
          exact eventsOnInputs_one _ optind a b c

/-- A file that fails is not among files that are fine. -/
theorem fine_append_not_fails (w : World) (f : CStr) (post : List CStr) :
    ∀ (pre : List CStr) (room : Option Nat), filesFine w (pre ++ f :: post) room →
      ¬ fileFails (w.file f)
        (room.map (fun n => n - totalLength (pre.map (fun g => (w.file g).data)))) := by
  intro pre
  induction pre with
  | nil =>
    intro room hfine hfails
    rw [List.nil_append, filesFine_cons] at hfine
    obtain ⟨⟨ho, hf, hc⟩, hfit, _⟩ := hfine
    simp only [List.map_nil, totalLength, List.sum_nil, option_map_sub_zero] at hfails
    rcases hfails with h | h | ⟨n, hn, hlt⟩ | h
    · rw [ho] at h; exact Bool.noConfusion h
    · rw [hf] at h; exact Bool.noConfusion h
    · have := hfit n hn
      omega
    · rw [hc] at h; exact Bool.noConfusion h
  | cons g pre ih =>
    intro room hfine hfails
    rw [List.cons_append, filesFine_cons] at hfine
    obtain ⟨_, _, hrest⟩ := hfine
    apply ih _ hrest
    rw [option_map_sub_sub]
    simpa [totalLength_cons] using hfails

/-- The first file that fails is determined by the files and the room of the sink. -/
theorem first_failure_unique (w : World) :
    ∀ (pre pre1 : List CStr) (f f1 : CStr) (post post1 : List CStr) (room : Option Nat),
      pre ++ f :: post = pre1 ++ f1 :: post1 →
      filesFine w pre room →
      fileFails (w.file f)
        (room.map (fun n => n - totalLength (pre.map (fun g => (w.file g).data)))) →
      filesFine w pre1 room →
      fileFails (w.file f1)
        (room.map (fun n => n - totalLength (pre1.map (fun g => (w.file g).data)))) →
      pre = pre1 ∧ f = f1 ∧ post = post1 := by
  intro pre
  induction pre with
  | nil =>
    intro pre1 f f1 post post1 room heq _ hfails hfine1 _
    cases pre1 with
    | nil =>
      simp only [List.nil_append, List.cons.injEq] at heq
      exact ⟨rfl, heq.1, heq.2⟩
    | cons g p =>
      simp only [List.nil_append, List.cons_append, List.cons.injEq] at heq
      obtain ⟨hfg, _⟩ := heq
      subst hfg
      have := fine_append_not_fails w f [] [] room (by simpa using
        (show filesFine w [f] room from by
          rw [filesFine_cons] at hfine1 ⊢
          exact ⟨hfine1.1, hfine1.2.1, filesFine_nil w _⟩))
      exact absurd hfails this
  | cons g pre ih =>
    intro pre1 f f1 post post1 room heq hfine hfails hfine1 hfails1
    cases pre1 with
    | nil =>
      simp only [List.nil_append, List.cons_append, List.cons.injEq] at heq
      obtain ⟨hfg, _⟩ := heq
      subst hfg
      have := fine_append_not_fails w g [] [] room (by simpa using
        (show filesFine w [g] room from by
          rw [filesFine_cons] at hfine ⊢
          exact ⟨hfine.1, hfine.2.1, filesFine_nil w _⟩))
      exact absurd hfails1 this
    | cons g1 p1 =>
      simp only [List.cons_append, List.cons.injEq] at heq
      obtain ⟨hg, htl⟩ := heq
      subst hg
      rw [filesFine_cons] at hfine hfine1
      have h1 : fileFails (w.file f) ((room.map (fun n => n - (w.file g).data.length)).map
          (fun n => n - totalLength (pre.map (fun g => (w.file g).data)))) := by
        rw [option_map_sub_sub]
        simpa [totalLength_cons] using hfails
      have h2 : fileFails (w.file f1) ((room.map (fun n => n - (w.file g).data.length)).map
          (fun n => n - totalLength (p1.map (fun g => (w.file g).data)))) := by
        rw [option_map_sub_sub]
        simpa [totalLength_cons] using hfails1
      obtain ⟨a, b, c⟩ := ih p1 f f1 post post1 _ htl hfine.2.2 h1 hfine1.2.2 h2
      exact ⟨by rw [a], b, c⟩

theorem processInputs_files (w : World) (f : CStr) (rest : List CStr) (outname : CStr)
    (outfp : OutStream) (l : MainState) (key : List Nat)
    (hkey : l.key = some key) (hsize : l.key_size = key.length) :
    processInputs w (f :: rest) outname outfp l
      = inputLoop w outname key key.length (f :: rest) 1 outfp l := by
  simp only [processInputs, hkey, hsize, Option.getD_some]

/-- Lines 257-261 on any environment, for a non-empty key. -/
theorem processInputs_stdin (w : World) (outname : CStr) (outfp : OutStream)
    (l : MainState) (key : List Nat) (hkey : l.key = some key)
    (hsize : l.key_size = key.length) (hk : 0 < key.length)
    (hoid : ∀ j, outfp.id ≠ Fp.infp j) :
    ∃ fl, processInputs w [] outname outfp l = some fl ∧ StdinOutcome w outfp l fl := by
  obtain ⟨r, hr, hout, hret⟩ := fxor_spec (cstr "<stdin>") outname key hk w.stdinData
    Fp.stdin w.stdinFailing outfp
  obtain ⟨es, htr, hev⟩ := fxorLoop_events (cstr "<stdin>") outname key key.length hk _
    ⟨Fp.stdin, w.stdinData, w.stdinFailing, false⟩ outfp [] r rfl hr
  rw [List.nil_append] at htr
  obtain ⟨_, hoid1⟩ := fxorLoop_ids (cstr "<stdin>") outname key key.length _ _ _ _ r hr
  have hes : (∀ e ∈ es, Event.isOutputOpen e = false) ∧ openedInputs es = [] ∧
      ∀ e ∈ es, ∀ j, Event.fp e ≠ some (Fp.infp j) := by
    have hm := hev.members
    clear hev htr
    induction es with
    | nil => exact ⟨by simp, rfl, by simp⟩
    | cons e es ih =>
      obtain ⟨h1, h2, h3⟩ := ih (fun x hx => hm x (List.mem_cons_of_mem e hx))
      have he := hm e (List.mem_cons_self e es)
      refine ⟨?_, ?_, ?_⟩
      · intro x hx
        rcases List.mem_cons.mp hx with rfl | hx
        · rcases he with ⟨c, rfl⟩ | ⟨buf, ok, rfl, _, _⟩ | rfl | rfl <;> rfl
        · exact h1 x hx
      · rcases he with ⟨c, rfl⟩ | ⟨buf, ok, rfl, _, _⟩ | rfl | rfl <;>
          simpa [openedInputs] using h2
      · intro x hx j hj
        rcases List.mem_cons.mp hx with rfl | hx
        · rcases he with ⟨c, rfl⟩ | ⟨buf, ok, rfl, _, _⟩ | rfl | rfl
          · simp [Event.fp] at hj
          · simp only [Event.fp, Option.some.injEq] at hj
            exact absurd hj (hoid j)
          · simp [Event.fp] at hj
          · simp [Event.fp] at hj
        · exact h3 x hx j hj
  have hfine : r.ret = 0 ↔ sourcesFine w [] outfp.room := by
    simp only [sourcesFine]
    rw [hret]
    by_cases hf : w.stdinFailing = true
    · simp [hf]
    · have hf' : w.stdinFailing = false := by simpa using hf
      have hdl : deliveredLength key.length w.stdinData w.stdinFailing
          = w.stdinData.length := by simp [deliveredLength, hf']
      rw [hdl]
      by_cases hlt : acceptedLength outfp.room w.stdinData.length < w.stdinData.length
      · obtain ⟨n, hn, hn2⟩ := acceptedLength_lt _ _ hlt
        simp only [hf', Bool.false_eq_true, false_or, hlt, if_true, true_and]
        constructor
        · intro h; exact absurd h (by decide)
        · intro h
          have := h n hn
          omega
      · obtain ⟨_, hfit⟩ := acceptedLength_ge _ _ hlt
        simp only [hf', Bool.false_eq_true, false_or, hlt, if_false, true_and]
        exact ⟨fun _ => hfit, fun _ => trivial⟩
  simp only [processInputs, hkey, hsize, Option.getD_some, hr]
  by_cases hret0 : r.ret = 0
  · simp only [hret0, ne_eq, not_true_eq_false, if_false]
    refine ⟨_, rfl, ⟨rfl, rfl, rfl, rfl, rfl, ⟨r.outfp, rfl, hoid1⟩, ?_,
      ⟨es, by simp [Flow.state, MainState.log, htr], hes⟩⟩⟩
    exact ⟨fun _ => hfine.mp hret0, fun _ => ⟨_, rfl⟩⟩
  · simp only [hret0, ne_eq, not_false_eq_true, if_true]
    refine ⟨_, rfl, ⟨rfl, rfl, rfl, rfl, rfl, ⟨r.outfp, rfl, hoid1⟩, ?_,
      ⟨es, by simp [Flow.state, MainState.log, htr], hes⟩⟩⟩
    constructor
    · rintro ⟨l1, h⟩
      cases h
    · intro h
      exact absurd (hfine.mpr h) hret0

/-! ## The cleanup at `end:` -/

theorem cleanupKeyfp_frame (w : World) (keyarg : CStr) (l : MainState) :
    (cleanupKeyfp w keyarg l).infp = l.infp ∧ (cleanupKeyfp w keyarg l).outfp = l.outfp ∧
    (cleanupKeyfp w keyarg l).output = l.output ∧
    (cleanupKeyfp w keyarg l).infilename = l.infilename := by
  simp only [cleanupKeyfp, MainState.log]
  split_ifs <;> exact ⟨rfl, rfl, rfl, rfl⟩

theorem cleanupInfp_frame (w : World) (l : MainState) :
    (cleanupInfp w l).outfp = l.outfp ∧ (cleanupInfp w l).output = l.output := by
  simp only [cleanupInfp, MainState.log]
  split
  · split_ifs <;> exact ⟨rfl, rfl⟩
  · exact ⟨rfl, rfl⟩

/-- Once the status is 1 it stays 1 through the cleanup. -/
theorem cleanup_status_one (w : World) (keyarg : CStr) (l : MainState) (h : l.status = 1) :
    (cleanup w keyarg l).status = 1 := by
  have h1 : (cleanupKeyfp w keyarg l).status = 1 := by
    simp only [cleanupKeyfp, MainState.log]
    split_ifs
    all_goals first
      | exact h
      | rfl
  have h2 : (cleanupInfp w (cleanupKeyfp w keyarg l)).status = 1 := by
    simp only [cleanupInfp, MainState.log]
    split
    · split_ifs
      · rfl
      · exact h1
    · exact h1
  simp only [cleanup, cleanupOutfp, MainState.log]
  split
  · split_ifs
    · rfl
    · exact h2
  · exact h2

theorem errorExit_status (w : World) (keyarg : CStr) (l : MainState) :
    (errorExit w keyarg l).status = 1 :=
  cleanup_status_one w keyarg { l with status := 1 } rfl

/-- The cleanup of a run that fell through with status 0 and no input stream left open:
the status stays 0 exactly when the closes of the cleanup succeed. -/
theorem cleanup_status_clean (w : World) (keyarg : CStr) (l : MainState)
    (hin : l.infp = none) (hst : l.status = 0) :
    ((cleanup w keyarg l).status = 0 ∨ (cleanup w keyarg l).status = 1) ∧
    ((cleanup w keyarg l).status = 0 ↔
      (l.keyfp = true →
        (if l.keyfpClosed = true then w.staleCloseOk else (w.file keyarg).closeOk) = true) ∧
      (l.output ≠ none → l.outfp ≠ none → w.outCloseOk = true)) := by
  obtain ⟨kin, kout, kop, _⟩ := cleanupKeyfp_frame w keyarg l
  have hi : cleanupInfp w (cleanupKeyfp w keyarg l) = cleanupKeyfp w keyarg l := by
    simp only [cleanupInfp, kin, hin]
  have hk : ((cleanupKeyfp w keyarg l).status = 0 ∨ (cleanupKeyfp w keyarg l).status = 1) ∧
      ((cleanupKeyfp w keyarg l).status = 0 ↔ (l.keyfp = true →
        (if l.keyfpClosed = true then w.staleCloseOk else (w.file keyarg).closeOk)
          = true)) := by
    simp only [cleanupKeyfp, MainState.log]
    by_cases hkf : l.keyfp = true
    · by_cases hok : (if l.keyfpClosed = true then w.staleCloseOk
          else (w.file keyarg).closeOk) = false
      · simp [hkf, hok]
      · have hok' : (if l.keyfpClosed = true then w.staleCloseOk
            else (w.file keyarg).closeOk) = true := by simpa using hok
        simp [hkf, hok', hst]
    · simp [hkf, hst]
  obtain ⟨hk1, hk2⟩ := hk
  cases hO : l.output with
  | none =>
    have hs : (cleanup w keyarg l).status = (cleanupKeyfp w keyarg l).status := by
      simp only [cleanup, hi, cleanupOutfp, kop, hO]
    rw [hs]
    refine ⟨hk1, ?_⟩
    rw [hk2]
    simp
  | some path =>
    cases hF : l.outfp with
    | none =>
      have hs : (cleanup w keyarg l).status = (cleanupKeyfp w keyarg l).status := by
        simp only [cleanup, hi, cleanupOutfp, kop, kout, hO, hF]
      rw [hs]
      refine ⟨hk1, ?_⟩
      rw [hk2]
      simp
    | some o =>
      by_cases hc : w.outCloseOk = false
      · have hs : (cleanup w keyarg l).status = 1 := by
          simp only [cleanup, hi, cleanupOutfp, kop, kout, hO, hF, hc, if_true, MainState.log]
        rw [hs]
        refine ⟨Or.inr rfl, ?_⟩
        simp [hc]
      · have hc' : w.outCloseOk = true := by simpa using hc
        have hs : (cleanup w keyarg l).status = (cleanupKeyfp w keyarg l).status := by
          simp only [cleanup, hi, cleanupOutfp, kop, kout, hO, hF, hc', Bool.true_eq_false,
            if_false, MainState.log]
        rw [hs]
        refine ⟨hk1, ?_⟩
        rw [hk2]
        simp [hc']

/-- The events of the cleanup: closes of the key stream, of the input stream left open,
of the named output, and their messages. -/
theorem cleanup_events (w : World) (keyarg : CStr) (l : MainState) :
    ∃ ces, (cleanup w keyarg l).trace = l.trace ++ ces ∧
      ∀ e ∈ ces, (∃ name, e = Event.perror name) ∨ (∃ b, e = Event.fclose Fp.keyfp b) ∨
        (∃ fp b, l.infp = some fp ∧ e = Event.fclose fp.id b) ∨
        (∃ o b, l.outfp = some o ∧ e = Event.fclose o.id b) := by
  obtain ⟨kin, kout, _, _⟩ := cleanupKeyfp_frame w keyarg l
  obtain ⟨iout, _⟩ := cleanupInfp_frame w (cleanupKeyfp w keyarg l)
  have h1 : ∃ c1, (cleanupKeyfp w keyarg l).trace = l.trace ++ c1 ∧
      ∀ e ∈ c1, (∃ name, e = Event.perror name) ∨ (∃ b, e = Event.fclose Fp.keyfp b) := by
    simp only [cleanupKeyfp, MainState.log]
    split_ifs
    · exact ⟨_, rfl, by
        intro e he
        simp only [List.mem_cons, List.mem_singleton, List.not_mem_nil, or_false] at he
        rcases he with rfl | rfl
        · exact Or.inr ⟨false, rfl⟩
        · exact Or.inl ⟨_, rfl⟩⟩
    · exact ⟨_, rfl, by
        intro e he
        simp only [List.mem_singleton] at he
        subst he
        exact Or.inr ⟨true, rfl⟩⟩
    · exact ⟨_, rfl, by
        intro e he
        simp only [List.mem_cons, List.mem_singleton, List.not_mem_nil, or_false] at he
        rcases he with rfl | rfl
        · exact Or.inr ⟨false, rfl⟩
        · exact Or.inl ⟨_, rfl⟩⟩
    · exact ⟨_, rfl, by
        intro e he
        simp only [List.mem_singleton] at he
        subst he
        exact Or.inr ⟨true, rfl⟩⟩
    · exact ⟨[], by simp, by simp⟩
  have h2 : ∀ m : MainState, ∃ c2, (cleanupInfp w m).trace = m.trace ++ c2 ∧
      ∀ e ∈ c2, (∃ name, e = Event.perror name) ∨
        (∃ fp b, m.infp = some fp ∧ e = Event.fclose fp.id b) := by
    intro m
    simp only [cleanupInfp, MainState.log]
    split
    · rename_i fp hfp
      split_ifs
      · exact ⟨_, rfl, by
          intro e he
          simp only [List.mem_cons, List.mem_singleton, List.not_mem_nil, or_false] at he
          rcases he with rfl | rfl
          · exact Or.inr ⟨fp, false, hfp, rfl⟩
          · exact Or.inl ⟨_, rfl⟩⟩
      · exact ⟨_, rfl, by
          intro e he
          simp only [List.mem_singleton] at he
          subst he
          exact Or.inr ⟨fp, true, hfp, rfl⟩⟩
    · exact ⟨[], by simp, by simp⟩
  have h3 : ∀ m : MainState, ∃ c3, (cleanupOutfp w m).trace = m.trace ++ c3 ∧
      ∀ e ∈ c3, (∃ name, e = Event.perror name) ∨
        (∃ o b, m.outfp = some o ∧ e = Event.fclose o.id b) := by
    intro m
    simp only [cleanupOutfp, MainState.log]
    split
    · rename_i path fp hO hfp
      split_ifs
      · exact ⟨_, rfl, by
          intro e he
          simp only [List.mem_cons, List.mem_singleton, List.not_mem_nil, or_false] at he
          rcases he with rfl | rfl
          · exact Or.inr ⟨fp, false, hfp, rfl⟩
          · exact Or.inl ⟨_, rfl⟩⟩
      · exact ⟨_, rfl, by
          intro e he
          simp only [List.mem_singleton] at he
          subst he
          exact Or.inr ⟨fp, true, hfp, rfl⟩⟩
    · exact ⟨[], by simp, by simp⟩
  obtain ⟨c1, e1, p1⟩ := h1
  obtain ⟨c2, e2, p2⟩ := h2 (cleanupKeyfp w keyarg l)
  obtain ⟨c3, e3, p3⟩ := h3 (cleanupInfp w (cleanupKeyfp w keyarg l))
  refine ⟨c1 ++ c2 ++ c3, ?_, ?_⟩
  · simp only [cleanup]
    rw [e3, e2, e1]
    simp only [List.append_assoc]
  · intro e he
    simp only [List.append_assoc, List.mem_append] at he
    rcases he with h | h | h
    · rcases p1 e h with a | a
      · exact Or.inl a
      · exact Or.inr (Or.inl a)
    · rcases p2 e h with a | ⟨fp, b, hfp, rfl⟩
      · exact Or.inl a
      · exact Or.inr (Or.inr (Or.inl ⟨fp, b, by rw [← kin]; exact hfp, rfl⟩))
    · rcases p3 e h with a | ⟨o, b, ho, rfl⟩
      · exact Or.inl a
      · exact Or.inr (Or.inr (Or.inr ⟨o, b, by rw [← kout, ← iout]; exact ho, rfl⟩))

/-! ## A whole run of `main` -/

/-- An event that touches neither an input source nor the output sink is about the key
stream or about no stream. -/
theorem onData_false_fp (e : Event) (h : Event.onData e = false) :
    Event.fp e = none ∨ Event.fp e = some Fp.keyfp := by
  cases e <;> simp_all [Event.onData, Event.fp]

theorem openedInputs_nil_of_aux (es : List Event)
    (h : ∀ e ∈ es, ∀ j name ok, e ≠ Event.fopen (Fp.infp j) name ok) :
    openedInputs es = [] := by
  induction es with
  | nil => rfl
  | cons e es ih =>
    have he := h e (List.mem_cons_self e es)
    have ht := ih (fun x hx => h x (List.mem_cons_of_mem e hx))
    cases e with
    | fopen fp name ok =>
      cases fp with
      | infp j => exact absurd rfl (he j name ok)
      | _ => simpa [openedInputs] using ht
    | _ => simpa [openedInputs] using ht

theorem openedInputs_nil_of (es : List Event)
    (h : ∀ e ∈ es, ∀ j, Event.fp e ≠ some (Fp.infp j)) : openedInputs es = [] := by
  apply openedInputs_nil_of_aux
  intro e he j name ok heq
  subst heq
  exact h _ he j rfl

theorem onData_false_isOutputOpen (e : Event) (h : Event.onData e = false) :
    Event.isOutputOpen e = false := by
  cases e with
  | fopen fp name ok =>
    cases fp <;> simp_all [Event.onData, Event.isOutputOpen]
  | _ => rfl

/-- A key that loads leaves the status as it was, and leaves `keyfp` set only to a stream
that it has closed. -/
theorem loadKey_next_state (w : World) (keyarg : CStr) (l l1 : MainState)
    (h : loadKey w keyarg l = some (Flow.next l1)) :
    l1.status = l.status ∧ (l.keyfp = false → l1.keyfp = true → l1.keyfpClosed = true) := by
  unfold loadKey at h
  cases hkt : l.key_type with
  | KEY_HEX =>
    simp only [hkt, loadHexKey] at h
    by_cases ha : w.keyAllocOk = false
    · simp [ha] at h
    · obtain ⟨r, hr, _⟩ := hexDecode_returns keyarg
      have ha' : w.keyAllocOk = true := by simpa using ha
      simp only [ha', Bool.true_eq_false, if_false, hr] at h
      cases r with
      | error index => simp at h
      | ok key =>
        simp only [Option.some.injEq, Flow.next.injEq] at h
        subst h
        exact ⟨rfl, fun a b => by simp [a] at b⟩
  | KEY_STR =>
    simp only [hkt, loadStrKey, Option.some.injEq, Flow.next.injEq] at h
    subst h
    exact ⟨rfl, fun a b => by simp [a] at b⟩
  | KEY_FILE =>
    simp only [hkt, loadFileKey, Option.some.injEq] at h
    split_ifs at h
    simp only [Flow.next.injEq] at h
    subst h
    exact ⟨rfl, fun _ _ => rfl⟩

theorem finish_map (w : World) (keyarg : CStr) (p : Option Flow) :
    (match p with
      | none => none
      | some (Flow.error l1) => some (errorExit w keyarg l1)
      | some (Flow.next l1) => some (cleanup w keyarg l1))
      = p.map (Flow.finish w keyarg) := by
  rcases p with _ | ⟨_ | _⟩ <;> rfl

/-- A run whose key loads and is not empty, whose buffer is allocated and whose output
opens: `main` is lines 235-261 from a state `l2` with the sink open, followed by the end
of `main`. The events so far are those of key loading and the open of the named output. -/
theorem main_run (w : World) (opts : List OptRet) (keyarg : CStr) (files : List CStr)
    (l l1 : MainState)
    (hopts : parseOptions opts MainState.init = Parsed.done l)
    (hkey : loadKey w keyarg l = some (Flow.next l1)) (hne : l1.key_size ≠ 0)
    (hbuf : w.bufAllocOk = true) (hopen : l.output ≠ none → w.outOpenOk = true) :
    ∃ l2 outfp outname kes,
      main w opts (keyarg :: files)
        = (processInputs w files outname outfp l2).map (Flow.finish w keyarg) ∧
      l2.outfp = some outfp ∧ l2.infp = none ∧ l2.key = l1.key ∧
      l2.key_size = l1.key_size ∧ l2.status = 0 ∧ l2.keyfp = l1.keyfp ∧
      l2.keyfpClosed = l1.keyfpClosed ∧ l2.output = l.output ∧
      outfp.written = [] ∧ outfp.room = w.outRoom ∧
      (outfp.id = Fp.stdout ∨ outfp.id = Fp.outfp) ∧
      (∀ e ∈ kes, Event.onData e = false) ∧
      l2.trace = kes ++ (match l.output with
        | some path => [Event.fopen Fp.outfp path true]
        | none => []) := by
  obtain ⟨kt, out, hl⟩ := parseOptions_done opts _ _ hopts
  obtain ⟨fl, hfl, hin, _, hout, kes, htr, hkes⟩ := loadKey_frame w keyarg l
  rw [hkey] at hfl
  simp only [Option.some.injEq] at hfl
  subst hfl
  simp only [Flow.state] at hin hout htr
  obtain ⟨hst, _⟩ := loadKey_next_state w keyarg l l1 hkey
  have hl_in : l.infp = none := by rw [hl]; rfl
  have hl_st : l.status = 0 := by rw [hl]; rfl
  have hl_tr : l.trace = [] := by rw [hl]; rfl
  rw [hl_tr, List.nil_append] at htr
  simp only [main, hopts, mainBody, hkey, hne, if_false, hbuf, Bool.true_eq_false]
  cases hO : l.output with
  | none =>
    have hO1 : l1.output = none := by rw [hout, hO]
    simp only [openOutput, hO1]
    refine ⟨{ l1 with buf := true, output := none,
                      outfp := some ⟨Fp.stdout, [], w.outRoom⟩ },
      ⟨Fp.stdout, [], w.outRoom⟩, cstr "<stdout>", kes, ?_, rfl, ?_, rfl, rfl, ?_,
      rfl, rfl, ?_, rfl, rfl, Or.inl rfl, hkes, ?_⟩
    · exact finish_map w keyarg _
    · exact hin.trans hl_in
    · exact hst.trans hl_st
    · rfl
    · simpa using htr
  | some path =>
    have hO1 : l1.output = some path := by rw [hout, hO]
    have hop : w.outOpenOk = true := hopen (by rw [hO]; simp)
    simp only [openOutput, hO1, hop, Bool.true_eq_false, if_false]
    refine ⟨{ l1 with buf := true, output := some path,
                      outfp := some ⟨Fp.outfp, [], w.outRoom⟩ }.log
        [Event.fopen Fp.outfp path true],
      ⟨Fp.outfp, [], w.outRoom⟩, path, kes, ?_, rfl, ?_, rfl, rfl, ?_,
      rfl, rfl, ?_, rfl, rfl, Or.inr rfl, hkes, ?_⟩
    · exact finish_map w keyarg _
    · exact hin.trans hl_in
    · exact hst.trans hl_st
    · rfl
    · simp [MainState.log, htr]

theorem openedInputs_nil_of_no_open (es : List Event)
    (h : ∀ e ∈ es, ∀ j name ok, e ≠ Event.fopen (Fp.infp j) name ok) :
    openedInputs es = [] := by
  exact openedInputs_nil_of_aux es h

theorem finish_output (w : World) (keyarg : CStr) (fl : Flow) :
    (Flow.finish w keyarg fl).output = match fl.state.outfp with
      | some fp => fp.written
      | none => [] := by
  cases fl with
  | error l => exact cleanup_output w keyarg { l with status := 1 }
  | next l => exact cleanup_output w keyarg l

/-- The events of the end of `main`: closes of the key stream, of the input stream left
open, of the sink, and their messages. -/
theorem finish_events (w : World) (keyarg : CStr) (fl : Flow) :
    ∃ ces, (Flow.finish w keyarg fl).trace = fl.state.trace ++ ces ∧
      ∀ e ∈ ces, (∃ name, e = Event.perror name) ∨ (∃ b, e = Event.fclose Fp.keyfp b) ∨
        (∃ fp b, fl.state.infp = some fp ∧ e = Event.fclose fp.id b) ∨
        (∃ o b, fl.state.outfp = some o ∧ e = Event.fclose o.id b) := by
  cases fl with
  | error l => exact cleanup_events w keyarg { l with status := 1 }
  | next l => exact cleanup_events w keyarg l

/-- The events of the end of `main` open nothing and read nothing. -/
theorem finish_events_close (ces : List Event) (inf : Option InStream)
    (outf : Option OutStream)
    (h : ∀ e ∈ ces, (∃ name, e = Event.perror name) ∨ (∃ b, e = Event.fclose Fp.keyfp b) ∨
        (∃ fp b, inf = some fp ∧ e = Event.fclose fp.id b) ∨
        (∃ o b, outf = some o ∧ e = Event.fclose o.id b)) :
    openedInputs ces = [] ∧ (∀ e ∈ ces, Event.isOutputOpen e = false) ∧
      (∀ e ∈ ces, Event.isFread e = false) := by
  refine ⟨?_, ?_, ?_⟩
  · apply openedInputs_nil_of_no_open
    intro e he j name ok heq
    rcases h e he with ⟨n, rfl⟩ | ⟨b, rfl⟩ | ⟨fp, b, _, rfl⟩ | ⟨o, b, _, rfl⟩ <;> cases heq
  · intro e he
    rcases h e he with ⟨n, rfl⟩ | ⟨b, rfl⟩ | ⟨fp, b, _, rfl⟩ | ⟨o, b, _, rfl⟩ <;> rfl
  · intro e he
    rcases h e he with ⟨n, rfl⟩ | ⟨b, rfl⟩ | ⟨fp, b, _, rfl⟩ | ⟨o, b, _, rfl⟩ <;> rfl

/-- A run whose key loads and is not empty, whose buffer is allocated and whose output
opens: `main` returns, and what lines 235-261 leave is a `StdinOutcome` when no file is
named and a `LoopOutcome` otherwise. -/
theorem main_sources (w : World) (opts : List OptRet) (keyarg : CStr) (files : List CStr)
    (l l1 : MainState)
    (hopts : parseOptions opts MainState.init = Parsed.done l)
    (hkey : loadKey w keyarg l = some (Flow.next l1)) (hne : l1.key_size ≠ 0)
    (hbuf : w.bufAllocOk = true) (hopen : l.output ≠ none → w.outOpenOk = true) :
    ∃ l2 oid kes fl key,
      main w opts (keyarg :: files) = some (Flow.finish w keyarg fl) ∧
      l1.key = some key ∧
      l2.outfp = some ⟨oid, [], w.outRoom⟩ ∧ l2.infp = none ∧ l2.status = 0 ∧
      l2.keyfp = l1.keyfp ∧ l2.keyfpClosed = l1.keyfpClosed ∧ l2.output = l.output ∧
      (oid = Fp.stdout ∨ oid = Fp.outfp) ∧
      (∀ e ∈ kes, Event.onData e = false) ∧
      l2.trace = kes ++ (match l.output with
        | some path => [Event.fopen Fp.outfp path true]
        | none => []) ∧
      (files = [] → StdinOutcome w ⟨oid, [], w.outRoom⟩ l2 fl) ∧
      (files ≠ [] → LoopOutcome w key files 1 ⟨oid, [], w.outRoom⟩ l2 fl) := by
  obtain ⟨l2, outfp, outname, kes, hmain, hfp, hin, hk2, hs2, hst, hkf, hkc, hout, hw, hr,
    hid, hkes, htr⟩ := main_run w opts keyarg files l l1 hopts hkey hne hbuf hopen
  obtain ⟨⟨key, hk, hlen⟩, _, _⟩ := loadKey_next w keyarg l l1 hkey
  have hpos : 0 < key.length := by omega
  obtain ⟨oid, written, room⟩ := outfp
  simp only at hw hr hid
  subst hw
  subst hr
  have hoid : ∀ j, (⟨oid, [], w.outRoom⟩ : OutStream).id ≠ Fp.infp j := by
    intro j hj
    simp only at hj
    rcases hid with h | h <;> rw [h] at hj <;> cases hj
  cases files with
  | nil =>
    obtain ⟨fl, hfl, hS⟩ := processInputs_stdin w outname ⟨oid, [], w.outRoom⟩ l2 key
      (hk2.trans hk) (by rw [hs2, hlen]) hpos hoid
    rw [hfl] at hmain
    exact ⟨l2, oid, kes, fl, key, hmain, hk, hfp, hin, hst, hkf, hkc, hout, hid, hkes, htr,
      fun _ => hS, fun h => absurd rfl h⟩
  | cons f rest =>
    obtain ⟨fl, hfl, hL⟩ := inputLoop_outcome w outname key hpos (f :: rest) 1
      ⟨oid, [], w.outRoom⟩ l2 hoid hfp hin
    rw [processInputs_files w f rest outname _ l2 key (hk2.trans hk) (by rw [hs2, hlen]),
      hfl] at hmain
    exact ⟨l2, oid, kes, fl, key, hmain, hk, hfp, hin, hst, hkf, hkc, hout, hid, hkes, htr,
      fun h => List.noConfusion h, fun _ => hL⟩

/-- A run whose key loads and is not empty, whose buffer is allocated and whose output
opens: lines 235-261 fall through exactly when nothing fails on the input sources, and
they leave the status 0, the sink open and `keyfp`, `output` as key loading left them. -/
theorem main_flow (w : World) (opts : List OptRet) (keyarg : CStr) (files : List CStr)
    (l l1 : MainState)
    (hopts : parseOptions opts MainState.init = Parsed.done l)
    (hkey : loadKey w keyarg l = some (Flow.next l1)) (hne : l1.key_size ≠ 0)
    (hbuf : w.bufAllocOk = true) (hopen : l.output ≠ none → w.outOpenOk = true) :
    ∃ fl, main w opts (keyarg :: files) = some (Flow.finish w keyarg fl) ∧
      fl.state.status = 0 ∧ fl.state.keyfp = l1.keyfp ∧
      fl.state.keyfpClosed = l1.keyfpClosed ∧ fl.state.output = l.output ∧
      fl.state.outfp ≠ none ∧
      (((∃ l3, fl = Flow.next l3 ∧ l3.infp = none) ∧ sourcesFine w files w.outRoom) ∨
        ((∃ l3, fl = Flow.error l3) ∧ ¬ sourcesFine w files w.outRoom)) := by
  obtain ⟨l2, oid, kes, fl, key, hmain, hk, hfp, hin, hst, hkf, hkc, hout, hid, hkes, htr,
    hstdin, hloop⟩ := main_sources w opts keyarg files l l1 hopts hkey hne hbuf hopen
  refine ⟨fl, hmain, ?_⟩
  cases files with
  | nil =>
    have hS := hstdin rfl
    obtain ⟨o, ho, _⟩ := hS.sink
    refine ⟨hS.status.trans hst, hS.keyfp.trans hkf, hS.keyfpClosed.trans hkc,
      hS.output.trans hout, by rw [ho]; simp, ?_⟩
    cases fl with
    | next l3 =>
      exact Or.inl ⟨⟨l3, rfl, hS.input.trans hin⟩, hS.next_iff.mp ⟨l3, rfl⟩⟩
    | error l3 =>
      refine Or.inr ⟨⟨l3, rfl⟩, fun hfine => ?_⟩
      obtain ⟨l4, h4⟩ := hS.next_iff.mpr hfine
      cases h4
  | cons f rest =>
    have hL := hloop (by simp)
    refine ⟨hL.status.trans hst, hL.keyfp.trans hkf, hL.keyfpClosed.trans hkc,
      hL.output.trans hout, ?_⟩
    rcases hL.cases with ⟨l3, hfl, hfine, hin3, ho3, _⟩ |
      ⟨l3, pre1, f1, post1, hfl, hfiles, hpre1, hf1, ⟨o, ho, _, _⟩, _⟩
    · subst hfl
      exact ⟨by simp [Flow.state, ho3], Or.inl ⟨⟨l3, rfl, hin3⟩, hfine⟩⟩
    · subst hfl
      refine ⟨by simp [Flow.state, ho], Or.inr ⟨⟨l3, rfl⟩, fun hfine => ?_⟩⟩
      simp only [sourcesFine] at hfine
      rw [hfiles] at hfine
      exact fine_append_not_fails w f1 post1 pre1 _ hfine hf1

/-- The events of lines 235-261 do not open the output. -/
theorem main_sources_events (w : World) (opts : List OptRet) (keyarg : CStr)
    (files : List CStr) (l l1 : MainState)
    (hopts : parseOptions opts MainState.init = Parsed.done l)
    (hkey : loadKey w keyarg l = some (Flow.next l1)) (hne : l1.key_size ≠ 0)
    (hbuf : w.bufAllocOk = true) (hopen : l.output ≠ none → w.outOpenOk = true) :
    ∃ kes es ces, (∀ e ∈ kes, Event.onData e = false) ∧
      (∀ e ∈ es ++ ces, Event.isOutputOpen e = false) ∧
      (main w opts (keyarg :: files)).map Result.trace
        = some (kes ++ (match l.output with
            | some path => [Event.fopen Fp.outfp path true]
            | none => []) ++ (es ++ ces)) := by
  obtain ⟨l2, oid, kes, fl, key, hmain, hk, hfp, hin, hst, hkf, hkc, hout, hid, hkes, htr,
    hstdin, hloop⟩ := main_sources w opts keyarg files l l1 hopts hkey hne hbuf hopen
  have hes : ∃ es, fl.state.trace = l2.trace ++ es ∧
      ∀ e ∈ es, Event.isOutputOpen e = false := by
    cases files with
    | nil =>
      obtain ⟨es, h1, h2, _⟩ := (hstdin rfl).events
      exact ⟨es, h1, h2⟩
    | cons f rest =>
      rcases (hloop (by simp)).cases with ⟨l3, hfl, _, _, _, es, h1, _, h2, _⟩ |
        ⟨l3, _, _, _, hfl, _, _, _, _, _, es, h1, _, h2, _⟩
      · subst hfl
        exact ⟨es, h1, h2⟩
      · subst hfl
        exact ⟨es, h1, h2⟩
  obtain ⟨es, hes1, hes2⟩ := hes
  obtain ⟨ces, hces, hcl⟩ := finish_events w keyarg fl
  obtain ⟨_, hco, _⟩ := finish_events_close ces _ _ hcl
  refine ⟨kes, es, ces, hkes, ?_, ?_⟩
  · intro e he
    rcases List.mem_append.mp he with h | h
    · exact hes2 e h
    · exact hco e h
  · rw [hmain, Option.map_some', hces, hes1, htr]
    simp only [List.append_assoc]

/-! ## The exit status -/

theorem everyStepSucceeds_iff (w : World) (opts : List OptRet) (keyarg : CStr)
    (files : List CStr) (l l1 : MainState)
    (hp : parseOptions opts MainState.init = Parsed.done l)
    (hkey : loadKey w keyarg l = some (Flow.next l1)) :
    everyStepSucceeds w opts (keyarg :: files) ↔
      l1.key_size ≠ 0 ∧ w.bufAllocOk = true ∧ (l.output ≠ none → w.outOpenOk = true) ∧
      sourcesFine w files w.outRoom ∧ (l.output ≠ none → w.outCloseOk = true) := by
  constructor
  · rintro ⟨l', k', f', l1', h1, h2, h3, rest⟩
    rw [hp] at h1
    cases h1
    cases h2
    rw [hkey] at h3
    cases h3
    exact rest
  · intro h
    exact ⟨l, keyarg, files, l1, hp, rfl, hkey, h⟩

theorem status_one_iff (r : Result) (P : Prop) (h1 : r.status = 1) (hno : ¬ P) :
    (r.status = 0 ↔ P) ∧ (¬ P → r.status = 1) := by
  refine ⟨⟨fun h => ?_, fun h => absurd h hno⟩, fun _ => h1⟩
  rw [h1] at h
  exact absurd h (by decide)

/-- The exit status of a run that gets past the option loop with a `KEY` argument and
does not reach the cleanup with a key stream that is closed already. -/
theorem main_status (w : World) (opts : List OptRet) (keyarg : CStr) (files : List CStr)
    (l : MainState) (hp : parseOptions opts MainState.init = Parsed.done l)
    (hdefined : reachesStaleClose w opts (keyarg :: files) = false) :
    ∃ r, main w opts (keyarg :: files) = some r ∧
      (r.status = 0 ↔ everyStepSucceeds w opts (keyarg :: files)) ∧
      (¬ everyStepSucceeds w opts (keyarg :: files) → r.status = 1) := by
  obtain ⟨kt, out, hl⟩ := parseOptions_done opts _ _ hp
  have hl_kf : l.keyfp = false := by rw [hl]; rfl
  obtain ⟨fl, hfl, _, _, hout, _⟩ := loadKey_frame w keyarg l
  cases fl with
  | error l1 =>
    refine ⟨errorExit w keyarg l1, by simp only [main, hp, mainBody, hfl], ?_⟩
    apply status_one_iff _ _ (errorExit_status w keyarg l1)
    rintro ⟨l', k', f', l1', h1, h2, h3, _⟩
    rw [hp] at h1
    cases h1
    cases h2
    rw [hfl] at h3
    cases h3
  | next l1 =>
    simp only [Flow.state] at hout
    have hchar := everyStepSucceeds_iff w opts keyarg files l l1 hp hfl
    by_cases hne : l1.key_size = 0
    · refine ⟨errorExit w keyarg (l1.log [Event.keyEmpty]),
        by simp only [main, hp, mainBody, hfl, hne, if_true], ?_⟩
      apply status_one_iff _ _ (errorExit_status w keyarg _)
      rw [hchar]
      exact fun h => h.1 hne
    by_cases hbuf : w.bufAllocOk = false
    · refine ⟨errorExit w keyarg (l1.log [Event.perror (cstr "allocating buffer")]),
        by simp only [main, hp, mainBody, hfl, hne, if_false, hbuf, if_true], ?_⟩
      apply status_one_iff _ _ (errorExit_status w keyarg _)
      rw [hchar]
      intro h
      rw [h.2.1] at hbuf
      exact Bool.noConfusion hbuf
    have hbuf1 : w.bufAllocOk = true := by simpa using hbuf
    by_cases hopen : l.output ≠ none → w.outOpenOk = true
    · obtain ⟨fl2, hmain, hst, hkf, hkc, hout2, hofp, hcase⟩ :=
        main_flow w opts keyarg files l l1 hp hfl hne hbuf1 hopen
      refine ⟨_, hmain, ?_⟩
      rcases hcase with ⟨⟨l3, hfl3, hin3⟩, hfine⟩ | ⟨⟨l3, hfl3⟩, hnf⟩
      · subst hfl3
        simp only [Flow.state] at hst hkf hkc hout2 hofp
        obtain ⟨h01, hiff⟩ := cleanup_status_clean w keyarg l3 hin3 hst
        have hnokey : l1.keyfp = false := by
          simp only [reachesStaleClose, hp, hfl, MainState.staleClose] at hdefined
          obtain ⟨_, hclosed⟩ := loadKey_next_state w keyarg l l1 hfl
          cases hkp : l1.keyfp with
          | false => rfl
          | true =>
            rw [hkp, hclosed hl_kf hkp] at hdefined
            exact Bool.noConfusion hdefined
        have hiff2 : (Flow.finish w keyarg (Flow.next l3)).status = 0 ↔
            everyStepSucceeds w opts (keyarg :: files) := by
          rw [hchar]
          simp only [Flow.finish]
          rw [hiff, hkf, hkc, hout2]
          constructor
          · rintro ⟨_, b⟩
            exact ⟨hne, hbuf1, hopen, hfine, fun ho => b ho hofp⟩
          · rintro ⟨_, _, _, _, b⟩
            refine ⟨fun hk => ?_, fun ho _ => b ho⟩
            rw [hnokey] at hk
            exact Bool.noConfusion hk
        refine ⟨hiff2, fun hno => ?_⟩
        rcases h01 with h | h
        · exact absurd (hiff2.mp h) hno
        · exact h
      · subst hfl3
        apply status_one_iff _ _ (errorExit_status w keyarg l3)
        rw [hchar]
        exact fun h => hnf h.2.2.2.1
    · have hO : ∃ path, l.output = some path ∧ w.outOpenOk = false := by
        cases hO : l.output with
        | none => exact absurd (fun h => absurd hO h) hopen
        | some path =>
          refine ⟨path, rfl, ?_⟩
          cases hok : w.outOpenOk with
          | false => rfl
          | true => exact absurd (fun _ => hok) hopen
      obtain ⟨path, hO, hok⟩ := hO
      have hO1 : l1.output = some path := by rw [hout, hO]
      refine ⟨errorExit w keyarg
          ({ l1 with buf := true, output := some path }.log
            [Event.fopen Fp.outfp path false, Event.perror path]), ?_, ?_⟩
      · simp only [main, hp, mainBody, hfl, hne, if_false, hbuf1, Bool.true_eq_false,
          openOutput, hO1, hok, if_true]
      · apply status_one_iff _ _ (errorExit_status w keyarg _)
        rw [hchar]
        exact fun h => hopen h.2.2.1

/-! ## Runs that do not reach the second close of the key stream -/

theorem loadKey_stale_indep (w : World) (b : Bool) (keyarg : CStr) (l : MainState) :
    loadKey { w with staleCloseOk := b } keyarg l = loadKey w keyarg l := rfl

theorem inputLoop_stale_indep (w : World) (b : Bool) (outname : CStr) (key : List Nat)
    (size : Nat) :
    ∀ (files : List CStr) (optind : Nat) (outfp : OutStream) (l : MainState),
      inputLoop { w with staleCloseOk := b } outname key size files optind outfp l
        = inputLoop w outname key size files optind outfp l := by
  intro files
  induction files with
  | nil =>
    intro optind outfp l
    rfl
  | cons f rest ih =>
    intro optind outfp l
    rw [inputLoop, inputLoop]
    simp only [ih]

theorem mainBody_stale_indep (w : World) (b : Bool) (keyarg : CStr) (files : List CStr)
    (l : MainState) :
    mainBody { w with staleCloseOk := b } keyarg files l = mainBody w keyarg files l := by
  have hp : ∀ outname outfp l2,
      processInputs { w with staleCloseOk := b } files outname outfp l2
        = processInputs w files outname outfp l2 := by
    intro outname outfp l2
    cases files with
    | nil => rfl
    | cons f rest =>
      simp only [processInputs]
      exact inputLoop_stale_indep w b outname _ _ (f :: rest) 1 outfp l2
  have ho : ∀ l2, openOutput { w with staleCloseOk := b } l2 = openOutput w l2 :=
    fun _ => rfl
  simp only [mainBody, loadKey_stale_indep, ho, hp]

/-- The cleanup from a state without `staleClose` does not ask for the answer to a close
of a closed stream. -/
theorem cleanup_stale_indep (w : World) (b : Bool) (keyarg : CStr) (l : MainState)
    (h : l.staleClose = false) :
    cleanup { w with staleCloseOk := b } keyarg l = cleanup w keyarg l := by
  have hk : cleanupKeyfp { w with staleCloseOk := b } keyarg l = cleanupKeyfp w keyarg l := by
    simp only [MainState.staleClose] at h
    cases hkf : l.keyfp with
    | false => simp only [cleanupKeyfp, hkf, Bool.false_eq_true, if_false]
    | true =>
      have hc : l.keyfpClosed = false := by simpa [hkf] using h
      simp only [cleanupKeyfp, hkf, hc, Bool.false_eq_true, if_false, if_true]
  have hi : ∀ m, cleanupInfp { w with staleCloseOk := b } m = cleanupInfp w m := fun _ => rfl
  have ho : ∀ m, cleanupOutfp { w with staleCloseOk := b } m = cleanupOutfp w m :=
    fun _ => rfl
  simp only [cleanup, hk, hi, ho]

theorem parseOptions_staleClose (opts : List OptRet) :
    ∀ (l0 l : MainState),
      (parseOptions opts l0 = Parsed.done l ∨ parseOptions opts l0 = Parsed.error l) →
      l.staleClose = l0.staleClose := by
  induction opts with
  | nil =>
    intro l0 l h
    rcases h with h | h
    · simp only [parseOptions, Parsed.done.injEq] at h
      rw [h]
    · simp only [parseOptions] at h
      cases h
  | cons o rest ih =>
    intro l0 l h
    rw [parseOptions] at h
    split_ifs at h
    · rcases h with h | h <;> cases h
    · have := ih _ _ h
      exact this
    · have := ih _ _ h
      exact this
    · have := ih _ _ h
      exact this
    · have := ih _ _ h
      exact this
    · rcases h with h | h
      · cases h
      · simp only [Parsed.error.injEq] at h
        rw [← h]
        rfl
    · exact ih _ _ h

/-- Key loading that fails leaves `keyfp` NULL or set to a stream that is still open. -/
theorem loadKey_error_state (w : World) (keyarg : CStr) (l l1 : MainState)
    (h : loadKey w keyarg l = some (Flow.error l1)) (hs : l.staleClose = false)
    (hc : l.keyfpClosed = false) :
    l1.staleClose = false := by
  unfold loadKey at h
  cases hkt : l.key_type with
  | KEY_HEX =>
    simp only [hkt, loadHexKey] at h
    by_cases ha : w.keyAllocOk = false
    · simp only [ha, if_true, Option.some.injEq, Flow.error.injEq] at h
      rw [← h]
      exact hs
    · obtain ⟨r, hr, _⟩ := hexDecode_returns keyarg
      have ha' : w.keyAllocOk = true := by simpa using ha
      simp only [ha', Bool.true_eq_false, if_false, hr] at h
      cases r with
      | error index =>
        simp only [Option.some.injEq, Flow.error.injEq] at h
        rw [← h]
        exact hs
      | ok key => simp at h
  | KEY_STR =>
    simp only [hkt, loadStrKey, Option.some.injEq] at h
    cases h
  | KEY_FILE =>
    simp only [hkt, loadFileKey, Option.some.injEq] at h
    split_ifs at h
    all_goals
      simp only [Flow.error.injEq] at h
      rw [← h]
      simp only [MainState.staleClose, MainState.log, hc, Bool.and_false, Bool.false_and]

/-- The file loop does not touch `keyfp`. -/
theorem inputLoop_staleClose (w : World) (outname : CStr) (key : List Nat) (size : Nat) :
    ∀ (files : List CStr) (optind : Nat) (outfp : OutStream) (l : MainState) (fl : Flow),
      inputLoop w outname key size files optind outfp l = some fl →
      fl.state.staleClose = l.staleClose := by
  intro files
  induction files with
  | nil =>
    intro optind outfp l fl h
    simp only [inputLoop, Option.some.injEq] at h
    rw [← h]
    rfl
  | cons f rest ih =>
    intro optind outfp l fl h
    rw [inputLoop] at h
    cases hopen : (w.file f).openOk with
    | false =>
      simp only [hopen, if_true, Option.some.injEq] at h
      rw [← h]
      rfl
    | true =>
      simp only [hopen, Bool.true_eq_false, if_false] at h
      cases hx : fxor ⟨Fp.infp optind, (w.file f).data, (w.file f).failing, false⟩ f outfp
          outname key size with
      | none =>
        rw [hx] at h
        cases h
      | some r =>
        rw [hx] at h
        simp only at h
        by_cases hret : r.ret = 0
        · simp only [hret, ne_eq, not_true_eq_false, if_false] at h
          cases hclose : (w.file f).closeOk with
          | false =>
            simp only [hclose, if_true, Option.some.injEq] at h
            rw [← h]
            rfl
          | true =>
            simp only [hclose, Bool.true_eq_false, if_false] at h
            have := ih _ _ _ _ h
            exact this
        · simp only [ne_eq, hret, not_false_eq_true, if_true, Option.some.injEq] at h
          rw [← h]
          rfl

/-- Lines 143-263 leave `keyfp` as key loading left it. -/
theorem mainBody_staleClose (w : World) (keyarg : CStr) (files : List CStr)
    (l : MainState) (fl : Flow) (h : mainBody w keyarg files l = some fl)
    (hs : l.staleClose = false) (hc : l.keyfpClosed = false) :
    fl.state.staleClose = (match loadKey w keyarg l with
      | some (Flow.next l1) => l1.staleClose
      | _ => false) := by
  unfold mainBody at h
  cases hl : loadKey w keyarg l with
  | none =>
    rw [hl] at h
    cases h
  | some fk =>
    rw [hl] at h
    cases fk with
    | error l1 =>
      simp only [Option.some.injEq] at h
      rw [← h]
      exact loadKey_error_state w keyarg l l1 hl hs hc
    | next l1 =>
      simp only at h
      by_cases hz : l1.key_size = 0
      · simp only [hz, if_true, Option.some.injEq] at h
        rw [← h]
        rfl
      · simp only [hz, if_false] at h
        cases hb : w.bufAllocOk with
        | false =>
          simp only [hb, if_true, Option.some.injEq] at h
          rw [← h]
          rfl
        | true =>
          simp only [hb, Bool.true_eq_false, if_false] at h
          unfold openOutput at h
          cases hO : l1.output with
          | none =>
            simp only [hO] at h
            cases files with
            | nil =>
              simp only [processInputs] at h
              split at h
              · cases h
              · split_ifs at h <;>
                  (simp only [Option.some.injEq] at h
                   rw [← h]
                   rfl)
            | cons f rest =>
              simp only [processInputs] at h
              have := inputLoop_staleClose w _ _ _ _ _ _ _ _ h
              exact this
          | some path =>
            simp only [hO] at h
            cases hok : w.outOpenOk with
            | false =>
              simp only [hok, if_true, Option.some.injEq] at h
              rw [← h]
              rfl
            | true =>
              simp only [hok, Bool.true_eq_false, if_false] at h
              cases files with
              | nil =>
                simp only [processInputs] at h
                split at h
                · cases h
                · split_ifs at h <;>
                    (simp only [Option.some.injEq] at h
                     rw [← h]
                     rfl)
              | cons f rest =>
                simp only [processInputs] at h
                have := inputLoop_staleClose w _ _ _ _ _ _ _ _ h
                exact this

/-- A run that does not reach the cleanup with a key stream that is closed already never
asks for the answer to a close of a closed stream: its result is the same whatever that
answer would be. -/
theorem main_defined (w : World) (opts : List OptRet) (args : List CStr) (b : Bool)
    (h : reachesStaleClose w opts args = false) :
    main { w with staleCloseOk := b } opts args = main w opts args := by
  have h0 : MainState.init.staleClose = false := rfl
  cases hp : parseOptions opts MainState.init with
  | help => simp only [main, hp]
  | error l =>
    have hs := parseOptions_staleClose opts _ _ (Or.inr hp)
    simp only [main, hp, errorExit]
    exact congrArg some (cleanup_stale_indep w b [] _
      (show ({ l with status := 1 } : MainState).staleClose = false from hs.trans h0))
  | done l =>
    have hs := (parseOptions_staleClose opts _ _ (Or.inl hp)).trans h0
    obtain ⟨kt, out, hl⟩ := parseOptions_done opts _ _ hp
    have hc : l.keyfpClosed = false := by rw [hl]; rfl
    cases args with
    | nil =>
      simp only [main, hp, errorExit]
      exact congrArg some (cleanup_stale_indep w b [] _
        (show ({ l.log [Event.keyRequired, Event.usage] with status := 1 } : MainState).staleClose
          = false from hs))
    | cons keyarg files =>
      simp only [main, hp, mainBody_stale_indep]
      cases hmb : mainBody w keyarg files l with
      | none => rfl
      | some fl =>
        have hfl := mainBody_staleClose w keyarg files l fl hmb hs hc
        simp only [reachesStaleClose, hp] at h
        rw [h] at hfl
        cases fl with
        | error l1 =>
          simp only [errorExit]
          exact congrArg some (cleanup_stale_indep w b keyarg _
            (show ({ l1 with status := 1 } : MainState).staleClose = false from hfl))
        | next l1 =>
          exact congrArg some (cleanup_stale_indep w b keyarg l1 hfl)

theorem reachesStaleClose_of_state (w : World) (opts : List OptRet) (keyarg : CStr)
    (files : List CStr) (l l1 : MainState)
    (hopts : parseOptions opts MainState.init = Parsed.done l)
    (hkey : loadKey w keyarg l = some (Flow.next l1)) (hdefined : l1.staleClose = false) :
    reachesStaleClose w opts (keyarg :: files) = false := by
  simp only [reachesStaleClose, hopts, hkey]
  exact hdefined

/-! ## The claims -/

/-- C1: for a key of length k >= 1 and any finite input (each read delivers k bytes unless
fewer remain), on a sink that accepts the bytes, `fxor` returns 0 and the bytes it writes
are `out` with `out[i] = input[i] XOR key[i mod k]` for every `i < length input`; key
`[0x01]` on input `[0x00, 0x01, 0x02]` gives `[0x01, 0x00, 0x03]`. -/
theorem fxor_output_is_cyclic_xor (iid : Fp) (data : List Nat) (inname : CStr)
    (outfp : OutStream) (outname : CStr) (key : List Nat) (hk : 1 ≤ key.length)
    (hroom : ∀ r, outfp.room = some r → data.length ≤ r) :
    (∃ r out, fxor ⟨iid, data, false, false⟩ inname outfp outname key key.length = some r ∧
      r.ret = 0 ∧ r.outfp.written = outfp.written ++ out ∧ out.length = data.length ∧
      ∀ i, i < data.length → out.getD i 0 = data.getD i 0 ^^^ key.getD (i % key.length) 0) ∧
    (fxor ⟨Fp.stdin, [0x00, 0x01, 0x02], false, false⟩ (cstr "<stdin>") ⟨Fp.stdout, [], none⟩
      (cstr "<stdout>") [0x01] 1).map (fun r => (r.ret, r.outfp.written))
      = some (0, [0x01, 0x00, 0x03]) := by
  refine ⟨?_, by decide⟩
  obtain ⟨r, hr, hret, hout⟩ := fxor_clean iid data inname outfp outname key hk hroom
  refine ⟨r, cyclicXor key data, hr, hret, by rw [hout], cyclicXor_length key data, ?_⟩
  intro i hi
  exact cyclicXor_getD key data i hi

theorem fxor_output_is_cyclic_xor_witness :
    1 ≤ [1, 2].length ∧
    (∀ r, (⟨Fp.outfp, [], some 5⟩ : OutStream).room = some r →
      [10, 20, 30, 40, 50].length ≤ r) ∧
    ((∃ r out, fxor ⟨Fp.infp 1, [10, 20, 30, 40, 50], false, false⟩ (cstr "in")
        ⟨Fp.outfp, [], some 5⟩ (cstr "out") [1, 2] [1, 2].length = some r ∧
      r.ret = 0 ∧ r.outfp.written = [] ++ out ∧ out.length = [10, 20, 30, 40, 50].length ∧
      ∀ i, i < [10, 20, 30, 40, 50].length →
        out.getD i 0 = [10, 20, 30, 40, 50].getD i 0 ^^^ [1, 2].getD (i % [1, 2].length) 0) ∧
    (fxor ⟨Fp.stdin, [0x00, 0x01, 0x02], false, false⟩ (cstr "<stdin>") ⟨Fp.stdout, [], none⟩
      (cstr "<stdout>") [0x01] 1).map (fun r => (r.ret, r.outfp.written))
      = some (0, [0x01, 0x00, 0x03])) :=
  ⟨by decide, by intro r hr; cases hr; decide,
    fxor_output_is_cyclic_xor (Fp.infp 1) [10, 20, 30, 40, 50] (cstr "in")
      ⟨Fp.outfp, [], some 5⟩ (cstr "out") [1, 2] (by decide) (by intro r hr; cases hr; decide)⟩

/-- C2: for a non-empty key, running `fxor` on an input and then again on what it wrote,
with the same key, gives back the input (the empty input included). -/
theorem fxor_twice_is_identity (data key : List Nat) (hk : key ≠ [])
    (iid iid2 oid oid2 : Fp) (inname outname inname2 outname2 : CStr) :
    ∃ r1 r2,
      fxor ⟨iid, data, false, false⟩ inname ⟨oid, [], none⟩ outname key key.length = some r1 ∧
      r1.ret = 0 ∧
      fxor ⟨iid2, r1.outfp.written, false, false⟩ inname2 ⟨oid2, [], none⟩ outname2 key
        key.length = some r2 ∧
      r2.ret = 0 ∧ r2.outfp.written = data := by
  have hk' : 0 < key.length := List.length_pos.mpr hk
  obtain ⟨r1, h1, hret1, hout1⟩ :=
    fxor_clean iid data inname ⟨oid, [], none⟩ outname key hk' (by intro r hr; cases hr)
  have hw1 : r1.outfp.written = cyclicXor key data := by rw [hout1]; simp
  obtain ⟨r2, h2, hret2, hout2⟩ :=
    fxor_clean iid2 r1.outfp.written inname2 ⟨oid2, [], none⟩ outname2 key hk'
      (by intro r hr; cases hr)
  refine ⟨r1, r2, h1, hret1, h2, hret2, ?_⟩
  rw [hout2, hw1]
  simp [cyclicXor_involutive]

theorem fxor_twice_is_identity_witness :
    [5, 6] ≠ ([] : List Nat) ∧
    ∃ r1 r2,
      fxor ⟨Fp.stdin, [7, 8, 9], false, false⟩ (cstr "<stdin>") ⟨Fp.stdout, [], none⟩
        (cstr "<stdout>") [5, 6] [5, 6].length = some r1 ∧
      r1.ret = 0 ∧
      fxor ⟨Fp.stdin, r1.outfp.written, false, false⟩ (cstr "<stdin>") ⟨Fp.stdout, [], none⟩
        (cstr "<stdout>") [5, 6] [5, 6].length = some r2 ∧
      r2.ret = 0 ∧ r2.outfp.written = [7, 8, 9] :=
  ⟨by decide,
    fxor_twice_is_identity [7, 8, 9] [5, 6] (by decide) Fp.stdin Fp.stdin Fp.stdout Fp.stdout
      (cstr "<stdin>") (cstr "<stdout>") (cstr "<stdin>") (cstr "<stdout>")⟩

/-- C5: in hex mode, when the key buffer is allocated, a string `s` of even length made
only of hex digits loads as a key of exactly `length s / 2` bytes whose byte `i` is
`16 * v(s[2i]) + v(s[2i+1])`; the lower-case digits `a`-`f` decode as their upper-case
forms; and "00ff" decodes to `[0x00, 0xFF]`. -/
theorem hex_key_is_pairwise_decoding (w : World) (s : CStr) (l : MainState)
    (hmode : l.key_type = KeyType.KEY_HEX) (halloc : w.keyAllocOk = true)
    (heven : s.length % 2 = 0) (hhex : ∀ c ∈ s, isHexDigit c = true) :
    (∃ key, loadKey w s l
        = some (Flow.next { l with key_size := s.length / 2, key := some key }) ∧
      key.length = s.length / 2 ∧
      ∀ i, i < s.length / 2 →
        key.getD i 0 = 16 * hexVal (s.getD (2 * i) 0) + hexVal (s.getD (2 * i + 1) 0)) ∧
    (∀ c, 97 ≤ c → c ≤ 102 → parse_half_hex_byte c = parse_half_hex_byte (c - 32)) ∧
    hexDecode (cstr "00ff") = some (Decoded.ok [0x00, 0xFF]) := by
  refine ⟨?_, ?_, by decide⟩
  · obtain ⟨key, hk, hlen, hget⟩ := hexDecode_ok s heven hhex
    refine ⟨key, ?_, hlen, hget⟩
    simp [loadKey, hmode, loadHexKey, halloc, hk]
  · intro c h1 h2
    have : ∀ d : Fin 103, 97 ≤ d.val →
        parse_half_hex_byte d.val = parse_half_hex_byte (d.val - 32) := by decide
    exact this ⟨c, by omega⟩ h1

theorem hex_key_is_pairwise_decoding_witness :
    MainState.init.key_type = KeyType.KEY_HEX ∧
    (cstr "1aF0").length % 2 = 0 ∧ (∀ c ∈ cstr "1aF0", isHexDigit c = true) ∧
    ((∃ key, loadKey ⟨fun _ => ⟨false, false, 0, [], false, false⟩, [], false, true, none,
          true, true, true, false⟩ (cstr "1aF0") MainState.init
        = some (Flow.next { MainState.init with
            key_size := (cstr "1aF0").length / 2, key := some key }) ∧
      key.length = (cstr "1aF0").length / 2 ∧
      ∀ i, i < (cstr "1aF0").length / 2 →
        key.getD i 0 = 16 * hexVal ((cstr "1aF0").getD (2 * i) 0)
          + hexVal ((cstr "1aF0").getD (2 * i + 1) 0)) ∧
    (∀ c, 97 ≤ c → c ≤ 102 → parse_half_hex_byte c = parse_half_hex_byte (c - 32)) ∧
    hexDecode (cstr "00ff") = some (Decoded.ok [0x00, 0xFF])) :=
  ⟨rfl, by decide, by decide,
    hex_key_is_pairwise_decoding
      ⟨fun _ => ⟨false, false, 0, [], false, false⟩, [], false, true, none, true, true, true,
        false⟩
      (cstr "1aF0") MainState.init rfl rfl (by decide) (by decide)⟩

/-- C6: on a C string (no NUL inside), the hex decode loop ends with a decode error if and
only if the string has odd length or holds a character that is not a hex digit, and ends
with a key if and only if it has even length and only hex digits; "0" and "0g" fail, the
empty string passes. -/
theorem hex_decode_error_iff_malformed (s : CStr) (hs : ∀ c ∈ s, c ≠ 0) :
    ((∃ index, hexDecode s = some (Decoded.error index)) ↔
      (s.length % 2 = 1 ∨ ∃ c ∈ s, isHexDigit c = false)) ∧
    ((∃ key, hexDecode s = some (Decoded.ok key)) ↔
      (s.length % 2 = 0 ∧ ∀ c ∈ s, isHexDigit c = true)) ∧
    (∃ index, hexDecode (cstr "0") = some (Decoded.error index)) ∧
    (∃ index, hexDecode (cstr "0g") = some (Decoded.error index)) ∧
    hexDecode (cstr "") = some (Decoded.ok []) := by
  have hcases : (s.length % 2 = 0 ∧ ∀ c ∈ s, isHexDigit c = true) ∨
      (s.length % 2 = 1 ∨ ∃ c ∈ s, isHexDigit c = false) := by
    by_cases h1 : s.length % 2 = 0
    · by_cases h2 : ∀ c ∈ s, isHexDigit c = true
      · exact Or.inl ⟨h1, h2⟩
      · right; right
        push_neg at h2
        obtain ⟨c, hc, hx⟩ := h2
        exact ⟨c, hc, by simpa using hx⟩
    · right; left; omega
  have hexcl : (s.length % 2 = 0 ∧ ∀ c ∈ s, isHexDigit c = true) →
      ¬ (s.length % 2 = 1 ∨ ∃ c ∈ s, isHexDigit c = false) := by
    rintro ⟨h1, h2⟩ (h3 | ⟨c, hc, hx⟩)
    · omega
    · rw [h2 c hc] at hx; exact Bool.noConfusion hx
  refine ⟨⟨?_, ?_⟩, ⟨?_, ?_⟩, ⟨0, by decide⟩, ⟨0, by decide⟩, by decide⟩
  · rintro ⟨index, hidx⟩
    rcases hcases with hgood | hbad
    · obtain ⟨key, hk, _⟩ := hexDecode_ok s hgood.1 hgood.2
      rw [hk] at hidx
      simp at hidx
    · exact hbad
  · intro hbad
    exact ⟨_, hexDecode_error s hs (fun hgood => hexcl hgood hbad)⟩
  · rintro ⟨key, hk⟩
    rcases hcases with hgood | hbad
    · exact hgood
    · rw [hexDecode_error s hs (fun hgood => hexcl hgood hbad)] at hk
      simp at hk
  · intro hgood
    obtain ⟨key, hk, _⟩ := hexDecode_ok s hgood.1 hgood.2
    exact ⟨key, hk⟩

theorem hex_decode_error_iff_malformed_witness :
    (∀ c ∈ cstr "12x4", c ≠ 0) ∧
    (((∃ index, hexDecode (cstr "12x4") = some (Decoded.error index)) ↔
      ((cstr "12x4").length % 2 = 1 ∨ ∃ c ∈ cstr "12x4", isHexDigit c = false)) ∧
    ((∃ key, hexDecode (cstr "12x4") = some (Decoded.ok key)) ↔
      ((cstr "12x4").length % 2 = 0 ∧ ∀ c ∈ cstr "12x4", isHexDigit c = true)) ∧
    (∃ index, hexDecode (cstr "0") = some (Decoded.error index)) ∧
    (∃ index, hexDecode (cstr "0g") = some (Decoded.error index)) ∧
    hexDecode (cstr "") = some (Decoded.ok [])) :=
  ⟨by decide, hex_decode_error_iff_malformed (cstr "12x4") (by decide)⟩

/-- C7 as stated fails: for the key "0g" the first invalid digit is at index 1, and the
decode error reports index 0. -/
theorem hex_error_index_counterexample :
    hexDecode (cstr "0g") = some (Decoded.error 0) ∧ firstInvalidDigit (cstr "0g") = 1 := by
  decide

/-- C7, amended: on a C string, whenever the hex decode loop fails, the index it reports
is the index of the first character of the pair that holds the first invalid digit: the
index of the first invalid digit rounded down to an even number, the terminating NUL of
an odd-length string of hex digits counting as the invalid digit. -/
theorem hex_error_index_is_pair_start (s : CStr) (hs : ∀ c ∈ s, c ≠ 0) (index : Nat)
    (hfail : hexDecode s = some (Decoded.error index)) :
    index = 2 * (firstInvalidDigit s / 2) := by
  by_cases hgood : s.length % 2 = 0 ∧ ∀ c ∈ s, isHexDigit c = true
  · obtain ⟨key, hk, _⟩ := hexDecode_ok s hgood.1 hgood.2
    rw [hk] at hfail
    simp at hfail
  · rw [hexDecode_error s hs hgood] at hfail
    simp only [Option.some.injEq, Decoded.error.injEq] at hfail
    exact hfail.symm

theorem hex_error_index_is_pair_start_witness :
    (∀ c ∈ cstr "abc", c ≠ 0) ∧ hexDecode (cstr "abc") = some (Decoded.error 2) ∧
    2 = 2 * (firstInvalidDigit (cstr "abc") / 2) :=
  ⟨by decide, by decide,
    hex_error_index_is_pair_start (cstr "abc") (by decide) 2 (by decide)⟩

/-- C3: in a run that does not reach the cleanup with a key stream that is closed
already, when the key loads and is not empty and no I/O error occurs (the buffer is
allocated, the output opens and has room, every named file opens, reads and closes, or
standard input reads without error), `main` returns, with the same result whatever a
close of a closed stream would answer, and the number of bytes the output sink has
accepted is the sum of the lengths of the input sources. -/
theorem output_length_is_total_input_length (w : World) (opts : List OptRet) (keyarg : CStr)
    (files : List CStr) (l l1 : MainState)
    (hopts : parseOptions opts MainState.init = Parsed.done l)
    (hkey : loadKey w keyarg l = some (Flow.next l1)) (hne : l1.key_size ≠ 0)
    (hdefined : l1.staleClose = false)
    (hbuf : w.bufAllocOk = true) (hopen : l.output ≠ none → w.outOpenOk = true)
    (hstdin : files = [] → w.stdinFailing = false)
    (hfiles : ∀ f ∈ files, (w.file f).openOk = true ∧ (w.file f).failing = false ∧
      (w.file f).closeOk = true)
    (hroom : ∀ n, w.outRoom = some n → totalLength (inputSources w files) ≤ n) :
    ∃ r, main w opts (keyarg :: files) = some r ∧
      (∀ b, main { w with staleCloseOk := b } opts (keyarg :: files) = some r) ∧
      r.output.length = totalLength (inputSources w files) := by
  have hreach := reachesStaleClose_of_state w opts keyarg files l l1 hopts hkey hdefined
  obtain ⟨r, key, hr, _, _, hout⟩ :=
    main_clean w opts keyarg files l l1 hopts hkey hne hbuf hopen hstdin hfiles hroom
  exact ⟨r, hr, fun b => (main_defined w opts _ b hreach).trans hr,
    by rw [hout, concatTransforms_length]⟩

theorem output_length_is_total_input_length_witness :
    parseOptions [⟨'s', none, 0⟩, ⟨'o', some (cstr "out"), 0⟩] MainState.init
      = Parsed.done { MainState.init with
          key_type := KeyType.KEY_STR, output := some (cstr "out") } ∧
    ({ MainState.init with
        key_type := KeyType.KEY_STR, output := some (cstr "out"), key_size := 2,
        key := some (cstr "ab") } : MainState).staleClose = false ∧
    totalLength (inputSources quietWorld [cstr "f1", cstr "f2", cstr "f1"]) = 5 ∧
    ∃ r, main quietWorld [⟨'s', none, 0⟩, ⟨'o', some (cstr "out"), 0⟩]
        (cstr "ab" :: [cstr "f1", cstr "f2", cstr "f1"]) = some r ∧
      (∀ b, main { quietWorld with staleCloseOk := b }
        [⟨'s', none, 0⟩, ⟨'o', some (cstr "out"), 0⟩]
        (cstr "ab" :: [cstr "f1", cstr "f2", cstr "f1"]) = some r) ∧
      r.output.length = totalLength (inputSources quietWorld [cstr "f1", cstr "f2", cstr "f1"]) :=
  ⟨by decide, by decide, by decide,
    output_length_is_total_input_length quietWorld
      [⟨'s', none, 0⟩, ⟨'o', some (cstr "out"), 0⟩] (cstr "ab")
      [cstr "f1", cstr "f2", cstr "f1"]
      { MainState.init with key_type := KeyType.KEY_STR, output := some (cstr "out") }
      { MainState.init with
          key_type := KeyType.KEY_STR, output := some (cstr "out"), key_size := 2,
          key := some (cstr "ab") }
      (by decide) (by decide) (by decide) (by decide) (by decide) (by decide) (by decide)
      (by decide)
      (fun n hn => Option.noConfusion (show (none : Option Nat) = some n from hn))⟩

/-- C4: in a run that does not reach the cleanup with a key stream that is closed
already, when input files `f1 .. fn` are given (and the key loads, is not empty, and no
I/O error occurs), `main` returns, with the same result whatever a close of a closed
stream would answer, and the output is `T(f1) ++ ... ++ T(fn)` in argument order, each
`T(f)` taking the key from offset 0; with key "ab" and two files holding one zero byte
each the output is "aa", not the transform "ab" of the concatenated files. -/
theorem output_is_concatenation_of_file_transforms (w : World) (opts : List OptRet)
    (keyarg : CStr) (files : List CStr) (l l1 : MainState)
    (hopts : parseOptions opts MainState.init = Parsed.done l)
    (hkey : loadKey w keyarg l = some (Flow.next l1)) (hne : l1.key_size ≠ 0)
    (hdefined : l1.staleClose = false)
    (hseveral : files ≠ [])
    (hbuf : w.bufAllocOk = true) (hopen : l.output ≠ none → w.outOpenOk = true)
    (hfiles : ∀ f ∈ files, (w.file f).openOk = true ∧ (w.file f).failing = false ∧
      (w.file f).closeOk = true)
    (hroom : ∀ n, w.outRoom = some n →
      totalLength (files.map (fun f => (w.file f).data)) ≤ n) :
    (∃ r key, main w opts (keyarg :: files) = some r ∧
      (∀ b, main { w with staleCloseOk := b } opts (keyarg :: files) = some r) ∧
      l1.key = some key ∧
      r.output = concatTransforms key (files.map (fun f => (w.file f).data))) ∧
    ((main quietWorld [⟨'s', none, 0⟩] [cstr "ab", cstr "f1", cstr "f1"]).map Result.output
        = some (cstr "aa") ∧
      cyclicXor (cstr "ab") ((quietWorld.file (cstr "f1")).data
        ++ (quietWorld.file (cstr "f1")).data) = cstr "ab") := by
  have hsrc : inputSources w files = files.map (fun f => (w.file f).data) := by
    cases files with
    | nil => exact absurd rfl hseveral
    | cons f rest => rfl
  have hreach := reachesStaleClose_of_state w opts keyarg files l l1 hopts hkey hdefined
  refine ⟨?_, by decide, by decide⟩
  obtain ⟨r, key, hr, hk, _, hout⟩ :=
    main_clean w opts keyarg files l l1 hopts hkey hne hbuf hopen
      (fun h => absurd h hseveral) hfiles (by rw [hsrc]; exact hroom)
  exact ⟨r, key, hr, fun b => (main_defined w opts _ b hreach).trans hr, hk,
    by rw [hout, hsrc]⟩

theorem output_is_concatenation_of_file_transforms_witness :
    loadKey quietWorld (cstr "0102") MainState.init
      = some (Flow.next { MainState.init with key_size := 2, key := some [1, 2] }) ∧
    ({ MainState.init with key_size := 2, key := some [1, 2] } : MainState).staleClose
      = false ∧
    ((∃ r key, main quietWorld [] (cstr "0102" :: [cstr "f2", cstr "f1"]) = some r ∧
      (∀ b, main { quietWorld with staleCloseOk := b } []
        (cstr "0102" :: [cstr "f2", cstr "f1"]) = some r) ∧
      ({ MainState.init with key_size := 2, key := some [1, 2] } : MainState).key = some key ∧
      r.output = concatTransforms key
        ([cstr "f2", cstr "f1"].map (fun f => (quietWorld.file f).data))) ∧
    ((main quietWorld [⟨'s', none, 0⟩] [cstr "ab", cstr "f1", cstr "f1"]).map Result.output
        = some (cstr "aa") ∧
      cyclicXor (cstr "ab") ((quietWorld.file (cstr "f1")).data
        ++ (quietWorld.file (cstr "f1")).data) = cstr "ab")) :=
  ⟨by decide, by decide,
    output_is_concatenation_of_file_transforms quietWorld [] (cstr "0102")
      [cstr "f2", cstr "f1"] MainState.init
      { MainState.init with key_size := 2, key := some [1, 2] }
      (by decide) (by decide) (by decide) (by decide) (by decide) (by decide) (by decide)
      (by decide)
      (fun n hn => Option.noConfusion (show (none : Option Nat) = some n from hn))⟩

/-- C8 fails in file mode. With an existing empty key file the run stops at the read of
the key (`fread` of one item of 0 bytes returns 0) and reports that read with `perror`;
the message "KEY cannot be empty" is never printed. The empty hex string and the empty
string of string mode do reach it. All three runs exit with status 1. -/
theorem empty_key_file_is_reported_as_read_error :
    main quietWorld [⟨'f', none, 0⟩] [cstr "empty"]
      = some ⟨1, [Event.fopen Fp.keyfp (cstr "empty") true, Event.fstat Fp.keyfp true,
          Event.fread Fp.keyfp 0 1 0, Event.perror (cstr "empty"),
          Event.fclose Fp.keyfp true], []⟩ ∧
    main quietWorld [⟨'x', none, 0⟩] [cstr ""] = some ⟨1, [Event.keyEmpty], []⟩ ∧
    main quietWorld [⟨'s', none, 0⟩] [cstr ""] = some ⟨1, [Event.keyEmpty], []⟩ := by
  decide

/-- C9 fails in file mode. With a key file that loads, the key stream is opened once and
closed twice: once at line 198 after the key is read, and again at line 276 in the
cleanup, because `keyfp` is not reset to NULL after the first close. The input file of
the same run is opened once and closed once. -/
theorem key_file_is_closed_twice :
    (main quietWorld [⟨'f', none, 0⟩] [cstr "key", cstr "f1"]).map
      (fun r => (openCount Fp.keyfp r.trace, closeCount Fp.keyfp r.trace,
        openCount (Fp.infp 1) r.trace, closeCount (Fp.infp 1) r.trace))
      = some (1, 2, 1, 1) ∧
    (main quietWorld [⟨'f', none, 0⟩] [cstr "key", cstr "f1"]).map Result.trace
      = some [Event.fopen Fp.keyfp (cstr "key") true, Event.fstat Fp.keyfp true,
          Event.fread Fp.keyfp 2 1 1, Event.fclose Fp.keyfp true,
          Event.fopen (Fp.infp 1) (cstr "f1") true, Event.fread (Fp.infp 1) 1 2 1,
          Event.fwrite Fp.stdout [1] true, Event.fread (Fp.infp 1) 1 2 0,
          Event.fclose (Fp.infp 1) true, Event.fclose Fp.keyfp true] := by
  decide

/-- C10: when the option loop ends normally and either no `KEY` argument is left or key
loading does not end with a non-empty key (it fails for whatever reason: allocation,
malformed hex, key-file open, stat, read or close; or the key is empty), `main` returns
status 1, the output sink has accepted nothing, and no event touches an input source or
the output: no stream other than the key file is opened, read, written or closed. -/
theorem key_failure_touches_no_input_or_output (w : World) (opts : List OptRet)
    (args : List CStr) (l : MainState)
    (hopts : parseOptions opts MainState.init = Parsed.done l)
    (hfail : ∀ keyarg files l1, args = keyarg :: files →
      loadKey w keyarg l = some (Flow.next l1) → l1.key_size = 0) :
    ∃ r, main w opts args = some r ∧ r.status = 1 ∧ r.output = [] ∧
      ∀ e ∈ r.trace, Event.onData e = false := by
  obtain ⟨kt, out, hl⟩ := parseOptions_done opts MainState.init l hopts
  have hlin : l.infp = none := by rw [hl]; rfl
  have hlout : l.outfp = none := by rw [hl]; rfl
  have hltr : l.trace = [] := by rw [hl]; rfl
  cases args with
  | nil =>
    simp only [main, hopts]
    refine ⟨_, rfl, ?_⟩
    refine errorExit_no_data w [] (l.log [Event.keyRequired, Event.usage]) hlin hlout ?_
    intro e he
    simp only [MainState.log, hltr, List.nil_append, List.mem_cons, List.mem_singleton,
      List.not_mem_nil, or_false] at he
    rcases he with rfl | rfl <;> rfl
  | cons keyarg files =>
    obtain ⟨fl, hfl, hin, hout, _, es, htr, hes⟩ := loadKey_frame w keyarg l
    have hesl : ∀ e ∈ l.trace ++ es, Event.onData e = false := by
      intro e he
      rw [hltr, List.nil_append] at he
      exact hes e he
    cases fl with
    | error l1 =>
      simp only [Flow.state] at hin hout htr
      simp only [main, hopts, mainBody, hfl]
      refine ⟨_, rfl, ?_⟩
      refine errorExit_no_data w keyarg l1 (by rw [← hlin, ← hin]) (by rw [← hlout, ← hout]) ?_
      intro e he
      exact hesl e (by rw [← htr]; exact he)
    | next l1 =>
      simp only [Flow.state] at hin hout htr
      have hz := hfail keyarg files l1 rfl hfl
      simp only [main, hopts, mainBody, hfl, hz, if_true]
      refine ⟨_, rfl, ?_⟩
      refine errorExit_no_data w keyarg (l1.log [Event.keyEmpty])
        (by rw [← hlin, ← hin]; rfl) (by rw [← hlout, ← hout]; rfl) ?_
      intro e he
      simp only [MainState.log, List.mem_append, List.mem_singleton] at he
      rcases he with he | rfl
      · exact hesl e (by rw [← htr]; exact he)
      · rfl

theorem key_failure_touches_no_input_or_output_witness :
    parseOptions [⟨'o', some (cstr "out"), 0⟩] MainState.init
      = Parsed.done { MainState.init with output := some (cstr "out") } ∧
    main quietWorld [⟨'o', some (cstr "out"), 0⟩] [cstr "0g", cstr "f1"]
      = some ⟨1, [Event.hexError 0], []⟩ ∧
    ∃ r, main quietWorld [⟨'o', some (cstr "out"), 0⟩] [cstr "0g", cstr "f1"] = some r ∧
      r.status = 1 ∧ r.output = [] ∧ ∀ e ∈ r.trace, Event.onData e = false :=
  ⟨by decide, by decide,
    key_failure_touches_no_input_or_output quietWorld [⟨'o', some (cstr "out"), 0⟩]
      [cstr "0g", cstr "f1"] { MainState.init with output := some (cstr "out") }
      (by decide)
      (by
        intro keyarg files l1 hargs hload
        simp only [List.cons.injEq] at hargs
        obtain ⟨hk, _⟩ := hargs
        subst hk
        have herr : loadKey quietWorld (cstr "0g")
            { MainState.init with output := some (cstr "out") }
            = some (Flow.error ({ MainState.init with
                output := some (cstr "out"), key_size := 1, key := some [0] }.log
                [Event.hexError 0])) := by decide
        rw [herr] at hload
        cases hload)⟩

/-- C13: for a non-empty key, on any stream and any sink, `fxor` returns 0 or -1, and -1
exactly when the last read reported an error (the error indicator is set) or a write did
not transfer its whole chunk. After the failing call only the message follows: the
events end with the failing read or write and `perror`, so no further read or write is
made. A write that transfers `a` bytes, `a` less than the chunk, ends the loop exactly as
a write that transfers none: same return value, same input stream, same events. -/
theorem fxor_fails_iff_read_error_or_incomplete_write (inname outname : CStr)
    (key : List Nat) (hk : 1 ≤ key.length) (iid : Fp) (data : List Nat) (failing : Bool)
    (outfp : OutStream) :
    (∃ r, fxor ⟨iid, data, failing, false⟩ inname outfp outname key key.length = some r ∧
      (r.ret = 0 ∨ r.ret = -1) ∧
      (r.ret = -1 ↔
        (r.infp.error = true ∨ ∃ e ∈ r.trace, Event.isFailedWrite e = true)) ∧
      (r.ret = -1 →
        (∃ pre c, r.trace = pre ++ [Event.fread iid 1 key.length c, Event.perror inname]) ∨
        (∃ pre buf, r.trace
          = pre ++ [Event.fwrite outfp.id buf false, Event.perror outname]))) ∧
    (∀ (fuel : Nat) (infp : InStream) (o : OutStream) (tr : List Event) (a : Nat),
      o.room = some a → a < (fread 1 key.length infp).1 →
      ¬ ((fread 1 key.length infp).1 < key.length ∧
          (fread 1 key.length infp).2.2.error = true) →
      ∃ r r0, fxorLoop inname outname key key.length (fuel + 1) infp o tr = some r ∧
        fxorLoop inname outname key key.length (fuel + 1) infp ⟨o.id, o.written, some 0⟩ tr
          = some r0 ∧
        r.ret = -1 ∧ r0.ret = -1 ∧ r.infp = r0.infp ∧ r.trace = r0.trace) := by
  constructor
  · obtain ⟨r, hr, _, _⟩ := fxor_spec inname outname key hk data iid failing outfp
    obtain ⟨es, htr, hev⟩ := fxorLoop_events inname outname key key.length hk _
      ⟨iid, data, failing, false⟩ outfp [] r rfl hr
    rw [List.nil_append] at htr
    refine ⟨r, hr, ?_, ?_, ?_⟩
    · rcases hev.ending with ⟨h, _⟩ | ⟨h, _⟩ | ⟨h, _⟩
      · exact Or.inl h
      · exact Or.inr h
      · exact Or.inr h
    · rcases hev.ending with ⟨h0, he, hw, _⟩ | ⟨h1, he, _⟩ | ⟨h1, _, pre, buf, hpre, _⟩
      · constructor
        · intro h; rw [h0] at h; exact absurd h (by decide)
        · rintro (h | ⟨e, hmem, hfw⟩)
          · rw [he] at h; exact Bool.noConfusion h
          · rw [htr] at hmem
            rw [hw e hmem] at hfw
            exact Bool.noConfusion hfw
      · exact ⟨fun _ => Or.inl he, fun _ => h1⟩
      · refine ⟨fun _ => Or.inr ⟨Event.fwrite outfp.id buf false, ?_, rfl⟩, fun _ => h1⟩
        rw [htr, hpre]
        simp
    · intro hneg
      rcases hev.ending with ⟨h0, _⟩ | ⟨_, _, _, pre, c, hpre⟩ | ⟨_, _, pre, buf, hpre, _⟩
      · rw [h0] at hneg; exact absurd hneg (by decide)
      · exact Or.inl ⟨pre, c, by rw [htr, hpre]⟩
      · exact Or.inr ⟨pre, buf, by rw [htr, hpre]⟩
  · intro fuel infp o tr a hroom ha hread
    obtain ⟨r, r0, h1, h2, h3, h4, h5, h6, _, _⟩ :=
      fxorLoop_short_write inname outname key key.length fuel infp o tr a hroom ha hread
    exact ⟨r, r0, h1, h2, h3, h4, h5, h6⟩

theorem fxor_fails_iff_read_error_or_incomplete_write_witness :
    1 ≤ [1, 2].length ∧
    ∃ r, fxor ⟨Fp.stdin, [0, 0, 0], false, false⟩ (cstr "<stdin>") ⟨Fp.stdout, [], some 3⟩
        (cstr "<stdout>") [1, 2] [1, 2].length = some r ∧
      (r.ret = 0 ∨ r.ret = -1) ∧
      (r.ret = -1 ↔
        (r.infp.error = true ∨ ∃ e ∈ r.trace, Event.isFailedWrite e = true)) ∧
      (r.ret = -1 →
        (∃ pre c, r.trace
          = pre ++ [Event.fread Fp.stdin 1 [1, 2].length c, Event.perror (cstr "<stdin>")]) ∨
        (∃ pre buf, r.trace
          = pre ++ [Event.fwrite (⟨Fp.stdout, [], some 3⟩ : OutStream).id buf false,
              Event.perror (cstr "<stdout>")])) :=
  ⟨by decide,
    (fxor_fails_iff_read_error_or_incomplete_write (cstr "<stdin>") (cstr "<stdout>") [1, 2]
      (by decide) Fp.stdin [0, 0, 0] false ⟨Fp.stdout, [], some 3⟩).1⟩

/-- C16 as stated fails: with key `[1, 2]` and the one-byte input `[0]` the first read
returns 1 byte (0 < 1 < 2, no error); after that chunk is written `fxor` reads again,
gets no byte, and only then returns 0. -/
theorem short_chunk_is_followed_by_another_read :
    fxor ⟨Fp.stdin, [0], false, false⟩ (cstr "<stdin>") ⟨Fp.stdout, [], none⟩
        (cstr "<stdout>") [1, 2] 2
      = some ⟨0, ⟨Fp.stdin, [], false, false⟩, ⟨Fp.stdout, [1], none⟩,
          [Event.fread Fp.stdin 1 2 1, Event.fwrite Fp.stdout [1] true,
            Event.fread Fp.stdin 1 2 0]⟩ := by
  decide

/-- C16, amended: a read that returns `c` bytes with `0 < c < k` and no error delivers
the last chunk. After XORing and writing those bytes `fxor` issues exactly one further
read, which returns no byte, and then returns 0. And on every stream and every sink,
every chunk handed to `fwrite` other than the final one has length exactly `k`. -/
theorem short_chunk_is_last_after_one_more_read (inname outname : CStr) (key : List Nat)
    (hk : 1 ≤ key.length) :
    (∀ (fuel : Nat) (iid : Fp) (data : List Nat) (outfp : OutStream) (tr : List Event),
      0 < data.length → data.length < key.length →
      (∀ n, outfp.room = some n → data.length ≤ n) →
      fxorLoop inname outname key key.length (fuel + 2) ⟨iid, data, false, false⟩ outfp tr
        = some ⟨0, ⟨iid, [], false, false⟩,
            ⟨outfp.id, outfp.written ++ cyclicXor key data,
              outfp.room.map (fun n => n - data.length)⟩,
            tr ++ [Event.fread iid 1 key.length data.length,
              Event.fwrite outfp.id (cyclicXor key data) true,
              Event.fread iid 1 key.length 0]⟩) ∧
    (∀ (iid : Fp) (data : List Nat) (failing : Bool) (outfp : OutStream),
      ∃ r, fxor ⟨iid, data, failing, false⟩ inname outfp outname key key.length = some r ∧
        ∀ c ∈ (writeSizes r.trace).dropLast, c = key.length) := by
  constructor
  · intro fuel iid data outfp tr h0 hlt hroom
    exact fxorLoop_last_chunk inname outname key fuel iid data outfp tr h0 hlt hroom
  · intro iid data failing outfp
    obtain ⟨r, hr, _, _⟩ := fxor_spec inname outname key hk data iid failing outfp
    obtain ⟨es, htr, hev⟩ := fxorLoop_events inname outname key key.length hk _
      ⟨iid, data, failing, false⟩ outfp [] r rfl hr
    rw [List.nil_append] at htr
    exact ⟨r, hr, by rw [htr]; exact hev.sizes⟩

theorem short_chunk_is_last_after_one_more_read_witness :
    1 ≤ [1, 2, 3].length ∧
    ∃ r, fxor ⟨Fp.stdin, [9, 9, 9, 9, 9, 9, 9], false, false⟩ (cstr "<stdin>")
        ⟨Fp.stdout, [], none⟩ (cstr "<stdout>") [1, 2, 3] [1, 2, 3].length = some r ∧
      ∀ c ∈ (writeSizes r.trace).dropLast, c = [1, 2, 3].length :=
  ⟨by decide,
    (short_chunk_is_last_after_one_more_read (cstr "<stdin>") (cstr "<stdout>") [1, 2, 3]
      (by decide)).2 Fp.stdin [9, 9, 9, 9, 9, 9, 9] false ⟨Fp.stdout, [], none⟩⟩

/-- C18: for a key of length `k >= 1`, on every finite stream and every sink: each
iteration of the loop of `fxor` either returns or goes on with fewer bytes left in the
stream; the loop returns within `n / k + 2` iterations; `fxor` returns having issued at
most `n / k + 2` reads; every chunk it hands to `fwrite` has a length between 1 and `k`;
and the number of bytes a read puts in the buffer is at most `k`, so the index of the XOR
loop stays below `k`. -/
theorem fxor_terminates_within_read_bound (inname outname : CStr) (key : List Nat)
    (hk : 1 ≤ key.length) (iid : Fp) (data : List Nat) (failing : Bool)
    (outfp : OutStream) :
    (∀ (fuel : Nat) (infp : InStream) (o : OutStream) (tr : List Event),
      infp.error = false →
      (∃ r, fxorLoop inname outname key key.length (fuel + 1) infp o tr = some r) ∨
      (∃ infp1 o1 tr1, infp1.data.length < infp.data.length ∧
        fxorLoop inname outname key key.length (fuel + 1) infp o tr
          = fxorLoop inname outname key key.length fuel infp1 o1 tr1)) ∧
    (∀ (fuel : Nat) (tr : List Event), data.length / key.length + 2 ≤ fuel →
      ∃ r, fxorLoop inname outname key key.length fuel ⟨iid, data, failing, false⟩ outfp tr
        = some r) ∧
    (∃ r, fxor ⟨iid, data, failing, false⟩ inname outfp outname key key.length = some r ∧
      r.trace.countP Event.isFread ≤ data.length / key.length + 2 ∧
      ∀ fp buf ok, Event.fwrite fp buf ok ∈ r.trace →
        1 ≤ buf.length ∧ buf.length ≤ key.length) ∧
    (∀ (infp : InStream) (index : Nat),
      index ∈ List.range (fread 1 key.length infp).1 → index < key.length) := by
  refine ⟨?_, ?_, ?_, ?_⟩
  · intro fuel infp o tr herr
    rcases fxorLoop_step inname outname key key.length hk fuel infp o tr herr with
      ⟨_, _, _, _, _, h⟩ | ⟨_, _, _, h⟩ | ⟨_, _, _, _, _, _, _, _, _, _, h⟩ |
      ⟨c, buf, infp1, o1, hc1, _, _, _, _, _, _, hcase, _, h⟩
    · exact Or.inl ⟨_, h⟩
    · exact Or.inl ⟨_, h⟩
    · exact Or.inl ⟨_, h⟩
    · right
      refine ⟨infp1, o1, _, ?_, h⟩
      rcases hcase with ⟨_, hle, hd⟩ | ⟨_, hn, hd⟩
      · rw [hd]; omega
      · rw [hd]; simp only [List.length_nil]; omega
  · intro fuel tr hfuel
    obtain ⟨r, hr, _⟩ :=
      fxorLoop_spec inname outname key hk fuel data iid failing outfp tr hfuel
    exact ⟨r, hr⟩
  · obtain ⟨r, hr, _, _⟩ := fxor_spec inname outname key hk data iid failing outfp
    obtain ⟨es, htr, hev⟩ := fxorLoop_events inname outname key key.length hk _
      ⟨iid, data, failing, false⟩ outfp [] r rfl hr
    rw [List.nil_append] at htr
    refine ⟨r, hr, ?_, ?_⟩
    · rw [htr]
      exact Nat.le_trans hev.reads (readBound_le key.length data.length)
    · intro fp buf ok hmem
      rw [htr] at hmem
      rcases hev.members _ hmem with ⟨c, h⟩ | ⟨b, k, h, h1, h2⟩ | h | h
      · cases h
      · cases h; exact ⟨h1, h2⟩
      · cases h
      · cases h
  · intro infp index hidx
    have := fread_count_le key.length infp
    rw [List.mem_range] at hidx
    omega

theorem fxor_terminates_within_read_bound_witness :
    1 ≤ [1, 2].length ∧
    ∃ r, fxor ⟨Fp.stdin, [5, 6, 7, 8, 9], true, false⟩ (cstr "<stdin>")
        ⟨Fp.stdout, [], some 3⟩ (cstr "<stdout>") [1, 2] [1, 2].length = some r ∧
      r.trace.countP Event.isFread ≤ [5, 6, 7, 8, 9].length / [1, 2].length + 2 ∧
      ∀ fp buf ok, Event.fwrite fp buf ok ∈ r.trace →
        1 ≤ buf.length ∧ buf.length ≤ [1, 2].length :=
  ⟨by decide,
    (fxor_terminates_within_read_bound (cstr "<stdin>") (cstr "<stdout>") [1, 2] (by decide)
      Fp.stdin [5, 6, 7, 8, 9] true ⟨Fp.stdout, [], some 3⟩).2.2.1⟩

/-- C15 fails: the table entry for "output" says `no_argument`, so for
`xor --output out 0102 f1` the call of `getopt_long` returns 'o' with `optarg` NULL and
leaves `out` as the first positional argument. The output path stays unset, `out` is
taken as the hex KEY and the run stops with the decode error at index 0; no output file
is opened. The short form `-o out` of the same command line does select `out`. -/
theorem long_output_option_takes_no_argument :
    getopt_long optstring options [cstr "--output", cstr "out", cstr "0102", cstr "f1"]
      = ([⟨'o', none, 0⟩], [cstr "out", cstr "0102", cstr "f1"]) ∧
    mainArgv quietWorld [cstr "xor", cstr "--output", cstr "out", cstr "0102", cstr "f1"]
      = some ⟨1, [Event.hexError 0], []⟩ ∧
    getopt_long optstring options [cstr "-o", cstr "out", cstr "0102", cstr "f1"]
      = ([⟨'o', some (cstr "out"), 0⟩], [cstr "0102", cstr "f1"]) ∧
    mainArgv quietWorld [cstr "xor", cstr "-o", cstr "out", cstr "0102", cstr "f1"]
      = some ⟨0, [Event.fopen Fp.outfp (cstr "out") true,
          Event.fopen (Fp.infp 1) (cstr "f1") true, Event.fread (Fp.infp 1) 1 2 1,
          Event.fwrite Fp.outfp [1] true, Event.fread (Fp.infp 1) 1 2 0,
          Event.fclose (Fp.infp 1) true, Event.fclose Fp.outfp true], [1]⟩ := by
  decide

/-- C17: for every key string, the hex decode loop, run with its memory accesses
recorded, gives the result of the decode loop, reads no character at an index above
`strlen(keyarg)` (never past the terminating NUL), and stores to `key[index]` only with
`index < strlen(keyarg) / 2`; on success, for a C string (no NUL inside), it has stored
to the indices `0 .. strlen(keyarg)/2 - 1` once each, and the key has that many bytes. -/
theorem hex_decode_stays_in_bounds (s : CStr) :
    ∃ r log, hexLoopLog s (s.length + 1) 0 0 (List.replicate (s.length / 2) 0) []
        = some (r, log) ∧
      hexDecode s = some r ∧
      (∀ o, Access.read o ∈ log → o ≤ s.length) ∧
      (∀ i, Access.write i ∈ log → i < s.length / 2) ∧
      ((∀ c ∈ s, c ≠ 0) → ∀ key, r = Decoded.ok key →
        writesOf log = List.range (s.length / 2) ∧ key.length = s.length / 2) := by
  obtain ⟨r, log1, hlog, hres, hreads, hwrites, hsucc⟩ :=
    hexLoopLog_spec s (s.length + 1) 0 0 (List.replicate (s.length / 2) 0) [] rfl
      (Nat.zero_le _) (by have := Nat.div_le_self s.length 2; simp only [Nat.sub_zero]; omega)
  rw [List.nil_append] at hlog
  refine ⟨r, log1, hlog, hres, hreads, hwrites, ?_⟩
  intro hs key hk
  refine ⟨?_, ?_⟩
  · rw [hsucc hs key hk, Nat.sub_zero, List.range_eq_range']
  · obtain ⟨r', hr', hlen⟩ := hexDecode_returns s
    unfold hexDecode at hr'
    rw [hres] at hr'
    cases hr'
    exact hlen key hk

/-- C11 as stated fails when the failure is a write that transfers part of its chunk.
The output device takes one byte; with the hex key 0102 and the file `f2` (three zero
bytes) the only call of `fwrite` is handed the chunk 1 2 and fails, so no chunk of `f2`
is written before the failure, and yet the output holds the byte 1. -/
theorem failed_write_leaves_part_of_its_chunk :
    main tightWorld [] [cstr "0102", cstr "f2", cstr "f1"]
      = some ⟨1, [Event.fopen (Fp.infp 1) (cstr "f2") true, Event.fread (Fp.infp 1) 1 2 2,
          Event.fwrite Fp.stdout [1, 2] false, Event.perror (cstr "<stdout>"),
          Event.fclose (Fp.infp 1) true], [1]⟩ ∧
    (main tightWorld [] [cstr "0102", cstr "f2", cstr "f1"]).map
      (fun r => (completeWrites r.trace, r.output)) = some ([], [1]) := by
  decide

/-- C11, amended: in a run that does not reach the cleanup with a key stream that is
closed already, the input files are opened in argument order, and the first file `f`
on which something fails (it does not open, reading it ends in an error, the sink has no
room for its bytes, or it does not close) ends the run with status 1, with the same
result whatever a close of a closed stream would answer. No file after `f`
is opened, read or closed, and the output holds the complete transforms of the files
before `f` followed by the part of the transform of `f` that the sink accepted: the
chunks written before the failure and, when the failure is a write, the bytes that this
write still transferred. -/
theorem first_failure_aborts_the_run (w : World) (opts : List OptRet) (keyarg : CStr)
    (pre : List CStr) (f : CStr) (post : List CStr) (l l1 : MainState)
    (hopts : parseOptions opts MainState.init = Parsed.done l)
    (hkey : loadKey w keyarg l = some (Flow.next l1)) (hne : l1.key_size ≠ 0)
    (hdefined : l1.staleClose = false)
    (hbuf : w.bufAllocOk = true) (hopen : l.output ≠ none → w.outOpenOk = true)
    (hpre : filesFine w pre w.outRoom)
    (hf : fileFails (w.file f)
      (w.outRoom.map (fun n => n - totalLength (pre.map (fun g => (w.file g).data))))) :
    ∃ r key, main w opts (keyarg :: (pre ++ f :: post)) = some r ∧
      (∀ b, main { w with staleCloseOk := b } opts (keyarg :: (pre ++ f :: post)) = some r) ∧
      l1.key = some key ∧ r.status = 1 ∧
      r.output = concatTransforms key (pre.map (fun g => (w.file g).data))
        ++ (cyclicXor key (w.file f).data).take
          (acceptedFrom key.length (w.file f)
            (w.outRoom.map (fun n => n - totalLength (pre.map (fun g => (w.file g).data))))) ∧
      openedInputs r.trace = List.range' 1 (pre.length + 1) ∧
      ∀ e ∈ r.trace, ∀ j, Event.fp e = some (Fp.infp j) → 1 ≤ j ∧ j ≤ pre.length + 1 := by
  have hreach := reachesStaleClose_of_state w opts keyarg (pre ++ f :: post) l l1 hopts hkey
    hdefined
  obtain ⟨l2, oid, kes, fl, key, hmain, hk, hfp, hin, hst, hkf, hkc, hout, hid, hkes, htr,
    _, hloop⟩ := main_sources w opts keyarg (pre ++ f :: post) l l1 hopts hkey hne hbuf hopen
  have hL := hloop (by simp)
  rcases hL.cases with ⟨l3, _, hfine, _⟩ |
    ⟨l3, pre1, f1, post1, hfl, hfiles, hpre1, hf1, ⟨o, ho, hoid, hwr⟩, hinfp, es, htr3, hev⟩
  · exact absurd hf (fine_append_not_fails w f post pre _ hfine)
  · obtain ⟨h1, h2, h3⟩ := first_failure_unique w pre pre1 f f1 post post1 w.outRoom hfiles
      hpre hf hpre1 hf1
    subst h1
    subst h2
    subst h3
    subst hfl
    obtain ⟨ces, hces, hcl⟩ := finish_events w keyarg (Flow.error l3)
    obtain ⟨hco, _, _⟩ := finish_events_close ces _ _ hcl
    simp only [Flow.state] at hces hcl
    obtain ⟨hopened, _, hbound⟩ := hev
    have hoes : ∀ e ∈ (match l.output with
        | some path => [Event.fopen Fp.outfp path true]
        | none => []), Event.fp e = some Fp.outfp := by
      intro e he
      cases hO : l.output with
      | none => simp [hO] at he
      | some path =>
        simp only [hO, List.mem_singleton] at he
        subst he
        rfl
    refine ⟨_, key, hmain, fun b => (main_defined w opts _ b hreach).trans hmain, hk,
      errorExit_status w keyarg l3, ?_, ?_, ?_⟩
    · rw [finish_output]
      simp only [Flow.state, ho, hwr, List.nil_append]
    · rw [hces, htr3, htr, openedInputs_append, openedInputs_append, openedInputs_append,
        hco, hopened,
        openedInputs_nil_of kes (fun e he j hj => by
          rcases onData_false_fp e (hkes e he) with h | h <;> rw [h] at hj <;> cases hj),
        openedInputs_nil_of _ (fun e he j hj => by
          rw [hoes e he] at hj
          cases hj)]
      simp
    · intro e he j hj
      rw [hces, htr3, htr] at he
      simp only [List.mem_append] at he
      rcases he with ((he | he) | he) | he
      · rcases onData_false_fp e (hkes e he) with h | h <;> rw [h] at hj <;> cases hj
      · rw [hoes e he] at hj
        cases hj
      · have := hbound e he j hj
        omega
      · rcases hcl e he with ⟨n, rfl⟩ | ⟨b, rfl⟩ | ⟨fp, b, hfp3, rfl⟩ | ⟨o1, b, ho1, rfl⟩
        · cases hj
        · cases hj
        · have hidj := hinfp fp hfp3
          simp only [Event.fp, Option.some.injEq] at hj
          rw [hidj] at hj
          cases hj
          omega
        · rw [ho] at ho1
          cases ho1
          simp only [Event.fp, Option.some.injEq] at hj
          rw [hoid] at hj
          simp only at hj
          rcases hid with h | h <;> rw [h] at hj <;> cases hj

theorem first_failure_aborts_the_run_witness :
    loadKey tightWorld (cstr "0102") MainState.init
      = some (Flow.next { MainState.init with key_size := 2, key := some [1, 2] }) ∧
    ({ MainState.init with key_size := 2, key := some [1, 2] } : MainState).staleClose
      = false ∧
    fileFails (tightWorld.file (cstr "f2"))
      (tightWorld.outRoom.map
        (fun n => n - totalLength (([] : List CStr).map (fun g => (tightWorld.file g).data)))) ∧
    ∃ r key, main tightWorld [] (cstr "0102" :: ([] ++ cstr "f2" :: [cstr "f1"])) = some r ∧
      (∀ b, main { tightWorld with staleCloseOk := b } []
        (cstr "0102" :: ([] ++ cstr "f2" :: [cstr "f1"])) = some r) ∧
      ({ MainState.init with key_size := 2, key := some [1, 2] } : MainState).key = some key ∧
      r.status = 1 ∧
      r.output = concatTransforms key (([] : List CStr).map (fun g => (tightWorld.file g).data))
        ++ (cyclicXor key (tightWorld.file (cstr "f2")).data).take
          (acceptedFrom key.length (tightWorld.file (cstr "f2"))
            (tightWorld.outRoom.map (fun n => n
              - totalLength (([] : List CStr).map (fun g => (tightWorld.file g).data))))) ∧
      openedInputs r.trace = List.range' 1 (([] : List CStr).length + 1) ∧
      ∀ e ∈ r.trace, ∀ j, Event.fp e = some (Fp.infp j) →
        1 ≤ j ∧ j ≤ ([] : List CStr).length + 1 :=
  ⟨by decide, by decide, Or.inr (Or.inr (Or.inl ⟨1, by decide, by decide⟩)),
    first_failure_aborts_the_run tightWorld [] (cstr "0102") [] (cstr "f2") [cstr "f1"]
      MainState.init { MainState.init with key_size := 2, key := some [1, 2] }
      (by decide) (by decide) (by decide) (by decide) (by decide) (by decide)
      ⟨fun f hf => absurd hf (List.not_mem_nil f), fun n _ => Nat.zero_le n⟩
      (Or.inr (Or.inr (Or.inl ⟨1, by decide, by decide⟩)))⟩

/-- C12: for a run that does not reach the cleanup with a key stream that is closed
already (that call of `fclose` is undefined in C), `main` returns, with the same result
whatever such a call would answer. After `-h`/`--help` it returns 0. Otherwise it
returns 0 if and only if every step succeeded (the option loop ends normally with a `KEY`
argument left, the key loads and is not empty, the buffer is allocated, the named output
opens, nothing fails on opening, transforming and closing the input sources, and the
close of the cleanup succeeds), and in every other case it returns exactly 1. -/
theorem exit_status_is_zero_iff_every_step_succeeds (w : World) (opts : List OptRet)
    (args : List CStr) (hdefined : reachesStaleClose w opts args = false) :
    ∃ r, main w opts args = some r ∧
      (∀ b, main { w with staleCloseOk := b } opts args = some r) ∧
      (parseOptions opts MainState.init = Parsed.help → r.status = 0) ∧
      (parseOptions opts MainState.init ≠ Parsed.help →
        (r.status = 0 ↔ everyStepSucceeds w opts args) ∧
        (¬ everyStepSucceeds w opts args → r.status = 1)) := by
  have core : ∃ r, main w opts args = some r ∧
      (parseOptions opts MainState.init = Parsed.help → r.status = 0) ∧
      (parseOptions opts MainState.init ≠ Parsed.help →
        (r.status = 0 ↔ everyStepSucceeds w opts args) ∧
        (¬ everyStepSucceeds w opts args → r.status = 1)) := by
    cases hp : parseOptions opts MainState.init with
    | help =>
      exact ⟨⟨0, [Event.usage], []⟩, by simp only [main, hp], fun _ => rfl,
        fun h => absurd rfl h⟩
    | error l =>
      refine ⟨errorExit w [] l, by simp only [main, hp], fun h => Parsed.noConfusion h,
        fun _ => ?_⟩
      apply status_one_iff _ _ (errorExit_status w [] l)
      rintro ⟨l', _, _, _, h, _⟩
      rw [hp] at h
      cases h
    | done l =>
      cases args with
      | nil =>
        refine ⟨errorExit w [] (l.log [Event.keyRequired, Event.usage]),
          by simp only [main, hp], fun h => Parsed.noConfusion h, fun _ => ?_⟩
        apply status_one_iff _ _ (errorExit_status w [] _)
        rintro ⟨_, _, _, _, _, h, _⟩
        cases h
      | cons keyarg files =>
        obtain ⟨r, hr, hiff, hone⟩ := main_status w opts keyarg files l hp hdefined
        exact ⟨r, hr, fun h => Parsed.noConfusion h, fun _ => ⟨hiff, hone⟩⟩
  obtain ⟨r, hr, hrest⟩ := core
  exact ⟨r, hr, fun b => (main_defined w opts args b hdefined).trans hr, hrest⟩

theorem exit_status_is_zero_iff_every_step_succeeds_witness :
    reachesStaleClose quietWorld [⟨'s', none, 0⟩, ⟨'o', some (cstr "out"), 0⟩]
        [cstr "ab", cstr "f1"] = false ∧
    (main quietWorld [⟨'s', none, 0⟩, ⟨'o', some (cstr "out"), 0⟩]
        [cstr "ab", cstr "f1"]).map Result.status = some 0 ∧
    (∃ r, main quietWorld [⟨'s', none, 0⟩, ⟨'o', some (cstr "out"), 0⟩]
        [cstr "ab", cstr "f1"] = some r ∧
      (∀ b, main { quietWorld with staleCloseOk := b }
        [⟨'s', none, 0⟩, ⟨'o', some (cstr "out"), 0⟩] [cstr "ab", cstr "f1"] = some r) ∧
      (parseOptions [⟨'s', none, 0⟩, ⟨'o', some (cstr "out"), 0⟩] MainState.init
          = Parsed.help → r.status = 0) ∧
      (parseOptions [⟨'s', none, 0⟩, ⟨'o', some (cstr "out"), 0⟩] MainState.init
          ≠ Parsed.help →
        (r.status = 0 ↔ everyStepSucceeds quietWorld
            [⟨'s', none, 0⟩, ⟨'o', some (cstr "out"), 0⟩] [cstr "ab", cstr "f1"]) ∧
        (¬ everyStepSucceeds quietWorld
            [⟨'s', none, 0⟩, ⟨'o', some (cstr "out"), 0⟩] [cstr "ab", cstr "f1"] →
          r.status = 1))) :=
  ⟨by decide, by decide,
    exit_status_is_zero_iff_every_step_succeeds quietWorld
      [⟨'s', none, 0⟩, ⟨'o', some (cstr "out"), 0⟩] [cstr "ab", cstr "f1"] (by decide)⟩

/-- C14: in a run with an output path that does not reach the cleanup with a key stream
that is closed already, once the key has loaded and is not empty and the buffer is
allocated, `main` returns, with the same result whatever a close of a closed stream
would answer, and the output is opened exactly once: the events of the run are those
of key loading, none of which touches an input source or the output, then the `fopen` of
the output path, then events that do not open the output again. Consequently, when this
`fopen` succeeds and the first input file does not open, the run ends with status 1, the
output file exists and holds no byte, and nothing is read but the key file. -/
theorem output_is_opened_once_before_any_input (w : World) (opts : List OptRet)
    (keyarg : CStr) (files : List CStr) (path : CStr) (l l1 : MainState)
    (hopts : parseOptions opts MainState.init = Parsed.done l)
    (hpath : l.output = some path)
    (hkey : loadKey w keyarg l = some (Flow.next l1)) (hne : l1.key_size ≠ 0)
    (hdefined : l1.staleClose = false)
    (hbuf : w.bufAllocOk = true) :
    ∃ r pre post, main w opts (keyarg :: files) = some r ∧
      (∀ b, main { w with staleCloseOk := b } opts (keyarg :: files) = some r) ∧
      r.trace = pre ++ Event.fopen Fp.outfp path w.outOpenOk :: post ∧
      (∀ e ∈ pre, Event.onData e = false) ∧
      (∀ e ∈ post, Event.isOutputOpen e = false) ∧
      (∀ f rest, files = f :: rest → w.outOpenOk = true → (w.file f).openOk = false →
        r.status = 1 ∧ r.output = [] ∧
        ∀ e ∈ r.trace, Event.isFread e = true → Event.fp e = some Fp.keyfp) := by
  have hreach := reachesStaleClose_of_state w opts keyarg files l l1 hopts hkey hdefined
  have core : ∃ r pre post, main w opts (keyarg :: files) = some r ∧
      r.trace = pre ++ Event.fopen Fp.outfp path w.outOpenOk :: post ∧
      (∀ e ∈ pre, Event.onData e = false) ∧
      (∀ e ∈ post, Event.isOutputOpen e = false) ∧
      (∀ f rest, files = f :: rest → w.outOpenOk = true → (w.file f).openOk = false →
        r.status = 1 ∧ r.output = [] ∧
        ∀ e ∈ r.trace, Event.isFread e = true → Event.fp e = some Fp.keyfp) := by
    by_cases hok : w.outOpenOk = true
    · obtain ⟨kes, es, ces, hkes, hpost, htrace⟩ :=
        main_sources_events w opts keyarg files l l1 hopts hkey hne hbuf (fun _ => hok)
      obtain ⟨l2, outfp, outname, kes2, hmain, hfp, hin, hk2, hs2, hst, hkf, hkc, hout, hw,
        hr, hid, hkes2, htr⟩ := main_run w opts keyarg files l l1 hopts hkey hne hbuf
          (fun _ => hok)
      obtain ⟨⟨key, hk, hlen⟩, _, _⟩ := loadKey_next w keyarg l l1 hkey
      cases hm : main w opts (keyarg :: files) with
      | none => rw [hm] at htrace; cases htrace
      | some r =>
        rw [hm, Option.map_some', Option.some.injEq] at htrace
        simp only [hpath] at htrace htr
        refine ⟨r, kes, es ++ ces, rfl, ?_, hkes, hpost, ?_⟩
        · rw [htrace, hok]
          simp only [List.append_assoc, List.singleton_append]
        · intro f rest hfiles _ hno
          subst hfiles
          rw [hm, processInputs_files w f rest outname outfp l2 key (hk2.trans hk)
            (by rw [hs2, hlen]), inputLoop] at hmain
          simp only [hno, if_true, Option.map_some', Option.some.injEq] at hmain
          subst hmain
          obtain ⟨ces1, hces1, hcl⟩ := finish_events w keyarg
            (Flow.error ({ { l2 with infilename := f } with infp := none }.log
              [Event.fopen (Fp.infp 1) f false, Event.perror f]))
          obtain ⟨_, _, hnr⟩ := finish_events_close ces1 _ _ hcl
          refine ⟨errorExit_status w keyarg _, ?_, ?_⟩
          · rw [finish_output]
            simp only [Flow.state, MainState.log, hfp, hw]
          · intro e he hread
            rw [hces1] at he
            simp only [Flow.state, MainState.log, htr, List.mem_append, List.mem_cons,
              List.mem_singleton, List.not_mem_nil, or_false] at he
            rcases he with ((he | he) | he | he) | he
            · rcases onData_false_fp e (hkes2 e he) with h | h
              · cases e <;> simp_all [Event.isFread, Event.fp]
              · exact h
            · subst he
              cases hread
            · subst he
              cases hread
            · subst he
              cases hread
            · rw [hnr e he] at hread
              cases hread
    · have hok1 : w.outOpenOk = false := by simpa using hok
      obtain ⟨kt, out, hl⟩ := parseOptions_done opts _ _ hopts
      have hl_tr : l.trace = [] := by rw [hl]; rfl
      obtain ⟨fl, hfl, _, _, hout, kes, htr, hkes⟩ := loadKey_frame w keyarg l
      rw [hkey] at hfl
      simp only [Option.some.injEq] at hfl
      subst hfl
      simp only [Flow.state] at hout htr
      rw [hl_tr, List.nil_append] at htr
      have hO1 : l1.output = some path := by rw [hout, hpath]
      obtain ⟨ces, hces, hcl⟩ := finish_events w keyarg
        (Flow.error ({ l1 with buf := true, output := some path }.log
          [Event.fopen Fp.outfp path false, Event.perror path]))
      obtain ⟨_, hco, _⟩ := finish_events_close ces _ _ hcl
      refine ⟨errorExit w keyarg
          ({ l1 with buf := true, output := some path }.log
            [Event.fopen Fp.outfp path false, Event.perror path]), kes,
          Event.perror path :: ces, ?_, ?_, hkes, ?_, ?_⟩
      · simp only [main, hopts, mainBody, hkey, hne, if_false, hbuf, Bool.true_eq_false,
          openOutput, hO1, hok1, if_true]
      · simp only [Flow.finish, Flow.state] at hces
        rw [hces, hok1]
        simp only [MainState.log, htr, List.append_assoc, List.cons_append, List.nil_append]
      · intro e he
        rcases List.mem_cons.mp he with h | h
        · subst h
          rfl
        · exact hco e h
      · intro f rest _ h _
        exact absurd h hok
  obtain ⟨r, pre, post, hr, hrest⟩ := core
  exact ⟨r, pre, post, hr, fun b => (main_defined w opts _ b hreach).trans hr, hrest⟩

theorem output_is_opened_once_before_any_input_witness :
    parseOptions [⟨'o', some (cstr "out"), 0⟩] MainState.init
      = Parsed.done { MainState.init with output := some (cstr "out") } ∧
    (quietWorld.file (cstr "nofile")).openOk = false ∧
    ({ MainState.init with output := some (cstr "out"), key_size := 2, key := some [1, 2] }
      : MainState).staleClose = false ∧
    main quietWorld [⟨'o', some (cstr "out"), 0⟩] [cstr "0102", cstr "nofile", cstr "f1"]
      = some ⟨1, [Event.fopen Fp.outfp (cstr "out") true,
          Event.fopen (Fp.infp 1) (cstr "nofile") false, Event.perror (cstr "nofile"),
          Event.fclose Fp.outfp true], []⟩ ∧
    ∃ r pre post,
      main quietWorld [⟨'o', some (cstr "out"), 0⟩]
        (cstr "0102" :: [cstr "nofile", cstr "f1"]) = some r ∧
      (∀ b, main { quietWorld with staleCloseOk := b } [⟨'o', some (cstr "out"), 0⟩]
        (cstr "0102" :: [cstr "nofile", cstr "f1"]) = some r) ∧
      r.trace = pre ++ Event.fopen Fp.outfp (cstr "out") quietWorld.outOpenOk :: post ∧
      (∀ e ∈ pre, Event.onData e = false) ∧
      (∀ e ∈ post, Event.isOutputOpen e = false) ∧
      (∀ f rest, [cstr "nofile", cstr "f1"] = f :: rest → quietWorld.outOpenOk = true →
        (quietWorld.file f).openOk = false →
        r.status = 1 ∧ r.output = [] ∧
        ∀ e ∈ r.trace, Event.isFread e = true → Event.fp e = some Fp.keyfp) :=
  ⟨by decide, by decide, by decide, by decide,
    output_is_opened_once_before_any_input quietWorld [⟨'o', some (cstr "out"), 0⟩]
      (cstr "0102") [cstr "nofile", cstr "f1"] (cstr "out")
      { MainState.init with output := some (cstr "out") }
      { MainState.init with output := some (cstr "out"), key_size := 2, key := some [1, 2] }
      (by decide) (by decide) (by decide) (by decide) (by decide) (by decide)⟩

end XorTool
